import Mathlib

/-!
# xivmudrafix: signature codec, offset parser and signature scanner

A shallow embedding of `memory.cpp` / `memory.hpp`.

* `std::string_view` is a `List Char`, one list element per C++ `char`.
* `std::size_t` values are natural numbers; arithmetic that can leave the
  64-bit range is reduced modulo `SIZE_MOD`.
* `unsigned char` values are natural numbers below 256.
* C++ exceptions are the `error` case of `Except`.
* Loops that the source does not bound take an iteration allowance; a result
  `none` means the allowance ran out, and a result `some _` does not change
  when the allowance grows (`mem_find_sig_fuel_le`).
-/

namespace XivMudraFix

/-! ## Machine constants -/

/-- Number of values of a `std::size_t` (2^64). -/
def SIZE_MOD : Nat := 18446744073709551616

/-- The constant `std::string_view::npos`, the largest `std::size_t`. -/
def npos : Nat := 18446744073709551615

/-- The NUL character, written `'\0'` in the source. -/
def NUL : Char := Char.ofNat 0

/-! ## `std::string_view` helpers -/

/-- Worker for `find_first_of`: `i` is the index of the head of the list. -/
def find_from (c : Char) : List Char → Nat → Nat
  | [], _ => npos
  | x :: xs, i => if x = c then i else find_from c xs (i + 1)

/-- The call `s.find_first_of(c)`: index of the first `c` in `s`, or `npos`. -/
def find_first_of (s : List Char) (c : Char) : Nat :=
  find_from c s 0

/-- The call `s.substr(pos, n)` for `pos ≤ s.size()`. -/
def substr (s : List Char) (pos n : Nat) : List Char :=
  (s.drop pos).take n

/-! ## `hexdec` (memory.cpp 8-22) -/

/-- Value of one hex digit, `0` for any other character. -/
def hexdec (nib : Char) : Nat :=
  if '0'.toNat ≤ nib.toNat ∧ nib.toNat ≤ '9'.toNat then nib.toNat - '0'.toNat
  else if 'A'.toNat ≤ nib.toNat ∧ nib.toNat ≤ 'F'.toNat then nib.toNat - 'A'.toNat + 10
  else if 'a'.toNat ≤ nib.toNat ∧ nib.toNat ≤ 'f'.toNat then nib.toNat - 'a'.toNat + 10
  else 0

/-! ## `decoded_sig_t` (memory.cpp 24-92) -/

/-- The two parallel arrays of a decoded signature. -/
structure decoded_sig_t where
  bytes : List Nat
  mask : List Nat
deriving DecidableEq, Repr

/-- The member `size()`: the length of `bytes`. -/
def decoded_sig_t.size (d : decoded_sig_t) : Nat := d.bytes.length

/-- Lines 40-50: split the token `byte_str` into the characters `c1`, `c2`. -/
def token_chars (byte_str : List Char) : Char × Char :=
  match byte_str with
  | [a] => (NUL, a)
  | [a, b] => (a, b)
  | _ => (NUL, NUL)

/-- Lines 52-63: the fix-up performed when `c2` is NUL. -/
def fix_chars (c : Char × Char) : Char × Char :=
  if c.2 = NUL then
    (if c.1 = '?' then (c.1, '?') else ('0', c.1))
  else c

/-- Lines 65-76: the byte value and mask value of the pair `c1`, `c2`. -/
def chars_value (c : Char × Char) : Nat × Nat :=
  let byteval : Nat := 0x00
  let maskval : Nat := 0xFF
  let maskval := if c.1 = '?' then maskval &&& 0x0F else maskval
  let byteval := if c.1 = '?' then byteval else (byteval ||| (hexdec c.1 <<< 4)) % 256
  let maskval := if c.2 = '?' then maskval &&& 0xF0 else maskval
  let byteval := if c.2 = '?' then byteval else (byteval ||| hexdec c.2) % 256
  (byteval, maskval)

/-- Lines 38-79: the byte/mask pair pushed for the token `byte_str`. -/
def decode_token (byte_str : List Char) : Nat × Nat :=
  chars_value (fix_chars (token_chars byte_str))

/-- Lines 36-85: the `while (!sig.empty())` loop.  `idx` is computed once
before the loop and never changes.  Every iteration removes at least one
character from `sig`, so `sig.length` iterations always suffice; the first
argument counts the iterations still allowed. -/
def decode_loop (idx : Nat) : Nat → List Char → decoded_sig_t → decoded_sig_t
  | 0, _, acc => acc
  | n + 1, sig, acc =>
    if sig.isEmpty then acc
    else
      let byte_str := substr sig 0 idx
      let v := decode_token byte_str
      let acc := { bytes := acc.bytes ++ [v.1], mask := acc.mask ++ [v.2] }
      let sig := if idx < sig.length - 1 then sig.drop ((idx + 1) % SIZE_MOD) else []
      decode_loop idx n sig acc

/-- The constructor `decoded_sig_t(std::string_view sig)`. -/
def decoded_sig_t.ctor (sig : List Char) : decoded_sig_t :=
  decode_loop (find_first_of sig ' ') sig.length sig { bytes := [], mask := [] }

/-! ## Memory regions, processes and handles (memory.hpp) -/

/-- The flag `MemRegion::R`. -/
def MemRegion.R : Nat := 0x01
/-- The flag `MemRegion::W`. -/
def MemRegion.W : Nat := 0x02
/-- The flag `MemRegion::X`. -/
def MemRegion.X : Nat := 0x04

/-- The struct `MemRegion`; the field `end` is spelled `end_`. -/
structure MemRegion where
  start : Nat
  end_ : Nat
  flags : Nat
  shared : Bool
  mapped : Bool
  filename : List Char
deriving DecidableEq, Repr

/-- The enumeration `mem_search_mode_t`. -/
inductive mem_search_mode_t where
  | Search_any
  | Search_R | Search_W | Search_X | Search_RW | Search_RX | Search_WX | Search_RWX
  | Search_R_only | Search_W_only | Search_X_only
  | Search_RW_only | Search_RX_only | Search_WX_only
  | Search_text | Search_rdata | Search_data
deriving DecidableEq, Repr

/-- What `mem_find_sig` uses of a `Process`: the list `regions()` returns and
the three cached segments. -/
structure Process where
  regions : List MemRegion
  text : MemRegion
  data : MemRegion
  rdata : MemRegion

/-- What `mem_find_sig` uses of a `MemHandle`: `mem a` is the byte stored at
address `a` of the target process, and `fails offset count` tells whether
`read(offset, buf, count)` throws `peek_error`.  A read that does not throw
is taken to transfer all `count` bytes. -/
structure MemHandle where
  mem : Nat → Nat
  fails : Nat → Nat → Bool

/-- The exceptions that leave the modelled functions. -/
inductive Error where
  | logic_error
  | runtime_error
  | peek_error
  | process_error
deriving DecidableEq, Repr

deriving instance DecidableEq for Except

/-! ## `mem_find_sig` (memory.cpp 191-341) -/

open mem_search_mode_t in
/-- Lines 193-244: the value of `all_flags` after the three switches. -/
def all_flags (mode : mem_search_mode_t) : Nat :=
  let f : Nat := 0
  let f := match mode with
    | Search_R_only | Search_RW_only | Search_RX_only => f ||| MemRegion.R
    | _ => f
  let f := match mode with
    | Search_W_only | Search_RW_only | Search_WX_only => f ||| MemRegion.W
    | _ => f
  let f := match mode with
    | Search_X_only | Search_RX_only | Search_WX_only => f ||| MemRegion.X
    | _ => f
  f

open mem_search_mode_t in
/-- Lines 193-244: the value of `any_flags` after the three switches. -/
def any_flags (mode : mem_search_mode_t) : Nat :=
  let f : Nat := 0
  let f := match mode with
    | Search_R_only | Search_RW_only | Search_RX_only
    | Search_any | Search_R | Search_RW | Search_RX
    | Search_text | Search_data | Search_rdata => f ||| MemRegion.R
    | _ => f
  let f := match mode with
    | Search_W_only | Search_RW_only | Search_WX_only
    | Search_any | Search_W | Search_RW | Search_WX
    | Search_data => f ||| MemRegion.W
    | _ => f
  let f := match mode with
    | Search_X_only | Search_RX_only | Search_WX_only
    | Search_any | Search_X | Search_RX | Search_WX
    | Search_text => f ||| MemRegion.X
    | _ => f
  f

open mem_search_mode_t in
/-- Lines 260-272: whether the body of `if (any && all)` runs for `region`. -/
def region_selected (proc : Process) (mode : mem_search_mode_t) (region : MemRegion) : Bool :=
  let any := any_flags mode == 0 || (region.flags &&& any_flags mode) != 0
  let all := (region.flags &&& all_flags mode) == all_flags mode
  if mode = Search_text ∧ region.start ≠ proc.text.start then false
  else if mode = Search_data ∧ region.start ≠ proc.data.start then false
  else if mode = Search_rdata ∧ region.start ≠ proc.rdata.start then false
  else any && all

/-- The bound of memory_linux.cpp 285-286: `Process::regions()` drops every
region whose start address is at or above this value. -/
def REGION_START_LIMIT : Nat := 0x7f0000000000

/-- The capacity `sizeof buf` of the scan buffer. -/
def BUF_SIZE : Nat := 8192

/-- Lines 311-332: the loop `for (i = start_off; i < bytes; ++i)`.  The state is
the index `i`, the counter `matched` and the list `addresses`; the result is
the final `matched` and `addresses`, or `none` when the iteration allowance
(first argument) runs out. -/
def scan_loop (d : decoded_sig_t) (buf : Nat → Nat) (addr start_off bytes : Nat) :
    Nat → Nat → Nat → List Nat → Option (Nat × List Nat)
  | 0, i, matched, addresses => if i < bytes then none else some (matched, addresses)
  | n + 1, i, matched, addresses =>
    if i < bytes then
      let b := buf i
      if (b &&& d.mask.getD matched 0) = d.bytes.getD matched 0 then
        if matched = (d.size + SIZE_MOD - 1) % SIZE_MOD then
          scan_loop d buf addr start_off bytes n ((i + 1) % SIZE_MOD) 0
            (addresses ++ [(addr + i + 2 * SIZE_MOD - start_off - matched) % SIZE_MOD])
        else
          scan_loop d buf addr start_off bytes n ((i + 1) % SIZE_MOD) (matched + 1) addresses
      else
        scan_loop d buf addr start_off bytes n ((i + SIZE_MOD - matched + 1) % SIZE_MOD) 0
          addresses
    else some (matched, addresses)

/-- Line 303: the buffer after `mh.read(addr, buf + start_off, bytes)`. -/
def read_into (mh : MemHandle) (buf : Nat → Nat) (addr start_off bytes : Nat) : Nat → Nat :=
  fun i => if start_off ≤ i ∧ i < start_off + bytes then mh.mem (addr + (i - start_off)) % 256
    else buf i

/-- Lines 284-333: the loop over the chunks of one region.  The state is the
chunk address `addr`, the buffer, `matched` and `addresses`. -/
def chunk_loop (mh : MemHandle) (d : decoded_sig_t) (region : MemRegion) (fuel : Nat) :
    Nat → Nat → (Nat → Nat) → Nat → List Nat → Option (List Nat)
  | 0, addr, _, _, addresses => if addr < region.end_ then none else some addresses
  | n + 1, addr, buf, matched, addresses =>
    if addr < region.end_ then
      let bytes := BUF_SIZE
      let first_page : Bool := addr = region.start
      let start_off := if first_page then 0 else d.size
      let bytes := if first_page then bytes else bytes - d.size
      let bytes := if bytes > region.end_ - addr then region.end_ - addr else bytes
      let next := (addr + (BUF_SIZE - d.size)) % SIZE_MOD
      if mh.fails addr bytes then
        chunk_loop mh d region fuel n next buf matched addresses
      else
        let buf := read_into mh buf addr start_off bytes
        match scan_loop d buf addr start_off bytes fuel start_off matched addresses with
        | none => none
        | some (matched, addresses) => chunk_loop mh d region fuel n next buf matched addresses
    else some addresses

/-- Lines 258-335: the loop over `proc.regions()`.  `buf0` is the content of
the uninitialised array `buf` when a region's block is entered. -/
def region_loop (proc : Process) (mh : MemHandle) (d : decoded_sig_t)
    (mode : mem_search_mode_t) (buf0 : Nat → Nat) (fuel : Nat) :
    List MemRegion → List Nat → Option (List Nat)
  | [], addresses => some addresses
  | region :: rest, addresses =>
    if region_selected proc mode region then
      match chunk_loop mh d region fuel fuel region.start buf0 0 addresses with
      | none => none
      | some addresses => region_loop proc mh d mode buf0 fuel rest addresses
    else region_loop proc mh d mode buf0 fuel rest addresses

/-- The function `mem_find_sig`.  `fuel` bounds the number of iterations of
each loop; the result is `none` when a loop needs more. -/
def mem_find_sig (fuel : Nat) (proc : Process) (mh : MemHandle) (sig : List Char)
    (mode : mem_search_mode_t) (buf0 : Nat → Nat) : Option (Except Error (List Nat)) :=
  let decoded_sig := decoded_sig_t.ctor sig
  if decoded_sig.size ≥ 4096 then some (Except.error Error.logic_error)
  else
    match region_loop proc mh decoded_sig mode buf0 fuel proc.regions [] with
    | none => none
    | some addresses => some (Except.ok addresses)

/-- Scanning the whole content of `region` in one contiguous buffer: the loop
of lines 311-332 run once with `start_off = 0`, `matched = 0` and
`bytes = region.end - region.start`. -/
def scan_contiguous (fuel : Nat) (mh : MemHandle) (d : decoded_sig_t) (region : MemRegion) :
    Option (List Nat) :=
  let bytes := region.end_ - region.start
  match scan_loop d (read_into mh (fun _ => 0) region.start 0 bytes) region.start 0 bytes
      fuel 0 0 [] with
  | none => none
  | some r => some r.2

/-! ## `MemOffset` (memory.hpp 38-46, memory.cpp 94-158) -/

/-- The struct `MemOffset`: a sequence of `int` offsets. -/
structure MemOffset where
  offsets : List Int
deriving DecidableEq, Repr

/-- The constant `MemOffset::invalid_offset`. -/
def MemOffset.invalid_offset : Int := -2147483648

/-- The error codes `std::from_chars` can report. -/
inductive errc where
  | invalid_argument
  | result_out_of_range
deriving DecidableEq, Repr

/-- The digit value `std::from_chars` assigns to a character in base 16. -/
def digit16 (c : Char) : Option Nat :=
  if '0'.toNat ≤ c.toNat ∧ c.toNat ≤ '9'.toNat then some (c.toNat - '0'.toNat)
  else if 'a'.toNat ≤ c.toNat ∧ c.toNat ≤ 'f'.toNat then some (c.toNat - 'a'.toNat + 10)
  else if 'A'.toNat ≤ c.toNat ∧ c.toNat ≤ 'F'.toNat then some (c.toNat - 'A'.toNat + 10)
  else none

/-- The longest prefix of base-16 digits of `s`: the number of digits and
their value. -/
def read_digits16 : List Char → Nat → Nat → Nat × Nat
  | [], count, value => (count, value)
  | c :: cs, count, value =>
    match digit16 c with
    | some v => read_digits16 cs (count + 1) (16 * value + v)
    | none => (count, value)

/-- The library call `std::from_chars(first, last, value, 16)` for an `int`
value, as the C++ standard describes it: an optional minus sign, then the
longest run of base-16 digits (no `0x` prefix, no plus sign); no digit gives
`invalid_argument`, a value outside the range of `int` gives
`result_out_of_range`.  Characters after the digits are left unread. -/
def from_chars (s : List Char) : Except errc Int :=
  let neg : Bool := match s with
    | c :: _ => c = '-'
    | [] => false
  let rest := if neg then s.drop 1 else s
  let r := read_digits16 rest 0 0
  if r.1 = 0 then Except.error errc.invalid_argument
  else
    let v : Int := if neg then -(r.2 : Int) else (r.2 : Int)
    if v < -2147483648 ∨ 2147483647 < v then Except.error errc.result_out_of_range
    else Except.ok v

/-- Lines 108-149: the offset parsed from the token `byte_str`, or the
`std::runtime_error` of line 144.  The negation of line 148 is taken modulo
2^32 in two's complement, which only matters for the value -2^31. -/
def offset_token (byte_str : List Char) : Except Error Int :=
  let negative : Bool := match byte_str with
    | c1 :: _ => c1 = '-'
    | [] => false
  let start := if negative then byte_str.drop 1 else byte_str
  let start := match start with
    | c1 :: c2 :: rest => if c1 = '0' ∧ (c2 = 'x' ∨ c2 = 'X') then rest else start
    | _ => start
  match from_chars start with
  | Except.error _ => Except.error Error.runtime_error
  | Except.ok offset =>
    Except.ok (if negative then (if offset = -2147483648 then offset else -offset) else offset)

/-- Lines 104-157: the `while (!str.empty())` loop; `idx` is computed once
before the loop.  As in `decode_loop`, `str.length` iterations suffice. -/
def offset_loop (idx : Nat) : Nat → List Char → List Int → Except Error (List Int)
  | 0, _, acc => Except.ok acc
  | n + 1, str, acc =>
    if str.isEmpty then Except.ok acc
    else
      let byte_str := substr str 0 idx
      match offset_token byte_str with
      | Except.error e => Except.error e
      | Except.ok offset =>
        let str := if idx < str.length - 1 then str.drop ((idx + 1) % SIZE_MOD) else []
        offset_loop idx n str (acc ++ [offset])

/-- The constructor `MemOffset(std::string_view str)`. -/
def MemOffset.ctor (str : List Char) : Except Error MemOffset :=
  match offset_loop (find_first_of str ',') str.length str [] with
  | Except.error e => Except.error e
  | Except.ok l => Except.ok { offsets := l }

/-- The constructor `MemOffset(int offset)`. -/
def MemOffset.of_int (offset : Int) : MemOffset := { offsets := [offset] }

/-! ## Vocabulary of the specification -/

/-- The characters a signature token may contain: hex digits and `?`. -/
def token_alphabet : List Char := "0123456789ABCDEFabcdef?".toList

/-- The hex digits. -/
def hex_alphabet : List Char := "0123456789ABCDEFabcdef".toList

/-- The numeric value of a hex digit, by table. -/
def hex_value (c : Char) : Nat :=
  match c with
  | '0' => 0 | '1' => 1 | '2' => 2 | '3' => 3 | '4' => 4
  | '5' => 5 | '6' => 6 | '7' => 7 | '8' => 8 | '9' => 9
  | 'A' => 10 | 'B' => 11 | 'C' => 12 | 'D' => 13 | 'E' => 14 | 'F' => 15
  | 'a' => 10 | 'b' => 11 | 'c' => 12 | 'd' => 13 | 'e' => 14 | 'f' => 15
  | _ => 0

/-- The nibble a token character asks for: `0` for `?`, the hex value otherwise. -/
def want_nibble (c : Char) : Nat := if c = '?' then 0 else hex_value c

/-- The mask nibble of a token character: `0` for `?`, `0xF` otherwise. -/
def mask_nibble (c : Char) : Nat := if c = '?' then 0 else 0xF

/-- Tokens joined by single spaces. -/
def join_tokens : List (List Char) → List Char
  | [] => []
  | [t] => t
  | t :: ts => t ++ ' ' :: join_tokens ts

/-- A token of two characters, each a hex digit or `?`. -/
def two_char_token (t : List Char) : Prop :=
  t.length = 2 ∧ ∀ c ∈ t, c ∈ token_alphabet

/-- Signature entry `j` accepts the memory byte `b`: `(b & mask[j]) == bytes[j]`. -/
def sig_accepts (d : decoded_sig_t) (j b : Nat) : Prop :=
  (b &&& d.mask.getD j 0) = d.bytes.getD j 0

instance (d : decoded_sig_t) (j b : Nat) : Decidable (sig_accepts d j b) := by
  unfold sig_accepts; infer_instance

/-! ## Occurrences of a signature -/

/-- The byte stored at address `a` of the target process. -/
def MemHandle.byte (mh : MemHandle) (a : Nat) : Nat := mh.mem a % 256

/-- The signature occurs in the first `n` bytes of `buf` at index `p`. -/
def buf_occurs (d : decoded_sig_t) (buf : Nat → Nat) (n p : Nat) : Prop :=
  p + d.size ≤ n ∧ ∀ j, j < d.size → sig_accepts d j (buf (p + j))

/-- The signature occurs in `region` at the absolute address `a`. -/
def occurs_at (mh : MemHandle) (d : decoded_sig_t) (region : MemRegion) (a : Nat) : Prop :=
  region.start ≤ a ∧ a + d.size ≤ region.end_ ∧
    ∀ j, j < d.size → sig_accepts d j (mh.byte (a + j))

/-- The properties of the list `new` of addresses reported from attempt start `s` on. -/
def covers (d : decoded_sig_t) (buf : Nat → Nat) (addr n s : Nat) (new : List Nat) : Prop :=
  (∀ a ∈ new, ∃ p, a = addr + p ∧ s ≤ p ∧ buf_occurs d buf n p) ∧
  (∀ p, s ≤ p → buf_occurs d buf n p →
      addr + p ∈ new ∨ ∃ q, addr + q ∈ new ∧ buf_occurs d buf n q ∧ q < p ∧ p < q + d.size) ∧
  new.Pairwise (· < ·)

/-- What `mem_find_sig` needs to scan `r` with a single buffer load: the
region is at most 8192 bytes long, it starts below the bound that
`Process::regions()` enforces, and the read of its bytes does not throw. -/
def one_buffer_region (mh : MemHandle) (r : MemRegion) : Prop :=
  r.start ≤ r.end_ ∧ r.end_ - r.start ≤ 8192 ∧ r.start < REGION_START_LIMIT ∧
    mh.fails r.start (r.end_ - r.start) = false

/-- The list `new` reports occurrences of `d` in `r` only, in strictly
ascending order, and every occurrence is reported or starts inside a reported
occurrence. -/
def region_report (mh : MemHandle) (d : decoded_sig_t) (r : MemRegion) (new : List Nat) : Prop :=
  (∀ a ∈ new, occurs_at mh d r a) ∧
  (∀ a, occurs_at mh d r a →
    a ∈ new ∨ ∃ q, q ∈ new ∧ occurs_at mh d r q ∧ q < a ∧ a < q + d.size) ∧
  new.Pairwise (· < ·)

instance (mh : MemHandle) (d : decoded_sig_t) (r : MemRegion) (a : Nat) :
    Decidable (occurs_at mh d r a) := by
  unfold occurs_at; infer_instance

/-! ## Concrete inputs -/

/-- A region record with every field zero. -/
def no_region : MemRegion := ⟨0, 0, 0, false, false, []⟩

/-- The pattern `main` searches for (main.cpp 14). -/
def mudra_sig : List Char := "F6 47 3B 02 ?? 3E 8D 83 83 C1 FF FF".toList

/-- An 8192-byte readable and executable region. -/
def text_region : MemRegion :=
  ⟨0x140001000, 0x140001000 + 8192, 5, false, true, "ffxiv_dx11.exe".toList⟩

/-- The twelve bytes stored at offset 100 of `text_region`. -/
def text_bytes : List Nat :=
  [0xF6, 0x47, 0x3B, 0x02, 0x12, 0x3E, 0x8D, 0x83, 0x83, 0xC1, 0xFF, 0xFF]

/-- Memory that holds `text_bytes` at offset 100 of `text_region` and zero
everywhere else. -/
def text_mem (a : Nat) : Nat :=
  if a < 0x140001000 + 100 then 0 else text_bytes.getD (a - (0x140001000 + 100)) 0

/-- A handle on `text_mem` whose reads never throw. -/
def text_handle : MemHandle := ⟨text_mem, fun _ _ => false⟩

/-- A process whose only region is `text_region`, cached as its text segment. -/
def text_proc : Process := ⟨[text_region], text_region, no_region, no_region⟩

/-- A readable region of 8200 bytes: one full buffer and eight bytes more. -/
def wide_region : MemRegion := ⟨0x10000, 0x10000 + 8200, 1, false, false, []⟩

/-- A process whose only region is `wide_region`. -/
def wide_proc : Process := ⟨[wide_region], no_region, no_region, no_region⟩

/-- Memory with 0xBB at offset 8190 and 0xAA at offset 8191 of `wide_region`,
zero elsewhere; reads never throw. -/
def spurious_handle : MemHandle :=
  ⟨fun a => if a = 0x10000 + 8190 then 0xBB else if a = 0x10000 + 8191 then 0xAA else 0,
   fun _ _ => false⟩

/-- Memory with 0xBB, 0xAA, 0xBB at offsets 8190, 8191, 8192 of `wide_region`,
zero elsewhere; reads never throw. -/
def straddle_handle : MemHandle :=
  ⟨fun a => if a = 0x10000 + 8190 then 0xBB else if a = 0x10000 + 8191 then 0xAA
     else if a = 0x10000 + 8192 then 0xBB else 0,
   fun _ _ => false⟩

/-- Memory with 0xAA, 0xBB at offsets 8198, 8199 of `wide_region` (its last
two bytes), zero elsewhere; reads never throw. -/
def tail_handle : MemHandle :=
  ⟨fun a => if a = 0x10000 + 8198 then 0xAA else if a = 0x10000 + 8199 then 0xBB else 0,
   fun _ _ => false⟩

/-- A readable region of three bytes. -/
def tiny_region : MemRegion := ⟨0x10000, 0x10000 + 3, 1, false, false, []⟩

/-- A process whose only region is `tiny_region`. -/
def tiny_proc : Process := ⟨[tiny_region], no_region, no_region, no_region⟩

/-- Memory in which every byte is 0xAA; reads never throw. -/
def tiny_handle : MemHandle := ⟨fun _ => 0xAA, fun _ _ => false⟩

/-! ## Vocabulary for the region filter -/

/-- The permission bits an any-of mode is named after. -/
def mode_letters : mem_search_mode_t → Nat
  | mem_search_mode_t.Search_R => MemRegion.R
  | mem_search_mode_t.Search_W => MemRegion.W
  | mem_search_mode_t.Search_X => MemRegion.X
  | mem_search_mode_t.Search_RW => MemRegion.R ||| MemRegion.W
  | mem_search_mode_t.Search_RX => MemRegion.R ||| MemRegion.X
  | mem_search_mode_t.Search_WX => MemRegion.W ||| MemRegion.X
  | mem_search_mode_t.Search_any => MemRegion.R ||| MemRegion.W ||| MemRegion.X
  | mem_search_mode_t.Search_RWX => MemRegion.R ||| MemRegion.W ||| MemRegion.X
  | _ => 0

/-- The flags of `region` contain at least one permission of the set `perms`. -/
def has_any_permission (region : MemRegion) (perms : Nat) : Prop :=
  (perms &&& MemRegion.R ≠ 0 ∧ region.flags &&& MemRegion.R ≠ 0) ∨
  (perms &&& MemRegion.W ≠ 0 ∧ region.flags &&& MemRegion.W ≠ 0) ∨
  (perms &&& MemRegion.X ≠ 0 ∧ region.flags &&& MemRegion.X ≠ 0)

instance (region : MemRegion) (perms : Nat) : Decidable (has_any_permission region perms) := by
  unfold has_any_permission; infer_instance

/-- A writable region without the read and execute permissions. -/
def write_only_region : MemRegion := ⟨0x140001000, 0x140002000, 2, false, true, []⟩

/-- A process whose cached text segment starts where `write_only_region` starts. -/
def write_only_proc : Process := ⟨[write_only_region], write_only_region, no_region, no_region⟩

/-- A pattern of 4096 tokens `00` joined by single spaces. -/
def long_sig : List Char := join_tokens (List.replicate 4096 ['0', '0'])

/-! ## `read64` and `mem_resolve_offset` (memory.cpp 184-189, 343-357) -/

/-- The call `mh.read64(offset)`: `peek_error` when the read of 8 bytes at
`offset` throws, otherwise the 64-bit value whose object representation is the
8 bytes read.  The host is little-endian (x86-64), so byte `j` has weight
`256 ^ j`. -/
def MemHandle.read64 (mh : MemHandle) (offset : Nat) : Except Error Nat :=
  if mh.fails offset 8 then Except.error Error.peek_error
  else Except.ok ((List.range 8).foldr (fun j acc => mh.mem (offset + j) % 256 + 256 * acc) 0)

/-- The conversion `std::intmax_t(x)` of a `std::size_t`: the two's-complement
reading of the 64 bits. -/
def to_intmax (x : Nat) : Int :=
  if x < 9223372036854775808 then (x : Int) else (x : Int) - 18446744073709551616

/-- A signed 64-bit sum.  The source adds without a check; a sum outside the
range of `std::intmax_t` is taken modulo 2^64, as the target does. -/
def wrap_intmax (x : Int) : Int :=
  (x + 9223372036854775808) % 18446744073709551616 - 9223372036854775808

/-- The conversion `std::size_t(x)` of a `std::intmax_t`. -/
def to_size_t (x : Int) : Nat := (x % 18446744073709551616).toNat

/-- The function `mem_resolve_offset`.  The second component lists the reads
issued on the handle, each as (offset, byte count). -/
def mem_resolve_offset (mh : MemHandle) (base : Nat) (offset : MemOffset) :
    Except Error Nat × List (Nat × Nat) :=
  let i := 0
  if i < offset.offsets.length ∧ offset.offsets.getD i 0 ≠ MemOffset.invalid_offset then
    let base := to_size_t (wrap_intmax (to_intmax base + offset.offsets.getD i 0))
    let i := i + 1
    if i < offset.offsets.length then (mh.read64 base, [(base, 8)])
    else (Except.ok base, [])
  else (Except.ok base, [])

/-- The reference of the specification for `mem_resolve_offset`: an empty
chain or a chain that starts with the sentinel gives `base` and no read; a
chain `[o]` gives `(base + o) mod 2^64` and no read; a longer chain gives one
8-byte read at `(base + o) mod 2^64` and the value read. -/
def resolve_reference (mh : MemHandle) (base : Nat) (chain : List Int) :
    Except Error Nat × List (Nat × Nat) :=
  match chain with
  | [] => (Except.ok base, [])
  | o :: rest =>
    if o = -2147483648 then (Except.ok base, [])
    else
      match rest with
      | [] => (Except.ok (((base : Int) + o) % 18446744073709551616).toNat, [])
      | _ :: _ =>
        (mh.read64 (((base : Int) + o) % 18446744073709551616).toNat,
          [((((base : Int) + o) % 18446744073709551616).toNat, 8)])

/-- Memory that holds the 64-bit value 0x0000000140ABCDEF at address 0x1010,
least significant byte first, and zero elsewhere; reads never throw. -/
def pointer_handle : MemHandle :=
  ⟨fun a => if a = 0x1010 then 0xEF else if a = 0x1011 then 0xCD else if a = 0x1012 then 0xAB
     else if a = 0x1013 then 0x40 else if a = 0x1014 then 0x01 else 0,
   fun _ _ => false⟩

/-! ## `find_pid_by_name` and `Process::Process` (memory_linux.cpp 24-71, 209-261) -/

/-- The tab character, written `'\t'` in the source. -/
def TAB : Char := Char.ofNat 9

/-- What `find_pid_by_name` reads of one entry of the directory `/proc`:
whether it is a directory, the value `std::atoi` gives for its file name, and
the first line of its `status` file (`none` when `std::getline` fails). -/
structure proc_entry where
  is_directory : Bool
  pid : Int
  status_line : Option (List Char)
deriving DecidableEq, Repr

/-- Worker for `find_first_of` with a set of characters. -/
def find_set_from (cs : List Char) : List Char → Nat → Nat
  | [], _ => npos
  | x :: xs, i => if x ∈ cs then i else find_set_from cs xs (i + 1)

/-- The call `s.find_first_of(cs)`: index of the first character of `s` that
is in `cs`, or `npos`. -/
def find_first_of_set (s cs : List Char) : Nat :=
  find_set_from cs s 0

/-- Worker for `find_first_not_of`. -/
def find_not_set_from (cs : List Char) : List Char → Nat → Nat
  | [], _ => npos
  | x :: xs, i => if x ∈ cs then find_not_set_from cs xs (i + 1) else i

/-- The call `s.find_first_not_of(cs, pos)` for `pos ≤ s.size()`: index of the
first character at or after `pos` that is not in `cs`, or `npos`. -/
def find_first_not_of (s cs : List Char) (pos : Nat) : Nat :=
  find_not_set_from cs (s.drop pos) pos

/-- Lines 28-68: the loop over the entries of `/proc`; `result` is the local
variable of line 26. -/
def find_pid_loop (name : List Char) : List proc_entry → Int → Int
  | [], result => result
  | entry :: rest, result =>
    if ¬ entry.is_directory then find_pid_loop name rest result
    else if entry.pid > 0 then
      match entry.status_line with
      | none => find_pid_loop name rest result
      | some line =>
        if substr line 0 5 ≠ "Name:".toList then find_pid_loop name rest result
        else
          let idx := find_first_of_set line [' ', TAB]
          if idx = npos then find_pid_loop name rest result
          else
            let idx := find_first_not_of line [' ', TAB] idx
            if idx = npos then find_pid_loop name rest result
            else if substr line idx name.length = name then
              let result := if result = 0 then entry.pid else result
              if name.length = line.length - idx then entry.pid
              else find_pid_loop name rest result
            else find_pid_loop name rest result
    else find_pid_loop name rest result

/-- The function `find_pid_by_name`. -/
def find_pid_by_name (entries : List proc_entry) (name : List Char) : Int :=
  find_pid_loop name entries 0

/-- The member `MemRegion::readable`. -/
def MemRegion.readable (r : MemRegion) : Bool := r.flags &&& MemRegion.R != 0

/-- The member `MemRegion::writeable`. -/
def MemRegion.writeable (r : MemRegion) : Bool := r.flags &&& MemRegion.W != 0

/-- The member `MemRegion::executable`. -/
def MemRegion.executable (r : MemRegion) : Bool := r.flags &&& MemRegion.X != 0

/-- The three segment members of a `Process` during construction. -/
structure segments where
  text : MemRegion
  rdata : MemRegion
  data : MemRegion
deriving DecidableEq, Repr

/-- The test of line 229: the region is mapped and its file name begins with
the process name. -/
def is_module (name : List Char) (region : MemRegion) : Bool :=
  region.mapped && (substr region.filename 0 name.length == name)

/-- Lines 225-250: the walk over the regions with the counter `state`. -/
def segment_walk (name : List Char) : List MemRegion → Nat → segments → segments
  | [], _, s => s
  | region :: rest, state, s =>
    if state = 0 then
      if is_module name region then segment_walk name rest (state + 1) s
      else segment_walk name rest state s
    else if state = 1 then
      segment_walk name rest (state + 1)
        (if region.readable ∧ region.executable then { s with text := region } else s)
    else if state = 2 then
      segment_walk name rest (state + 1)
        (if region.readable then { s with rdata := region } else s)
    else if state = 3 then
      (if region.readable ∧ region.writeable then { s with data := region } else s)
    else segment_walk name rest state s

/-- The constructor `Process::Process(name)`.  `entries` is the content of
`/proc` and `regs` the list `regions()` returns for the process found. -/
def Process.ctor (entries : List proc_entry) (regs : List MemRegion) (name : List Char) :
    Except Error Process :=
  let pid := find_pid_by_name entries name
  if pid = 0 then Except.error Error.process_error
  else
    let s := segment_walk name regs 0 ⟨no_region, no_region, no_region⟩
    if s.text.start = 0 then Except.error Error.process_error
    else if s.data.start = 0 then Except.error Error.process_error
    else Except.ok ⟨regs, s.text, s.data, s.rdata⟩

/-- The entry of `/proc` for a process `pid` whose status file begins with
the line `Name:<TAB>name`. -/
def status_entry (p : Int × List Char) : proc_entry :=
  ⟨true, p.1, some ("Name:".toList ++ TAB :: p.2)⟩

/-- The reference of the specification for `find_pid_by_name` over the list
of (pid, name) pairs: the pid of the first pair whose name equals `name`;
failing that, the pid of the first pair whose name begins with `name`;
failing that, 0. -/
def pid_reference (procs : List (Int × List Char)) (name : List Char) : Int :=
  match procs.find? (fun p => p.2 = name) with
  | some p => p.1
  | none =>
    match procs.find? (fun p => name.isPrefixOf p.2) with
    | some p => p.1
    | none => 0

/-- A process name as the kernel reports it: not empty, and its first
character is neither a space nor a tab. -/
def plain_name (n : List Char) : Prop :=
  match n with
  | [] => False
  | c :: _ => c ≠ ' ' ∧ c ≠ TAB

instance (n : List Char) : Decidable (plain_name n) := by
  unfold plain_name; split <;> infer_instance

/-- The name `main` looks for (main.cpp 5). -/
def game_name : List Char := "ffxiv_dx11.exe".toList

/-- A `/proc` listing with one process of that name. -/
def game_entries : List proc_entry := [status_entry (20, game_name)]

/-- An anonymous mapping in front of the executable image. -/
def game_anon : MemRegion := ⟨0x10000, 0x20000, 3, false, false, []⟩

/-- The header region of the image: mapped, named after the executable. -/
def game_header : MemRegion := ⟨0x140000000, 0x140001000, 1, false, true, game_name⟩

/-- The code region: readable and executable. -/
def game_text : MemRegion := ⟨0x140001000, 0x141000000, 5, false, true, game_name⟩

/-- The read-only data region. -/
def game_rdata : MemRegion := ⟨0x141000000, 0x141800000, 1, false, true, game_name⟩

/-- The read-write data region. -/
def game_data : MemRegion := ⟨0x141800000, 0x142000000, 3, false, true, game_name⟩

/-- The region list of the process, in file order. -/
def game_regions : List MemRegion :=
  [game_anon, game_header, game_text, game_rdata, game_data, game_anon]

/-! ## The chunk loop, piece by piece -/

/-- Line 293: the value of `start_off` for the chunk at `addr`. -/
def chunk_start_off (d : decoded_sig_t) (region : MemRegion) (addr : Nat) : Nat :=
  if addr = region.start then 0 else d.size

/-- Lines 286-299: the value of `bytes` for the chunk at `addr`. -/
def chunk_bytes (d : decoded_sig_t) (region : MemRegion) (addr : Nat) : Nat :=
  if (if addr = region.start then BUF_SIZE else BUF_SIZE - d.size) > region.end_ - addr then
    region.end_ - addr
  else (if addr = region.start then BUF_SIZE else BUF_SIZE - d.size)

/-- Line 284: the chunk address after `addr += sizeof buf - sig_size`. -/
def chunk_next (d : decoded_sig_t) (addr : Nat) : Nat :=
  (addr + (BUF_SIZE - d.size)) % SIZE_MOD

/-- Lines 313-331 followed by `++i`: one iteration of the matching loop, as
the new `i`, `matched` and `addresses`. -/
def scan_step (d : decoded_sig_t) (buf : Nat → Nat) (addr start_off : Nat)
    (i matched : Nat) (addresses : List Nat) : Nat × Nat × List Nat :=
  if (buf i &&& d.mask.getD matched 0) = d.bytes.getD matched 0 then
    if matched = (d.size + SIZE_MOD - 1) % SIZE_MOD then
      ((i + 1) % SIZE_MOD, 0,
        addresses ++ [(addr + i + 2 * SIZE_MOD - start_off - matched) % SIZE_MOD])
    else ((i + 1) % SIZE_MOD, matched + 1, addresses)
  else ((i + SIZE_MOD - matched + 1) % SIZE_MOD, 0, addresses)

/-- The addresses the scan of one selected region appends to the result: the
chunk loop of that region started with an empty list. -/
def region_scan (mh : MemHandle) (d : decoded_sig_t) (buf0 : Nat → Nat) (fuel : Nat)
    (region : MemRegion) : Option (List Nat) :=
  chunk_loop mh d region fuel fuel region.start buf0 0 []

/-- The region ends at or below 2^64 - 8192, so that no chunk address of its
scan leaves the 64-bit range.  Every region a line of `/proc/<pid>/maps`
describes is of this kind: mappings end on a page boundary far below 2^64. -/
def region_in_range (r : MemRegion) : Prop := r.end_ + BUF_SIZE ≤ SIZE_MOD

instance (r : MemRegion) : Decidable (region_in_range r) := by
  unfold region_in_range; infer_instance

/-- An iteration allowance that suffices for every region of `proc` that is in
range: 2^25 iterations for a matching loop and one chunk iteration per byte. -/
def scan_allowance (proc : Process) : Nat :=
  33554432 + (proc.regions.map (fun r => r.end_ - r.start)).sum

/-- A readable region that starts at 0x10000 and ends at 2^64 - 1, the largest
end address a line of the maps file can give. -/
def wrap_region : MemRegion := ⟨0x10000, 18446744073709551615, 1, false, false, []⟩

/-- A process whose only region is `wrap_region`. -/
def wrap_proc : Process := ⟨[wrap_region], no_region, no_region, no_region⟩

/-- Memory with 0xAA, 0xBB at offsets 100, 101 of `wide_region`, zero
elsewhere; a read throws when it starts at offset 8190 or later. -/
def half_dead_handle : MemHandle :=
  ⟨fun a => if a = 0x10000 + 100 then 0xAA else if a = 0x10000 + 101 then 0xBB else 0,
   fun a _ => decide (0x10000 + 8190 ≤ a)⟩

/-- Memory with 0xAA, 0xBB at offsets 100, 101 and again at offsets 8195, 8196
of `wide_region` (the second pair lies in the second chunk), zero elsewhere;
reads never throw. -/
def two_match_handle : MemHandle :=
  ⟨fun a => if a = 0x10000 + 100 then 0xAA else if a = 0x10000 + 101 then 0xBB
     else if a = 0x10000 + 8195 then 0xAA else if a = 0x10000 + 8196 then 0xBB else 0,
   fun _ _ => false⟩

/-! ## The loops with their index bounds checked -/

/-- The bound an iteration can break: the index into `buf`, the index into the
signature arrays, the subtraction `i -= matched`, or the range of `buf` that a
chunk read fills. -/
inductive Fault where
  | buf_index
  | sig_index
  | rewind
  | buf_write
deriving DecidableEq, Repr

/-- The loop of lines 311-332 as in `scan_loop`, with every index checked
before use: `buf[i]` needs `i < 8192`, `sig_mask[matched]` and
`sig_bytes[matched]` need `matched < sig_size`, and `i -= matched` needs
`matched ≤ i`.  A broken bound ends the run with the `Fault`. -/
def scan_loop_checked (d : decoded_sig_t) (buf : Nat → Nat) (addr start_off bytes : Nat) :
    Nat → Nat → Nat → List Nat → Except Fault (Option (Nat × List Nat))
  | 0, i, matched, addresses =>
    Except.ok (if i < bytes then none else some (matched, addresses))
  | n + 1, i, matched, addresses =>
    if i < bytes then
      if ¬ i < BUF_SIZE then Except.error Fault.buf_index
      else if ¬ matched < d.size then Except.error Fault.sig_index
      else if (buf i &&& d.mask.getD matched 0) = d.bytes.getD matched 0 then
        if matched = (d.size + SIZE_MOD - 1) % SIZE_MOD then
          scan_loop_checked d buf addr start_off bytes n ((i + 1) % SIZE_MOD) 0
            (addresses ++ [(addr + i + 2 * SIZE_MOD - start_off - matched) % SIZE_MOD])
        else
          scan_loop_checked d buf addr start_off bytes n ((i + 1) % SIZE_MOD) (matched + 1)
            addresses
      else if ¬ matched ≤ i then Except.error Fault.rewind
      else
        scan_loop_checked d buf addr start_off bytes n ((i + SIZE_MOD - matched + 1) % SIZE_MOD)
          0 addresses
    else Except.ok (some (matched, addresses))

/-- The loop of lines 284-333 as in `chunk_loop`, with the range of the read
of line 303 checked (`start_off + bytes ≤ 8192`) and the matching loop run
checked. -/
def chunk_loop_checked (mh : MemHandle) (d : decoded_sig_t) (region : MemRegion) (fuel : Nat) :
    Nat → Nat → (Nat → Nat) → Nat → List Nat → Except Fault (Option (List Nat))
  | 0, addr, _, _, addresses =>
    Except.ok (if addr < region.end_ then none else some addresses)
  | n + 1, addr, buf, matched, addresses =>
    if addr < region.end_ then
      if ¬ chunk_start_off d region addr + chunk_bytes d region addr ≤ BUF_SIZE then
        Except.error Fault.buf_write
      else if mh.fails addr (chunk_bytes d region addr) then
        chunk_loop_checked mh d region fuel n (chunk_next d addr) buf matched addresses
      else
        match scan_loop_checked d
            (read_into mh buf addr (chunk_start_off d region addr) (chunk_bytes d region addr))
            addr (chunk_start_off d region addr) (chunk_bytes d region addr) fuel
            (chunk_start_off d region addr) matched addresses with
        | Except.error f => Except.error f
        | Except.ok none => Except.ok none
        | Except.ok (some (matched, addresses)) =>
          chunk_loop_checked mh d region fuel n (chunk_next d addr)
            (read_into mh buf addr (chunk_start_off d region addr) (chunk_bytes d region addr))
            matched addresses
    else Except.ok (some addresses)

/-- The chunk address of `wrap_region` with the signature `AA BB` when `j`
chunks are left until the address is back at the region start. -/
def wrap_addr (j : Nat) : Nat :=
  (0x10000 + (9223372036854775808 - j) * 8190) % 18446744073709551616

/-- A readable region from 65528 (8 * 8191) to 2^64 - 1. -/
def sweep_region : MemRegion := ⟨65528, 18446744073709551615, 1, false, false, []⟩

/-- A process whose only region is `sweep_region`. -/
def sweep_proc : Process := ⟨[sweep_region], no_region, no_region, no_region⟩

/-- Memory with 0xAA at the addresses 65533 and 5000, zero elsewhere; reads
never throw. -/
def sweep_handle : MemHandle :=
  ⟨fun a => if a = 65533 then 0xAA else if a = 5000 then 0xAA else 0, fun _ _ => false⟩

/-! ## Iteration allowances -/

/-- What is left of the input after one iteration of the tokenising loops is
shorter than the input. -/
theorem rest_length_lt (idx : Nat) (s : List Char) (hpos : 0 < s.length)
    (hsz : s.length < SIZE_MOD) :
    (if idx < s.length - 1 then s.drop ((idx + 1) % SIZE_MOD) else []).length < s.length := by
  split
  · rename_i hlt
    have h1 : idx + 1 < SIZE_MOD := by omega
    rw [Nat.mod_eq_of_lt h1, List.length_drop]
    omega
  · simpa using hpos

/-- One more allowed iteration does not change what `decode_loop` returns once
the allowance covers the length of the input. -/
theorem decode_loop_fuel_succ (idx : Nat) :
    ∀ (n : Nat) (sig : List Char) (acc : decoded_sig_t), sig.length ≤ n →
      sig.length < SIZE_MOD →
      decode_loop idx (n + 1) sig acc = decode_loop idx n sig acc := by
  intro n
  induction n with
  | zero =>
    intro sig acc h _
    have : sig = [] := List.length_eq_zero.mp (by omega)
    subst this
    simp [decode_loop]
  | succ n ih =>
    intro sig acc h hsz
    conv_lhs => rw [decode_loop]
    conv_rhs => rw [decode_loop]
    by_cases hs : sig.isEmpty = true
    · simp [hs]
    · simp only [hs, if_false]
      have hpos : 0 < sig.length := by
        cases sig with
        | nil => simp at hs
        | cons a t => simp
      have hlt := rest_length_lt idx sig hpos hsz
      exact ih _ _ (by omega) (by omega)

/-- The same for `offset_loop`. -/
theorem offset_loop_fuel_succ (idx : Nat) :
    ∀ (n : Nat) (str : List Char) (acc : List Int), str.length ≤ n →
      str.length < SIZE_MOD →
      offset_loop idx (n + 1) str acc = offset_loop idx n str acc := by
  intro n
  induction n with
  | zero =>
    intro str acc h _
    have : str = [] := List.length_eq_zero.mp (by omega)
    subst this
    simp [offset_loop]
  | succ n ih =>
    intro str acc h hsz
    conv_lhs => rw [offset_loop]
    conv_rhs => rw [offset_loop]
    by_cases hs : str.isEmpty = true
    · simp [hs]
    · simp only [hs, if_false]
      have hpos : 0 < str.length := by
        cases str with
        | nil => simp at hs
        | cons a t => simp
      have hlt := rest_length_lt idx str hpos hsz
      cases offset_token (substr str 0 idx) with
      | error e => rfl
      | ok v => exact ih _ _ (by omega) (by omega)

/-- A result of `scan_loop` is kept when more iterations are allowed. -/
theorem scan_loop_fuel_succ (d : decoded_sig_t) (buf : Nat → Nat) (addr so bytes : Nat) :
    ∀ (f i m : Nat) (out : List Nat) (r : Nat × List Nat),
      scan_loop d buf addr so bytes f i m out = some r →
      scan_loop d buf addr so bytes (f + 1) i m out = some r := by
  intro f
  induction f with
  | zero =>
    intro i m out r h
    rw [scan_loop] at h
    by_cases hi : i < bytes
    · simp [hi] at h
    · rw [scan_loop]
      simpa [hi] using h
  | succ f ih =>
    intro i m out r h
    rw [scan_loop] at h
    conv_lhs => rw [scan_loop]
    by_cases hi : i < bytes
    · simp only [hi, if_true] at h ⊢
      split_ifs at h ⊢
      · exact ih _ _ _ _ h
      · exact ih _ _ _ _ h
      · exact ih _ _ _ _ h
    · simpa [hi] using h

/-- A result of `chunk_loop` is kept when the inner loops are allowed more
iterations. -/
theorem chunk_loop_inner_fuel_succ (mh : MemHandle) (d : decoded_sig_t) (region : MemRegion)
    (fuel : Nat) :
    ∀ (n addr : Nat) (buf : Nat → Nat) (m : Nat) (out r : List Nat),
      chunk_loop mh d region fuel n addr buf m out = some r →
      chunk_loop mh d region (fuel + 1) n addr buf m out = some r := by
  intro n
  induction n with
  | zero =>
    intro addr buf m out r h
    rw [chunk_loop] at h ⊢
    exact h
  | succ n ih =>
    intro addr buf m out r h
    rw [chunk_loop] at h ⊢
    by_cases ha : addr < region.end_
    · simp only [ha, if_true] at h ⊢
      split_ifs at h ⊢ <;>
        first
        | exact ih _ _ _ _ _ h
        | (split at h
           next => exact absurd h (by simp)
           next m1 out1 hscan =>
             rw [scan_loop_fuel_succ _ _ _ _ _ _ _ _ _ _ hscan]
             exact ih _ _ _ _ _ h)
    · simpa [ha] using h

/-- A result of `chunk_loop` is kept when more chunk iterations are allowed. -/
theorem chunk_loop_fuel_succ (mh : MemHandle) (d : decoded_sig_t) (region : MemRegion)
    (fuel : Nat) :
    ∀ (n addr : Nat) (buf : Nat → Nat) (m : Nat) (out r : List Nat),
      chunk_loop mh d region fuel n addr buf m out = some r →
      chunk_loop mh d region fuel (n + 1) addr buf m out = some r := by
  intro n
  induction n with
  | zero =>
    intro addr buf m out r h
    rw [chunk_loop] at h
    by_cases ha : addr < region.end_
    · simp [ha] at h
    · rw [chunk_loop]
      simpa [ha] using h
  | succ n ih =>
    intro addr buf m out r h
    rw [chunk_loop] at h
    conv_lhs => rw [chunk_loop]
    by_cases ha : addr < region.end_
    · simp only [ha, if_true] at h ⊢
      split_ifs at h ⊢ <;>
        first
        | exact ih _ _ _ _ _ h
        | (split at h
           next => exact absurd h (by simp)
           next m1 out1 _ => exact ih _ _ _ _ _ h)
    · simpa [ha] using h

/-- A result of `region_loop` is kept when more iterations are allowed. -/
theorem region_loop_fuel_succ (proc : Process) (mh : MemHandle) (d : decoded_sig_t)
    (mode : mem_search_mode_t) (buf0 : Nat → Nat) (fuel : Nat) :
    ∀ (regions : List MemRegion) (acc r : List Nat),
      region_loop proc mh d mode buf0 fuel regions acc = some r →
      region_loop proc mh d mode buf0 (fuel + 1) regions acc = some r := by
  intro regions
  induction regions with
  | nil =>
    intro acc r h
    rw [region_loop] at h ⊢
    exact h
  | cons x rest ih =>
    intro acc r h
    rw [region_loop] at h ⊢
    split_ifs at h ⊢ with hsel
    · split at h
      · exact absurd h (by simp)
      · rename_i out1 hchunk
        rw [chunk_loop_fuel_succ _ _ _ _ _ _ _ _ _ _
          (chunk_loop_inner_fuel_succ _ _ _ _ _ _ _ _ _ _ hchunk)]
        exact ih _ _ h
    · exact ih _ _ h

/-- A result of `mem_find_sig` does not depend on the iteration allowance:
every larger allowance gives the same result. -/
theorem mem_find_sig_fuel_le (fuel fuel2 : Nat) (proc : Process) (mh : MemHandle)
    (sig : List Char) (mode : mem_search_mode_t) (buf0 : Nat → Nat)
    (r : Except Error (List Nat)) (hle : fuel ≤ fuel2)
    (h : mem_find_sig fuel proc mh sig mode buf0 = some r) :
    mem_find_sig fuel2 proc mh sig mode buf0 = some r := by
  induction hle with
  | refl => exact h
  | step _ ih =>
    rename_i k _
    simp only [mem_find_sig] at ih ⊢
    split_ifs at ih ⊢ with hbig
    · exact ih
    · split at ih
      · exact absurd ih (by simp)
      · rename_i out hloop
        rw [region_loop_fuel_succ _ _ _ _ _ _ _ _ _ hloop]
        exact ih

/-- The constructor `decoded_sig_t(sig)` runs its loop to the end: allowing
more than `sig.length` iterations gives the same arrays. -/
theorem decode_loop_fuel_le (idx : Nat) (sig : List Char) (acc : decoded_sig_t)
    (hsz : sig.length < SIZE_MOD) :
    ∀ k, decode_loop idx (sig.length + k) sig acc = decode_loop idx sig.length sig acc := by
  intro k
  induction k with
  | zero => rfl
  | succ k ih =>
    rw [← Nat.add_assoc, decode_loop_fuel_succ idx _ sig acc (by omega) hsz, ih]

/-! ## The signature codec -/

/-- The decoding of every two-character token over the token alphabet. -/
theorem two_char_decode_table : ∀ c1 ∈ token_alphabet, ∀ c2 ∈ token_alphabet,
    decoded_sig_t.ctor [c1, c2] =
      ⟨[16 * want_nibble c1 + want_nibble c2], [16 * mask_nibble c1 + mask_nibble c2]⟩ ∧
    want_nibble c1 < 16 ∧ want_nibble c2 < 16 ∧ mask_nibble c1 < 16 ∧ mask_nibble c2 < 16 := by
  decide

/-- The decoding of every one-character token that is a hex digit. -/
theorem one_char_decode_table : ∀ c ∈ hex_alphabet,
    decoded_sig_t.ctor [c] = ⟨[hex_value c], [0xFF]⟩ ∧ hex_value c < 16 := by
  decide

/-- C5: a two-character token of hex digits and `?` decodes to one byte/mask
pair; the nibbles of the byte are the hex values of the two characters (0 for
`?`) and the nibbles of the mask are 0xF, or 0 where the character is `?`. -/
theorem decode_two_char_token (c1 c2 : Char)
    (h1 : c1 ∈ token_alphabet) (h2 : c2 ∈ token_alphabet) :
    ∃ b m, decoded_sig_t.ctor [c1, c2] = ⟨[b], [m]⟩ ∧ b < 256 ∧ m < 256 ∧
      b / 16 = (if c1 = '?' then 0 else hex_value c1) ∧
      b % 16 = (if c2 = '?' then 0 else hex_value c2) ∧
      m / 16 = (if c1 = '?' then 0 else 0xF) ∧
      m % 16 = (if c2 = '?' then 0 else 0xF) := by
  obtain ⟨hd, hb1, hb2, hm1, hm2⟩ := two_char_decode_table c1 h1 c2 h2
  refine ⟨_, _, hd, ?_, ?_, ?_, ?_, ?_, ?_⟩
  · omega
  · omega
  · show (16 * want_nibble c1 + want_nibble c2) / 16 = want_nibble c1
    omega
  · show (16 * want_nibble c1 + want_nibble c2) % 16 = want_nibble c2
    omega
  · show (16 * mask_nibble c1 + mask_nibble c2) / 16 = mask_nibble c1
    omega
  · show (16 * mask_nibble c1 + mask_nibble c2) % 16 = mask_nibble c2
    omega

/-- C5 at `"?3"`, together with the four decodings the specification lists. -/
theorem decode_two_char_token_witness :
    ('?' ∈ token_alphabet ∧ '3' ∈ token_alphabet) ∧
    (∃ b m, decoded_sig_t.ctor ['?', '3'] = ⟨[b], [m]⟩ ∧ b < 256 ∧ m < 256 ∧
      b / 16 = (if '?' = '?' then 0 else hex_value '?') ∧
      b % 16 = (if '3' = '?' then 0 else hex_value '3') ∧
      m / 16 = (if '?' = '?' then 0 else 0xF) ∧
      m % 16 = (if '3' = '?' then 0 else 0xF)) ∧
    decoded_sig_t.ctor "00".toList = ⟨[0x00], [0xFF]⟩ ∧
    decoded_sig_t.ctor "?3".toList = ⟨[0x03], [0x0F]⟩ ∧
    decoded_sig_t.ctor "A?".toList = ⟨[0xA0], [0xF0]⟩ ∧
    decoded_sig_t.ctor "??".toList = ⟨[0x00], [0x00]⟩ :=
  ⟨⟨by decide, by decide⟩, decode_two_char_token '?' '3' (by decide) (by decide),
    by decide, by decide, by decide, by decide⟩

/-- C9: a pattern that is one single-character token decodes to exactly one
pair: `?` gives byte 0x00 with mask 0xF0, a hex digit gives its hex value
(high nibble 0) with mask 0xFF. -/
theorem decode_one_char_token (c : Char) (h : c ∈ hex_alphabet) :
    decoded_sig_t.ctor ['?'] = ⟨[0x00], [0xF0]⟩ ∧
    decoded_sig_t.ctor [c] = ⟨[hex_value c], [0xFF]⟩ ∧
    hex_value c / 16 = 0 := by
  obtain ⟨hd, hlt⟩ := one_char_decode_table c h
  exact ⟨by decide, hd, by omega⟩

/-- C9 at the digit `b`. -/
theorem decode_one_char_token_witness :
    'b' ∈ hex_alphabet ∧
    (decoded_sig_t.ctor ['?'] = ⟨[0x00], [0xF0]⟩ ∧
     decoded_sig_t.ctor ['b'] = ⟨[hex_value 'b'], [0xFF]⟩ ∧
     hex_value 'b' / 16 = 0) ∧
    hex_value 'b' = 11 :=
  ⟨by decide, decode_one_char_token 'b' (by decide), by decide⟩

/-- The loop stops on the empty input. -/
theorem decode_loop_nil (idx n : Nat) (acc : decoded_sig_t) :
    decode_loop idx n [] acc = acc := by
  cases n <;> simp [decode_loop]

/-- A joined list that starts with a token of width two has length at least two. -/
theorem join_tokens_length_pos (t : List Char) (ts : List (List Char)) (ht : t.length = 2) :
    2 ≤ (join_tokens (t :: ts)).length := by
  cases ts with
  | nil => simp [join_tokens, ht]
  | cons t2 ts => simp [join_tokens, ht]

/-- The loop on tokens of width two, for the two values `idx` can have. -/
theorem decode_loop_two_char (idx : Nat) :
    ∀ (toks : List (List Char)) (n : Nat) (acc : decoded_sig_t),
      (∀ t ∈ toks, t.length = 2) → (join_tokens toks).length ≤ n →
      (idx = 2 ∨ (toks.length ≤ 1 ∧ 2 ≤ idx)) →
      decode_loop idx n (join_tokens toks) acc =
        ⟨acc.bytes ++ toks.map (fun t => (decode_token t).1),
         acc.mask ++ toks.map (fun t => (decode_token t).2)⟩ := by
  intro toks
  induction toks with
  | nil =>
    intro n acc _ _ _
    simp [join_tokens, decode_loop_nil]
  | cons t ts ih =>
    intro n acc hlen hn hidx
    obtain ⟨a, b, rfl⟩ := List.length_eq_two.mp (hlen t (List.mem_cons_self _ _))
    cases ts with
    | nil =>
      have h2 : 2 ≤ idx := by omega
      cases n with
      | zero => simp [join_tokens] at hn
      | succ n =>
        have htake : List.take idx [a, b] = [a, b] := List.take_of_length_le (by simpa using h2)
        have hnot : ¬ idx < 1 := by omega
        simp [join_tokens, decode_loop, substr, htake, hnot, decode_loop_nil]
    | cons t2 ts =>
      have hidx2 : idx = 2 := by
        rcases hidx with h | ⟨h, _⟩
        · exact h
        · simp at h
      subst hidx2
      have hpos := join_tokens_length_pos t2 ts (hlen t2 (by simp))
      cases n with
      | zero => simp [join_tokens] at hn
      | succ n =>
        have hrest := ih n ⟨acc.bytes ++ [(decode_token [a, b]).1],
            acc.mask ++ [(decode_token [a, b]).2]⟩
          (fun t ht => hlen t (List.mem_cons_of_mem _ ht))
          (by simp [join_tokens] at hn ⊢; omega) (Or.inl rfl)
        have hlt : 2 < (join_tokens (t2 :: ts)).length + 1 + 1 := by omega
        have hjoin : join_tokens ([a, b] :: t2 :: ts) = a :: b :: ' ' :: join_tokens (t2 :: ts) := rfl
        rw [hjoin]
        simp only [decode_loop, substr, List.isEmpty_cons, Bool.false_eq_true, if_false,
          List.drop_zero, List.take_succ_cons, List.take_zero, List.length_cons,
          Nat.add_sub_cancel, hlt, if_true]
        have hmod : (2 + 1) % SIZE_MOD = 3 := by decide
        rw [hmod]
        simp only [List.drop_succ_cons, List.drop_zero]
        rw [hrest]
        simp

/-- A single token of width two holds no space. -/
theorem find_first_space_single (a b : Char) (ha : a ≠ ' ') (hb : b ≠ ' ') :
    find_first_of [a, b] ' ' = npos := by
  simp [find_first_of, find_from, ha, hb]

/-- With a second token present the first space is at index 2. -/
theorem find_first_space_many (a b : Char) (rest : List Char) (ha : a ≠ ' ') (hb : b ≠ ' ') :
    find_first_of (a :: b :: ' ' :: rest) ' ' = 2 := by
  simp [find_first_of, find_from, ha, hb]

/-- The space is not a token character. -/
theorem token_alphabet_no_space : ∀ c ∈ token_alphabet, c ≠ ' ' := by decide

/-- Decoding tokens of width two joined by single spaces gives the list of
the single decodings. -/
theorem ctor_two_char_tokens (toks : List (List Char)) (h : ∀ t ∈ toks, two_char_token t) :
    decoded_sig_t.ctor (join_tokens toks) =
      ⟨toks.map (fun t => (decode_token t).1), toks.map (fun t => (decode_token t).2)⟩ := by
  have hlen : ∀ t ∈ toks, t.length = 2 := fun t ht => (h t ht).1
  unfold decoded_sig_t.ctor
  rw [decode_loop_two_char _ toks _ _ hlen (Nat.le_refl _)]
  · simp
  · cases toks with
    | nil => right; simp [join_tokens, find_first_of, find_from, npos]
    | cons t ts =>
      obtain ⟨a, b, rfl⟩ := List.length_eq_two.mp (hlen t (List.mem_cons_self _ _))
      have ha : a ≠ ' ' := token_alphabet_no_space a ((h _ (List.mem_cons_self _ _)).2 a (by simp))
      have hb : b ≠ ' ' := token_alphabet_no_space b ((h _ (List.mem_cons_self _ _)).2 b (by simp))
      cases ts with
      | nil =>
        right
        simp [join_tokens, find_first_space_single a b ha hb, npos]
      | cons t2 ts =>
        left
        exact find_first_space_many a b _ ha hb

/-- C6: for n ≥ 1 two-character tokens joined by single spaces the decoded
`bytes` and `mask` both have length n, and entry j is the pair token j decodes
to on its own. -/
theorem decode_two_char_tokens (toks : List (List Char)) (_hne : toks ≠ [])
    (h : ∀ t ∈ toks, two_char_token t) :
    (decoded_sig_t.ctor (join_tokens toks)).bytes.length = toks.length ∧
    (decoded_sig_t.ctor (join_tokens toks)).mask.length = toks.length ∧
    ∀ j, j < toks.length →
      decoded_sig_t.ctor (toks.getD j []) =
        ⟨[(decoded_sig_t.ctor (join_tokens toks)).bytes.getD j 0],
         [(decoded_sig_t.ctor (join_tokens toks)).mask.getD j 0]⟩ := by
  rw [ctor_two_char_tokens toks h]
  refine ⟨by simp, by simp, ?_⟩
  intro j hj
  have ht : toks.getD j [] = toks[j] := List.getD_eq_getElem _ _ hj
  have hone := ctor_two_char_tokens [toks[j]] (by
    intro t ht
    simp only [List.mem_singleton] at ht
    subst ht
    exact h _ (List.getElem_mem _))
  simp only [join_tokens, List.map_cons, List.map_nil] at hone
  rw [ht, hone, List.getD_eq_getElem _ _ (by simpa using hj),
    List.getD_eq_getElem _ _ (by simpa using hj), List.getElem_map, List.getElem_map]

/-- C6 at `"F6 47 3B 02 ?? 3E"`: six pairs, the fifth fully wildcarded. -/
theorem decode_two_char_tokens_witness :
    (["F6".toList, "47".toList, "3B".toList, "02".toList, "??".toList, "3E".toList] ≠ [] ∧
     ∀ t ∈ ["F6".toList, "47".toList, "3B".toList, "02".toList, "??".toList, "3E".toList],
       two_char_token t) ∧
    ((decoded_sig_t.ctor (join_tokens
        ["F6".toList, "47".toList, "3B".toList, "02".toList, "??".toList, "3E".toList])).bytes.length
        = 6 ∧
     (decoded_sig_t.ctor (join_tokens
        ["F6".toList, "47".toList, "3B".toList, "02".toList, "??".toList, "3E".toList])).mask.length
        = 6) ∧
    join_tokens ["F6".toList, "47".toList, "3B".toList, "02".toList, "??".toList, "3E".toList]
      = "F6 47 3B 02 ?? 3E".toList ∧
    decoded_sig_t.ctor "F6 47 3B 02 ?? 3E".toList =
      ⟨[0xF6, 0x47, 0x3B, 0x02, 0x00, 0x3E], [0xFF, 0xFF, 0xFF, 0xFF, 0x00, 0xFF]⟩ := by
  have hne : ["F6".toList, "47".toList, "3B".toList, "02".toList, "??".toList, "3E".toList] ≠ [] := by
    simp
  have htok : ∀ t ∈ ["F6".toList, "47".toList, "3B".toList, "02".toList, "??".toList, "3E".toList],
      two_char_token t := by
    intro t ht
    simp only [List.mem_cons, List.mem_singleton, List.not_mem_nil, or_false] at ht
    rcases ht with rfl | rfl | rfl | rfl | rfl | rfl <;>
      exact ⟨by decide, by decide⟩
  have hmain := decode_two_char_tokens _ hne htok
  exact ⟨⟨hne, htok⟩, ⟨hmain.1, hmain.2.1⟩, by decide, by decide⟩

/-- C8, refuted as stated: the byte 0x10 has low nibble 0, yet the signature
`"?"` does not accept it. -/
theorem lone_wildcard_low_nibble_counterexample :
    ¬ (sig_accepts (decoded_sig_t.ctor ['?']) 0 0x10 ↔ 0x10 % 16 = 0) := by
  decide

set_option maxRecDepth 20000 in
/-- The bytes accepted by the signature `"?"`, for all 256 byte values. -/
theorem lone_wildcard_table : ∀ b < 256,
    (sig_accepts (decoded_sig_t.ctor ['?']) 0 b ↔ b / 16 = 0) := by
  decide

/-- C8, amended: the signature `"?"` accepts a memory byte exactly when the
high nibble of the byte is 0, whatever its low nibble is. -/
theorem lone_wildcard_high_nibble (b : Nat) (hb : b < 256) :
    sig_accepts (decoded_sig_t.ctor ['?']) 0 b ↔ b / 16 = 0 :=
  lone_wildcard_table b hb

/-- C8 amended, at the byte 0x0C. -/
theorem lone_wildcard_high_nibble_witness :
    0x0C < 256 ∧ (sig_accepts (decoded_sig_t.ctor ['?']) 0 0x0C ↔ 0x0C / 16 = 0) :=
  ⟨by decide, lone_wildcard_high_nibble 0x0C (by decide)⟩

/-- C7, evaluated at `"A BC DE"`: three tokens that decode on their own to
0x0A, 0xBC and 0xDE give four entries 0x0A, 0x0B, 0x00, 0x0E. -/
theorem decode_mixed_width_tokens :
    decoded_sig_t.ctor (join_tokens ["A".toList, "BC".toList, "DE".toList]) =
      ⟨[0x0A, 0x0B, 0x00, 0x0E], [0xFF, 0xFF, 0xFF, 0xFF]⟩ ∧
    decoded_sig_t.ctor "A".toList = ⟨[0x0A], [0xFF]⟩ ∧
    decoded_sig_t.ctor "BC".toList = ⟨[0xBC], [0xFF]⟩ ∧
    decoded_sig_t.ctor "DE".toList = ⟨[0xDE], [0xFF]⟩ := by
  decide

/-- C10, evaluated at `"10,-4,0x20"`: the third token is cut to `0x`, which
has no digit, and the constructor throws; three tokens of equal width parse. -/
theorem offset_string_spec_example_throws :
    MemOffset.ctor "10,-4,0x20".toList = Except.error Error.runtime_error ∧
    MemOffset.ctor "10,-4,20".toList = Except.ok ⟨[16, -4, 32]⟩ := by
  decide

/-! ## The scan of a region that fits one buffer -/

/-- The matching loop on the first chunk of a region (`start_off = 0`): from a
state whose attempt started at index `i - m` and whose first `m` bytes
matched, the loop ends within the stated number of iterations and appends a
list that `covers` the buffer from `i - m` on. -/
theorem scan_loop_first_chunk (d : decoded_sig_t) (buf : Nat → Nat) (addr n : Nat)
    (hL1 : 1 ≤ d.size) (hL : d.size ≤ SIZE_MOD) (hn : addr + n ≤ SIZE_MOD) (hn' : n < SIZE_MOD) :
    ∀ (fuel i m : Nat) (out : List Nat), m ≤ i → m < d.size → i ≤ n →
      (∀ j, j < m → sig_accepts d j (buf (i - m + j))) →
      (n - (i - m)) * d.size + (d.size - m) ≤ fuel →
      ∃ m' new, scan_loop d buf addr 0 n fuel i m out = some (m', out ++ new) ∧
        m' < d.size ∧ covers d buf addr n (i - m) new := by
  intro fuel
  induction fuel with
  | zero =>
    intro i m out _ hm _ _ hfuel
    omega
  | succ f ih =>
    intro i m out hmi hm hin hpart hfuel
    rw [scan_loop]
    simp only [SIZE_MOD] at hL hn hn' ⊢
    by_cases hi : i < n
    · simp only [hi, if_true]
      have hbuf : buf i = buf (i - m + m) := by rw [Nat.sub_add_cancel hmi]
      by_cases hacc : sig_accepts d m (buf i)
      · have hacc' := hacc
        unfold sig_accepts at hacc'
        simp only [hacc', if_true]
        have hnext : (i + 1) % 18446744073709551616 = i + 1 := Nat.mod_eq_of_lt (by omega)
        have hlastv : (d.size + 18446744073709551616 - 1) % 18446744073709551616 = d.size - 1 := by omega
        rw [hnext, hlastv]
        by_cases hlast : m = d.size - 1
        · rw [if_pos hlast]
          have haddr : (addr + i + 2 * 18446744073709551616 - 0 - m) % 18446744073709551616
              = addr + (i - m) := by omega
          rw [haddr]
          have hsq : d.size ≤ d.size * d.size := Nat.le_mul_self _
          have hk : n - (i - m) = (n - (i + 1)) + d.size := by omega
          rw [hk, Nat.add_mul] at hfuel
          obtain ⟨m', new', hrun, hm', hcov⟩ := ih (i + 1) 0 (out ++ [addr + (i - m)])
            (Nat.zero_le _) (by omega) (by omega) (fun j hj => absurd hj (Nat.not_lt_zero _))
            (by simp only [Nat.sub_zero]; omega)
          have hocc : buf_occurs d buf n (i - m) := by
            refine ⟨by omega, ?_⟩
            intro j hj
            by_cases hjm : j < m
            · exact hpart j hjm
            · have : j = m := by omega
              subst this
              rw [← hbuf]
              exact hacc
          refine ⟨m', (addr + (i - m)) :: new', ?_, hm', ?_, ?_, ?_⟩
          · rw [hrun]; simp
          · intro a ha
            rcases List.mem_cons.mp ha with rfl | ha
            · exact ⟨i - m, rfl, Nat.le_refl _, hocc⟩
            · obtain ⟨p, hp, hsp, hpo⟩ := hcov.1 a ha
              exact ⟨p, hp, by simp only [Nat.sub_zero] at hsp; omega, hpo⟩
          · intro p hsp hpo
            by_cases hp1 : p = i - m
            · left; subst hp1; exact List.mem_cons_self _ _
            · by_cases hp2 : p < i + 1
              · right
                exact ⟨i - m, List.mem_cons_self _ _, hocc, by omega, by omega⟩
              · rcases hcov.2.1 p (by simp only [Nat.sub_zero]; omega) hpo with h | ⟨q, hq, hqo, h1, h2⟩
                · left; exact List.mem_cons_of_mem _ h
                · right; exact ⟨q, List.mem_cons_of_mem _ hq, hqo, h1, h2⟩
          · refine List.pairwise_cons.mpr ⟨?_, hcov.2.2⟩
            intro a ha
            obtain ⟨p, hp, hsp, _⟩ := hcov.1 a ha
            simp only [Nat.sub_zero] at hsp
            omega
        · rw [if_neg hlast]
          have hs : i + 1 - (m + 1) = i - m := by omega
          obtain ⟨m', new', hrun, hm', hcov⟩ := ih (i + 1) (m + 1) out
            (by omega) (by omega) (by omega)
            (by
              intro j hj
              rw [hs]
              by_cases hjm : j < m
              · exact hpart j hjm
              · have : j = m := by omega
                subst this
                rw [← hbuf]
                exact hacc)
            (by rw [hs]; omega)
          rw [hs] at hcov
          exact ⟨m', new', hrun, hm', hcov⟩
      · have hacc' := hacc
        unfold sig_accepts at hacc'
        simp only [hacc', if_false]
        have hnext : (i + 18446744073709551616 - m + 1) % 18446744073709551616 = i - m + 1 := by omega
        rw [hnext]
        have hk : n - (i - m) = (n - (i - m + 1)) + 1 := by omega
        rw [hk, Nat.add_mul, Nat.one_mul] at hfuel
        obtain ⟨m', new', hrun, hm', hcov⟩ := ih (i - m + 1) 0 out
          (Nat.zero_le _) (by omega) (by omega) (fun j hj => absurd hj (Nat.not_lt_zero _))
          (by simp only [Nat.sub_zero]; omega)
        simp only [Nat.sub_zero] at hcov
        refine ⟨m', new', hrun, hm', ?_, ?_, hcov.2.2⟩
        · intro a ha
          obtain ⟨p, hp, hsp, hpo⟩ := hcov.1 a ha
          exact ⟨p, hp, by omega, hpo⟩
        · intro p hsp hpo
          by_cases hp1 : p = i - m
          · exfalso
            subst hp1
            apply hacc
            rw [hbuf]
            exact hpo.2 m hm
          · exact hcov.2.1 p (by omega) hpo
    · simp only [hi, if_false]
      refine ⟨m, [], by simp, hm, ?_, ?_, List.Pairwise.nil⟩
      · intro a ha
        simp at ha
      · intro p hsp hpo
        have := hpo.1
        omega

/-- The chunk loop stops when the chunk address has reached the region end. -/
theorem chunk_loop_done (mh : MemHandle) (d : decoded_sig_t) (r : MemRegion)
    (fuel n addr : Nat) (buf : Nat → Nat) (m : Nat) (out : List Nat) (h : r.end_ ≤ addr) :
    chunk_loop mh d r fuel n addr buf m out = some out := by
  cases n <;> simp [chunk_loop, Nat.not_lt.mpr h]

/-- The matching loop does nothing when `i` starts at or beyond `bytes`. -/
theorem scan_loop_done (d : decoded_sig_t) (buf : Nat → Nat) (addr so bytes fuel i m : Nat)
    (out : List Nat) (h : bytes ≤ i) :
    scan_loop d buf addr so bytes fuel i m out = some (m, out) := by
  cases fuel <;> simp [scan_loop, Nat.not_lt.mpr h]

/-- After the first read the buffer holds the region: occurrences in the
buffer are the occurrences in the region. -/
theorem buf_occurs_first_chunk (mh : MemHandle) (d : decoded_sig_t) (r : MemRegion)
    (buf0 : Nat → Nat) (p : Nat) (hse : r.start ≤ r.end_) :
    buf_occurs d (read_into mh buf0 r.start 0 (r.end_ - r.start)) (r.end_ - r.start) p ↔
      occurs_at mh d r (r.start + p) := by
  unfold buf_occurs occurs_at
  constructor
  · rintro ⟨h1, h2⟩
    refine ⟨by omega, by omega, ?_⟩
    intro j hj
    have := h2 j hj
    have hin : 0 ≤ p + j ∧ p + j < 0 + (r.end_ - r.start) := by omega
    simp only [read_into, hin, and_self, if_true, Nat.sub_zero] at this
    rw [Nat.add_assoc]
    exact this
  · rintro ⟨_, h1, h2⟩
    refine ⟨by omega, ?_⟩
    intro j hj
    have := h2 j hj
    have hin : 0 ≤ p + j ∧ p + j < 0 + (r.end_ - r.start) := by omega
    simp only [read_into, hin, and_self, if_true, Nat.sub_zero]
    rw [Nat.add_assoc] at this
    exact this

/-- A later chunk that holds at most `d.size` bytes reports nothing and ends
the loop. -/
theorem chunk_loop_tail (mh : MemHandle) (d : decoded_sig_t) (r : MemRegion)
    (fuel n addr : Nat) (buf : Nat → Nat) (m : Nat) (out : List Nat)
    (hn : 1 ≤ n) (hL : d.size < 4096) (hne : addr ≠ r.start)
    (hshort : r.end_ ≤ addr + d.size) (hwrap : r.end_ + 8192 ≤ SIZE_MOD) :
    chunk_loop mh d r fuel n addr buf m out = some out := by
  simp only [SIZE_MOD] at hwrap
  by_cases hend : r.end_ ≤ addr
  · exact chunk_loop_done _ _ _ _ _ _ _ _ _ hend
  · obtain ⟨n1, rfl⟩ : ∃ n1, n = n1 + 1 := ⟨n - 1, by omega⟩
    have hlt : addr < r.end_ := by omega
    have hb : (if BUF_SIZE - d.size > r.end_ - addr then r.end_ - addr else BUF_SIZE - d.size)
        = r.end_ - addr := by
      simp only [BUF_SIZE]; split <;> omega
    have hnext : r.end_ ≤ (addr + (BUF_SIZE - d.size)) % SIZE_MOD := by
      simp only [BUF_SIZE, SIZE_MOD]; omega
    rw [chunk_loop]
    simp only [hlt, if_true, hne, decide_False, Bool.false_eq_true, if_false, hb]
    cases mh.fails addr (r.end_ - addr) with
    | true => simp [chunk_loop_done _ _ _ _ _ _ _ _ _ hnext]
    | false =>
      rw [scan_loop_done _ _ _ _ _ _ _ _ _ (by omega)]
      simp [chunk_loop_done _ _ _ _ _ _ _ _ _ hnext]

/-- The result of `chunk_loop` on a region that fits in one buffer. -/
theorem chunk_loop_single_chunk (mh : MemHandle) (d : decoded_sig_t) (r : MemRegion)
    (buf0 : Nat → Nat) (fuel n : Nat) (acc : List Nat)
    (hL1 : 1 ≤ d.size) (hL : d.size < 4096)
    (hse : r.start ≤ r.end_) (hsz : r.end_ - r.start ≤ 8192)
    (hwrap : r.end_ + 8192 ≤ SIZE_MOD)
    (hread : mh.fails r.start (r.end_ - r.start) = false)
    (hfuel : 33554432 ≤ fuel) (hn : 2 ≤ n) :
    ∃ new, chunk_loop mh d r fuel n r.start buf0 0 acc = some (acc ++ new) ∧
      (∀ a ∈ new, occurs_at mh d r a) ∧
      (∀ a, occurs_at mh d r a →
        a ∈ new ∨ ∃ q, q ∈ new ∧ occurs_at mh d r q ∧ q < a ∧ a < q + d.size) ∧
      new.Pairwise (· < ·) := by
  simp only [SIZE_MOD] at hwrap
  by_cases hempty : r.end_ ≤ r.start
  · refine ⟨[], by simp [chunk_loop_done _ _ _ _ _ _ _ _ _ hempty], by simp, ?_, List.Pairwise.nil⟩
    intro a ha
    have h1 := ha.1
    have h2 := ha.2.1
    omega
  · have hlt : r.start < r.end_ := by omega
    obtain ⟨n1, rfl⟩ : ∃ n1, n = n1 + 1 := ⟨n - 1, by omega⟩
    have hmul : (r.end_ - r.start) * d.size ≤ 8192 * 4095 :=
      Nat.mul_le_mul hsz (Nat.le_of_lt_succ hL)
    obtain ⟨m', new, hrun, hm', hcov⟩ :=
      scan_loop_first_chunk d (read_into mh buf0 r.start 0 (r.end_ - r.start)) r.start
        (r.end_ - r.start) hL1 (by simp only [SIZE_MOD]; omega) (by simp only [SIZE_MOD]; omega)
        (by simp only [SIZE_MOD]; omega) fuel 0 0 acc (Nat.le_refl _) (by omega) (Nat.zero_le _)
        (fun j hj => absurd hj (Nat.not_lt_zero _)) (by simp only [Nat.sub_zero]; omega)
    simp only [Nat.sub_zero] at hcov hrun
    have hb1 : (if BUF_SIZE > r.end_ - r.start then r.end_ - r.start else BUF_SIZE)
        = r.end_ - r.start := by
      simp only [BUF_SIZE]; split <;> omega
    rw [chunk_loop]
    simp only [hlt, if_true, decide_True, hb1, hread, Bool.false_eq_true, if_false, hrun]
    have hnext : (r.start + (BUF_SIZE - d.size)) % SIZE_MOD = r.start + (8192 - d.size) := by
      simp only [BUF_SIZE, SIZE_MOD]; omega
    rw [hnext, chunk_loop_tail mh d r fuel n1 _ _ _ _ (by omega) hL (by omega) (by omega)
      (by simp only [SIZE_MOD]; omega)]
    refine ⟨new, rfl, ?_, ?_, hcov.2.2⟩
    · intro a ha
      obtain ⟨p, rfl, _, hp⟩ := hcov.1 a ha
      exact (buf_occurs_first_chunk mh d r buf0 p hse).mp hp
    · intro a ha
      have hle := ha.1
      have hap : a = r.start + (a - r.start) := by omega
      rw [hap] at ha
      have hbo := (buf_occurs_first_chunk mh d r buf0 (a - r.start) hse).mpr ha
      rcases hcov.2.1 (a - r.start) (Nat.zero_le _) hbo with h | ⟨q, hq, hqo, h1, h2⟩
      · left; rw [hap]; exact h
      · right
        exact ⟨r.start + q, hq, (buf_occurs_first_chunk mh d r buf0 q hse).mp hqo,
          by omega, by omega⟩

/-- The region loop when every selected region fits one buffer: the result is
the concatenation of one report per selected region. -/
theorem region_loop_one_buffer (proc : Process) (mh : MemHandle) (d : decoded_sig_t)
    (mode : mem_search_mode_t) (buf0 : Nat → Nat) (fuel : Nat)
    (hL1 : 1 ≤ d.size) (hL : d.size < 4096) (hfuel : 33554432 ≤ fuel) :
    ∀ (regions : List MemRegion) (acc : List Nat),
      (∀ r ∈ regions, region_selected proc mode r = true → one_buffer_region mh r) →
      ∃ news : List (List Nat),
        region_loop proc mh d mode buf0 fuel regions acc = some (acc ++ news.flatten) ∧
        List.Forall₂ (region_report mh d) (regions.filter (region_selected proc mode)) news := by
  intro regions
  induction regions with
  | nil =>
    intro acc _
    exact ⟨[], by simp [region_loop], by simp⟩
  | cons r rest ih =>
    intro acc hgood
    have hrest : ∀ r ∈ rest, region_selected proc mode r = true → one_buffer_region mh r :=
      fun x hx => hgood x (List.mem_cons_of_mem _ hx)
    by_cases hsel : region_selected proc mode r = true
    · obtain ⟨hse, hsz, hlow, hread⟩ := hgood r (List.mem_cons_self _ _) hsel
      have hwrap : r.end_ + 8192 ≤ SIZE_MOD := by
        simp only [REGION_START_LIMIT] at hlow
        simp only [SIZE_MOD]
        omega
      obtain ⟨new, hrun, hrep⟩ := chunk_loop_single_chunk mh d r buf0 fuel fuel acc hL1 hL
        hse hsz hwrap hread hfuel (by omega)
      obtain ⟨news, hloop, hall⟩ := ih (acc ++ new) hrest
      refine ⟨new :: news, ?_, ?_⟩
      · rw [region_loop]
        simp only [hsel, if_true, hrun, hloop]
        simp
      · rw [List.filter_cons_of_pos hsel]
        exact List.Forall₂.cons hrep hall
    · obtain ⟨news, hloop, hall⟩ := ih acc hrest
      refine ⟨news, ?_, ?_⟩
      · rw [region_loop]
        simp only [hsel, if_false, hloop]
        simp
      · rw [List.filter_cons_of_neg hsel]
        exact hall

/-- Every element of the left list of a `Forall₂` has a partner on the right. -/
theorem forall₂_mem_left {α β : Type} {R : α → β → Prop} {l1 : List α} {l2 : List β}
    (h : List.Forall₂ R l1 l2) : ∀ x ∈ l1, ∃ y ∈ l2, R x y := by
  induction h with
  | nil => intro x hx; simp at hx
  | cons hxy _ ih =>
    intro x hx
    rcases List.mem_cons.mp hx with rfl | hx
    · exact ⟨_, List.mem_cons_self _ _, hxy⟩
    · obtain ⟨y, hy, hr⟩ := ih x hx
      exact ⟨y, List.mem_cons_of_mem _ hy, hr⟩

/-- A strictly ascending list all of whose elements equal `x` is `[x]`. -/
theorem eq_singleton_of_pairwise_lt (l : List Nat) (x : Nat) (hx : x ∈ l)
    (hall : ∀ a ∈ l, a = x) (hp : l.Pairwise (· < ·)) : l = [x] := by
  cases l with
  | nil => simp at hx
  | cons a t =>
    have ha : a = x := hall a (List.mem_cons_self _ _)
    cases t with
    | nil => rw [ha]
    | cons b t =>
      have hb : b = x := hall b (by simp)
      have hlt : a < b := (List.pairwise_cons.mp hp).1 b (List.mem_cons_self _ _)
      omega

/-- C4: a selected region of at most 8192 bytes whose read succeeds and whose
content holds the pattern at exactly one offset `k` makes `mem_find_sig`
return the one-element list `[region.start + k]`.  The region is one that
`Process::regions()` can return: it starts below `REGION_START_LIMIT`. -/
theorem find_sig_unique_match (fuel : Nat) (proc : Process) (mh : MemHandle)
    (sig : List Char) (mode : mem_search_mode_t) (buf0 : Nat → Nat) (r : MemRegion) (k : Nat)
    (hfuel : 33554432 ≤ fuel)
    (hL1 : 1 ≤ (decoded_sig_t.ctor sig).size) (hL : (decoded_sig_t.ctor sig).size < 4096)
    (hsel : proc.regions.filter (region_selected proc mode) = [r])
    (hse : r.start ≤ r.end_) (hsz : r.end_ - r.start ≤ 8192)
    (hlow : r.start < REGION_START_LIMIT)
    (hread : mh.fails r.start (r.end_ - r.start) = false)
    (huniq : ∀ p, occurs_at mh (decoded_sig_t.ctor sig) r (r.start + p) ↔ p = k) :
    mem_find_sig fuel proc mh sig mode buf0 = some (Except.ok [r.start + k]) := by
  have hgood : ∀ x ∈ proc.regions, region_selected proc mode x = true → one_buffer_region mh x := by
    intro x hx hxs
    have hmem : x ∈ proc.regions.filter (region_selected proc mode) :=
      List.mem_filter.mpr ⟨hx, hxs⟩
    rw [hsel, List.mem_singleton] at hmem
    subst hmem
    exact ⟨hse, hsz, hlow, hread⟩
  obtain ⟨news, hloop, hall⟩ := region_loop_one_buffer proc mh (decoded_sig_t.ctor sig) mode buf0
    fuel hL1 hL hfuel proc.regions [] hgood
  rw [hsel] at hall
  obtain ⟨new, hnews, hrep⟩ : ∃ new, news = [new] ∧
      region_report mh (decoded_sig_t.ctor sig) r new := by
    cases hall with
    | cons h1 h2 =>
      cases h2
      exact ⟨_, rfl, h1⟩
  subst hnews
  have hocc_eq : ∀ a, occurs_at mh (decoded_sig_t.ctor sig) r a → a = r.start + k := by
    intro a ha
    have hle := ha.1
    have hap : a = r.start + (a - r.start) := by omega
    rw [hap] at ha
    have := (huniq _).mp ha
    omega
  have hk : occurs_at mh (decoded_sig_t.ctor sig) r (r.start + k) := (huniq k).mpr rfl
  have hmem : r.start + k ∈ new := by
    rcases hrep.2.1 _ hk with h | ⟨q, _, hqo, hlt, _⟩
    · exact h
    · have := hocc_eq q hqo
      omega
  have hnew : new = [r.start + k] :=
    eq_singleton_of_pairwise_lt new _ hmem (fun a ha => hocc_eq a (hrep.1 a ha)) hrep.2.2
  have hnot : ¬ (decoded_sig_t.ctor sig).size ≥ 4096 := by omega
  simp only [mem_find_sig, hnot, if_false, hloop, hnew]
  simp

/-- C3, amended: when every selected region fits one buffer and is read
without error, `mem_find_sig` returns a list, and each occurrence of the
signature in a selected region is in that list or starts strictly inside an
occurrence of the same region that is in the list. -/
theorem find_sig_complete_up_to_overlap (fuel : Nat) (proc : Process) (mh : MemHandle)
    (sig : List Char) (mode : mem_search_mode_t) (buf0 : Nat → Nat)
    (hfuel : 33554432 ≤ fuel)
    (hL1 : 1 ≤ (decoded_sig_t.ctor sig).size) (hL : (decoded_sig_t.ctor sig).size < 4096)
    (hgood : ∀ r ∈ proc.regions, region_selected proc mode r = true → one_buffer_region mh r) :
    ∃ l, mem_find_sig fuel proc mh sig mode buf0 = some (Except.ok l) ∧
      ∀ r ∈ proc.regions, region_selected proc mode r = true →
        ∀ a, occurs_at mh (decoded_sig_t.ctor sig) r a →
          a ∈ l ∨ ∃ q, q ∈ l ∧ occurs_at mh (decoded_sig_t.ctor sig) r q ∧
            q < a ∧ a < q + (decoded_sig_t.ctor sig).size := by
  obtain ⟨news, hloop, hall⟩ := region_loop_one_buffer proc mh (decoded_sig_t.ctor sig) mode buf0
    fuel hL1 hL hfuel proc.regions [] hgood
  have hnot : ¬ (decoded_sig_t.ctor sig).size ≥ 4096 := by omega
  refine ⟨news.flatten, by simp only [mem_find_sig, hnot, if_false, hloop]; simp, ?_⟩
  intro r hr hsel a ha
  obtain ⟨new, hnew, hrep⟩ := forall₂_mem_left hall r (List.mem_filter.mpr ⟨hr, hsel⟩)
  have hsub : ∀ x ∈ new, x ∈ news.flatten := fun x hx => List.mem_flatten.mpr ⟨new, hnew, hx⟩
  rcases hrep.2.1 a ha with h | ⟨q, hq, hqo, h1, h2⟩
  · exact Or.inl (hsub a h)
  · exact Or.inr ⟨q, hsub q hq, hqo, h1, h2⟩

/-! ## The scanner on concrete inputs -/

/-- Only the first of `text_bytes` equals 0xF6. -/
theorem text_bytes_first_only (q : Nat)
    (h : (text_bytes.getD q 0 % 256 &&& 255) = 246) : q = 0 := by
  by_cases hq : q < 12
  · have htab : ∀ x < 12, (text_bytes.getD x 0 % 256 &&& 255) = 246 → x = 0 := by decide
    exact htab q hq h
  · rw [List.getD_eq_default _ _ (by simp only [text_bytes, List.length_cons, List.length_nil]; omega)] at h
    exact absurd h (by decide)

/-- The decoded pattern of `main`. -/
theorem mudra_sig_decoded :
    decoded_sig_t.ctor mudra_sig =
      ⟨[0xF6, 0x47, 0x3B, 0x02, 0x00, 0x3E, 0x8D, 0x83, 0x83, 0xC1, 0xFF, 0xFF],
       [0xFF, 0xFF, 0xFF, 0xFF, 0x00, 0xFF, 0xFF, 0xFF, 0xFF, 0xFF, 0xFF, 0xFF]⟩ := by
  decide

/-- The pattern of `main` occurs in `text_region` at offset 100 and nowhere else. -/
theorem text_region_unique_occurrence (p : Nat) :
    occurs_at text_handle (decoded_sig_t.ctor mudra_sig) text_region (text_region.start + p)
      ↔ p = 100 := by
  constructor
  · intro h
    have h0 := h.2.2 0 (by decide)
    rw [mudra_sig_decoded] at h0
    simp only [sig_accepts, MemHandle.byte, text_handle, text_mem, text_region, Nat.add_zero,
      List.getD_cons_zero] at h0
    by_cases hp : p < 100
    · rw [if_pos (by omega)] at h0
      exact absurd h0 (by decide)
    · rw [if_neg (by omega)] at h0
      have := text_bytes_first_only _ h0
      omega
  · intro h
    subst h
    decide

/-- C4 at the example of the specification: the pattern of `main` against an
8192-byte region holding the twelve bytes at offset 100. -/
theorem find_sig_unique_match_witness :
    (text_region.end_ - text_region.start ≤ 8192 ∧
     (∀ p, occurs_at text_handle (decoded_sig_t.ctor mudra_sig) text_region
        (text_region.start + p) ↔ p = 100)) ∧
    mem_find_sig 33554432 text_proc text_handle mudra_sig mem_search_mode_t.Search_text
      (fun _ => 0) = some (Except.ok [text_region.start + 100]) :=
  ⟨⟨by decide, text_region_unique_occurrence⟩,
   find_sig_unique_match 33554432 text_proc text_handle mudra_sig mem_search_mode_t.Search_text
    (fun _ => 0) text_region 100 (Nat.le_refl _) (by decide) (by decide) (by decide)
    (by decide) (by decide) (by decide) rfl text_region_unique_occurrence⟩

/-- C3, refuted as stated: in a three-byte region filled with 0xAA the
signature `AA AA` occurs at offsets 0 and 1, and only offset 0 is returned. -/
theorem find_sig_misses_overlapping_occurrence :
    mem_find_sig 100 tiny_proc tiny_handle "AA AA".toList mem_search_mode_t.Search_any
      (fun _ => 0) = some (Except.ok [0x10000]) ∧
    occurs_at tiny_handle (decoded_sig_t.ctor "AA AA".toList) tiny_region (0x10000 + 1) ∧
    0x10000 + 1 ∉ [0x10000] := by
  decide

/-- C3 amended, at the three-byte region filled with 0xAA. -/
theorem find_sig_complete_up_to_overlap_witness :
    (∀ r ∈ tiny_proc.regions, region_selected tiny_proc mem_search_mode_t.Search_any r = true →
      one_buffer_region tiny_handle r) ∧
    ∃ l, mem_find_sig 33554432 tiny_proc tiny_handle "AA AA".toList
        mem_search_mode_t.Search_any (fun _ => 0) = some (Except.ok l) ∧
      ∀ r ∈ tiny_proc.regions, region_selected tiny_proc mem_search_mode_t.Search_any r = true →
        ∀ a, occurs_at tiny_handle (decoded_sig_t.ctor "AA AA".toList) r a →
          a ∈ l ∨ ∃ q, q ∈ l ∧ occurs_at tiny_handle (decoded_sig_t.ctor "AA AA".toList) r q ∧
            q < a ∧ a < q + (decoded_sig_t.ctor "AA AA".toList).size := by
  have hgood : ∀ r ∈ tiny_proc.regions,
      region_selected tiny_proc mem_search_mode_t.Search_any r = true →
      one_buffer_region tiny_handle r := by
    intro r hr _
    simp only [tiny_proc, List.mem_singleton] at hr
    subst hr
    exact ⟨by decide, by decide, by decide, rfl⟩
  exact ⟨hgood, find_sig_complete_up_to_overlap 33554432 tiny_proc tiny_handle "AA AA".toList
    mem_search_mode_t.Search_any (fun _ => 0) (Nat.le_refl _) (by decide) (by decide) hgood⟩

/-- C2, evaluated on a region of 8200 bytes whose reads all succeed: the one
address returned, offset 8189, is not the start of an occurrence of `AA BB`
(the bytes at offsets 8189 and 8190 are 0x00 and 0xBB). -/
theorem find_sig_reports_spurious_address :
    mem_find_sig 20000 wide_proc spurious_handle "AA BB".toList mem_search_mode_t.Search_any
      (fun _ => 0) = some (Except.ok [0x10000 + 8189]) ∧
    ¬ occurs_at spurious_handle (decoded_sig_t.ctor "AA BB".toList) wide_region
      (0x10000 + 8189) := by
  decide!

/-- The last `d.size` bytes a later chunk reads are not scanned: `AA BB` in the
last two bytes of the 8200-byte region is found by the contiguous scan and not
by the chunked one. -/
theorem find_sig_skips_chunk_tail :
    mem_find_sig 20000 wide_proc tail_handle "AA BB".toList mem_search_mode_t.Search_any
      (fun _ => 0) = some (Except.ok []) ∧
    scan_contiguous 20000 tail_handle (decoded_sig_t.ctor "AA BB".toList) wide_region
      = some [0x10000 + 8198] := by
  decide!

/-- C1, evaluated on a region of 8200 bytes whose reads all succeed and that
holds `AA BB` across offsets 8191 and 8192: the chunked scan returns offsets
8189 and 8191, the scan of the same bytes in one contiguous buffer returns
offset 8191 only. -/
theorem find_sig_differs_from_contiguous_scan :
    mem_find_sig 20000 wide_proc straddle_handle "AA BB".toList mem_search_mode_t.Search_any
      (fun _ => 0) = some (Except.ok [0x10000 + 8189, 0x10000 + 8191]) ∧
    scan_contiguous 20000 straddle_handle (decoded_sig_t.ctor "AA BB".toList) wide_region
      = some [0x10000 + 8191] := by
  decide!

/-! ## The region filter and the length check -/

/-- Masking with a value below 8 only looks at the low three bits. -/
theorem land_low3 (f c : Nat) (hc : c < 8) : f &&& c = (f % 8) &&& c := by
  have h7 : f &&& 7 = f % 8 := Nat.and_pow_two_sub_one_eq_mod f 3
  have hc7 : 7 &&& c = c := by
    have : ∀ c < 8, 7 &&& c = c := by decide
    exact this c hc
  calc f &&& c = f &&& (7 &&& c) := by rw [hc7]
    _ = (f &&& 7) &&& c := by rw [Nat.land_assoc]
    _ = (f % 8) &&& c := by rw [h7]

/-- The mask test on three-bit values, bit by bit. -/
theorem flags_table : ∀ c < 8, ∀ f < 8,
    (f &&& c ≠ 0 ↔ ((c &&& 1 ≠ 0 ∧ f &&& 1 ≠ 0) ∨ (c &&& 2 ≠ 0 ∧ f &&& 2 ≠ 0) ∨
      (c &&& 4 ≠ 0 ∧ f &&& 4 ≠ 0))) := by
  decide

/-- The test `(flags & perms) != 0` of line 260 says that the flags contain
one of the permissions in `perms`. -/
theorem land_ne_zero_iff_has_any (r : MemRegion) (c : Nat) (hc : c < 8) :
    r.flags &&& c ≠ 0 ↔ has_any_permission r c := by
  unfold has_any_permission
  simp only [MemRegion.R, MemRegion.W, MemRegion.X]
  rw [land_low3 r.flags c hc, land_low3 r.flags 1 (by decide), land_low3 r.flags 2 (by decide),
    land_low3 r.flags 4 (by decide)]
  exact flags_table c hc (r.flags % 8) (Nat.mod_lt _ (by decide))

/-- The flag sets the switches compute for the seven listed any-of modes. -/
theorem any_of_flags_table :
    ∀ mode ∈ [mem_search_mode_t.Search_any, mem_search_mode_t.Search_R, mem_search_mode_t.Search_W, mem_search_mode_t.Search_X, mem_search_mode_t.Search_RW, mem_search_mode_t.Search_RX, mem_search_mode_t.Search_WX],
      any_flags mode = mode_letters mode ∧ all_flags mode = 0 ∧ mode_letters mode ≠ 0 ∧
      mode_letters mode < 8 ∧
      mode ≠ mem_search_mode_t.Search_text ∧ mode ≠ mem_search_mode_t.Search_data ∧ mode ≠ mem_search_mode_t.Search_rdata := by
  decide

/-- The selection test in the seven any-of modes the switches list. -/
theorem region_selected_any_of (proc : Process) (r : MemRegion) (mode : mem_search_mode_t)
    (hmode : mode ∈ [mem_search_mode_t.Search_any, mem_search_mode_t.Search_R, mem_search_mode_t.Search_W, mem_search_mode_t.Search_X, mem_search_mode_t.Search_RW, mem_search_mode_t.Search_RX, mem_search_mode_t.Search_WX]) :
    region_selected proc mode r = true ↔ has_any_permission r (mode_letters mode) := by
  obtain ⟨hany, hall, hne, hlt, h1, h2, h3⟩ := any_of_flags_table mode hmode
  rw [← land_ne_zero_iff_has_any r _ hlt]
  simp [region_selected, hany, hall, hne, h1, h2, h3]

/-- C13, evaluated: in the seven any-of modes that the switches of lines
196-244 list, a region is scanned exactly when its flags contain one of the
permissions in the mode's name; `mem_search_mode_t.Search_RWX` is in none of the switches, so
`any_flags` stays 0 and every region is scanned, also one without any
permission. -/
theorem search_rwx_scans_every_region (proc : Process) (r : MemRegion) :
    (∀ mode ∈ [mem_search_mode_t.Search_any, mem_search_mode_t.Search_R, mem_search_mode_t.Search_W, mem_search_mode_t.Search_X, mem_search_mode_t.Search_RW, mem_search_mode_t.Search_RX, mem_search_mode_t.Search_WX],
      (region_selected proc mode r = true ↔ has_any_permission r (mode_letters mode))) ∧
    any_flags mem_search_mode_t.Search_RWX = 0 ∧
    region_selected proc mem_search_mode_t.Search_RWX r = true ∧
    region_selected proc mem_search_mode_t.Search_RWX no_region = true ∧
    ¬ has_any_permission no_region (mode_letters mem_search_mode_t.Search_RWX) := by
  have h0 : any_flags mem_search_mode_t.Search_RWX = 0 := by decide
  have h1 : all_flags mem_search_mode_t.Search_RWX = 0 := by decide
  refine ⟨fun mode hmode => region_selected_any_of proc r mode hmode, h0, ?_, ?_, by decide⟩
  · simp [region_selected, h0, h1]
  · simp [region_selected, h0, h1]

/-- The flag sets the switches compute for the named-segment modes. -/
theorem segment_flags_table :
    any_flags mem_search_mode_t.Search_text = 5 ∧ all_flags mem_search_mode_t.Search_text = 0 ∧
    any_flags mem_search_mode_t.Search_rdata = 1 ∧ all_flags mem_search_mode_t.Search_rdata = 0 ∧
    any_flags mem_search_mode_t.Search_data = 3 ∧ all_flags mem_search_mode_t.Search_data = 0 := by
  decide

/-- C14, amended: in the modes `mem_search_mode_t.Search_text`, `mem_search_mode_t.Search_rdata` and `mem_search_mode_t.Search_data`
a region is scanned exactly when its start address equals the start of the
cached text, rdata or data segment and its flags contain at least one
permission of the mode (text: R or X, rdata: R, data: R or W). -/
theorem region_selected_named_segment (proc : Process) (r : MemRegion) :
    (region_selected proc mem_search_mode_t.Search_text r = true ↔
      r.start = proc.text.start ∧ has_any_permission r (MemRegion.R ||| MemRegion.X)) ∧
    (region_selected proc mem_search_mode_t.Search_rdata r = true ↔
      r.start = proc.rdata.start ∧ has_any_permission r MemRegion.R) ∧
    (region_selected proc mem_search_mode_t.Search_data r = true ↔
      r.start = proc.data.start ∧ has_any_permission r (MemRegion.R ||| MemRegion.W)) := by
  obtain ⟨a1, a2, a3, a4, a5, a6⟩ := segment_flags_table
  refine ⟨?_, ?_, ?_⟩
  · rw [← land_ne_zero_iff_has_any r _ (by decide)]
    simp [region_selected, a1, a2, MemRegion.R, MemRegion.X]
  · rw [← land_ne_zero_iff_has_any r _ (by decide)]
    simp [region_selected, a3, a4, MemRegion.R]
  · rw [← land_ne_zero_iff_has_any r _ (by decide)]
    simp [region_selected, a5, a6, MemRegion.R, MemRegion.W]

/-- C14, refuted as stated: a region whose start equals the start of the text
segment but whose flags hold neither R nor X is not scanned in `mem_search_mode_t.Search_text`. -/
theorem search_text_keeps_permission_filter :
    ¬ (region_selected write_only_proc mem_search_mode_t.Search_text write_only_region = true ↔
        write_only_region.start = write_only_proc.text.start) := by
  decide

/-- C17: `mem_find_sig` throws `std::logic_error` exactly when the decoded
signature has 4096 or more entries; the outcome is then the same for every
process, handle and iteration allowance (also allowance 0, under which no
chunk can be read), and with fewer than 4096 entries no exception leaves
`mem_find_sig`. -/
theorem find_sig_logic_error_iff (fuel : Nat) (proc : Process) (mh : MemHandle)
    (sig : List Char) (mode : mem_search_mode_t) (buf0 : Nat → Nat) :
    (mem_find_sig fuel proc mh sig mode buf0 = some (Except.error Error.logic_error) ↔
      (decoded_sig_t.ctor sig).size ≥ 4096) ∧
    ((decoded_sig_t.ctor sig).size ≥ 4096 →
      ∀ (fuel2 : Nat) (proc2 : Process) (mh2 : MemHandle) (mode2 : mem_search_mode_t)
        (buf2 : Nat → Nat),
        mem_find_sig fuel2 proc2 mh2 sig mode2 buf2 = some (Except.error Error.logic_error)) ∧
    ((decoded_sig_t.ctor sig).size < 4096 →
      ∀ e, mem_find_sig fuel proc mh sig mode buf0 ≠ some (Except.error e)) := by
  refine ⟨?_, ?_, ?_⟩
  · constructor
    · intro h
      by_contra hlt
      simp only [mem_find_sig, hlt, if_false] at h
      split at h <;> simp at h
    · intro h
      simp [mem_find_sig, h]
  · intro h fuel2 proc2 mh2 mode2 buf2
    simp [mem_find_sig, h]
  · intro h e heq
    have hlt : ¬ (decoded_sig_t.ctor sig).size ≥ 4096 := by omega
    simp only [mem_find_sig, hlt, if_false] at heq
    split at heq <;> simp at heq

/-- The pattern of 4096 tokens `00` decodes to 4096 entries. -/
theorem long_sig_size : (decoded_sig_t.ctor long_sig).size = 4096 := by
  unfold long_sig
  rw [ctor_two_char_tokens]
  · simp only [decoded_sig_t.size, List.length_map, List.length_replicate]
  · intro t ht
    rw [List.eq_of_mem_replicate ht]
    exact ⟨by decide, by decide⟩

/-- C17 at the pattern of 4096 tokens `00`: the logic error is raised with
allowance 0 and an empty region list as well as for `tiny_proc`. -/
theorem find_sig_logic_error_iff_witness :
    (decoded_sig_t.ctor long_sig).size ≥ 4096 ∧
    mem_find_sig 0 tiny_proc tiny_handle long_sig mem_search_mode_t.Search_any (fun _ => 0)
      = some (Except.error Error.logic_error) ∧
    mem_find_sig 5 tiny_proc tiny_handle "AA".toList mem_search_mode_t.Search_any (fun _ => 0)
      ≠ some (Except.error Error.logic_error) := by
  have hsize : (decoded_sig_t.ctor long_sig).size ≥ 4096 := Nat.le_of_eq long_sig_size.symm
  refine ⟨hsize, ?_, ?_⟩
  · exact (find_sig_logic_error_iff 0 tiny_proc tiny_handle long_sig
      mem_search_mode_t.Search_any (fun _ => 0)).2.1 hsize 0 tiny_proc tiny_handle
      mem_search_mode_t.Search_any (fun _ => 0)
  · exact (find_sig_logic_error_iff 5 tiny_proc tiny_handle "AA".toList
      mem_search_mode_t.Search_any (fun _ => 0)).2.2 (by decide) Error.logic_error

/-! ## Offset-chain resolution -/

/-- The address arithmetic of line 349 is addition modulo 2^64. -/
theorem add_offset_mod (base : Nat) (o : Int) :
    to_size_t (wrap_intmax (to_intmax base + o)) =
      (((base : Int) + o) % 18446744073709551616).toNat := by
  unfold to_size_t wrap_intmax to_intmax
  split <;> omega

/-- C11: `mem_resolve_offset` equals the reference for every base, chain and
memory, both in its result and in the reads it issues; in particular the
result does not depend on the entries after the first. -/
theorem resolve_offset_eq_reference (mh : MemHandle) (base : Nat) (offset : MemOffset) :
    mem_resolve_offset mh base offset = resolve_reference mh base offset.offsets ∧
    ∀ (o : Int) (rest1 rest2 : List Int), rest1 ≠ [] → rest2 ≠ [] →
      mem_resolve_offset mh base ⟨o :: rest1⟩ = mem_resolve_offset mh base ⟨o :: rest2⟩ := by
  have hmain : ∀ chain : List Int,
      mem_resolve_offset mh base ⟨chain⟩ = resolve_reference mh base chain := by
    intro chain
    cases chain with
    | nil => simp [mem_resolve_offset, resolve_reference]
    | cons o rest =>
      by_cases ho : o = -2147483648
      · simp [mem_resolve_offset, resolve_reference, MemOffset.invalid_offset, ho]
      · cases rest with
        | nil =>
          simp [mem_resolve_offset, resolve_reference, MemOffset.invalid_offset, ho,
            add_offset_mod]
        | cons o2 rest =>
          simp [mem_resolve_offset, resolve_reference, MemOffset.invalid_offset, ho,
            add_offset_mod]
  refine ⟨hmain offset.offsets, ?_⟩
  intro o rest1 rest2 h1 h2
  rw [hmain, hmain]
  cases rest1 with
  | nil => exact absurd rfl h1
  | cons a1 t1 =>
    cases rest2 with
    | nil => exact absurd rfl h2
    | cons a2 t2 => rfl

/-- C11 at the chain `[16, -4, 32]` with base 0x1000: one 8-byte read at
0x1010, whose value is the result; the chain `[16, 7]` gives the same. -/
theorem resolve_offset_eq_reference_witness :
    mem_resolve_offset pointer_handle 0x1000 ⟨[16, -4, 32]⟩ =
      (Except.ok 0x0000000140ABCDEF, [(0x1010, 8)]) ∧
    mem_resolve_offset pointer_handle 0x1000 ⟨[16, -4, 32]⟩ =
      mem_resolve_offset pointer_handle 0x1000 ⟨[16, 7]⟩ ∧
    mem_resolve_offset pointer_handle 0x1000 ⟨[-16]⟩ = (Except.ok 0xFF0, []) ∧
    mem_resolve_offset pointer_handle 0x1000 ⟨[-2147483648, 8]⟩ = (Except.ok 0x1000, []) := by
  have h := resolve_offset_eq_reference pointer_handle 0x1000 ⟨[16, -4, 32]⟩
  refine ⟨?_, h.2 16 [-4, 32] [7] (by simp) (by simp), by decide, by decide⟩
  rw [h.1]
  decide

/-! ## Process lookup -/

/-- The status line `Name:<TAB>name` of a plain name passes the guards of lines
46-57, and the comparisons of lines 59 and 64 are the prefix test and the
length test on the name. -/
theorem find_pid_loop_status_cons (name : List Char) (p : Int × List Char)
    (rest : List proc_entry) (result : Int) (hp : 0 < p.1) (hn : plain_name p.2) :
    find_pid_loop name (status_entry p :: rest) result =
      if name.isPrefixOf p.2 then
        (if name.length = p.2.length then p.1
         else find_pid_loop name rest (if result = 0 then p.1 else result))
      else find_pid_loop name rest result := by
  obtain ⟨c, tl, hc, hsp, htab⟩ : ∃ c tl, p.2 = c :: tl ∧ c ≠ ' ' ∧ c ≠ TAB := by
    cases hcase : p.2 with
    | nil => simp [plain_name, hcase] at hn
    | cons c tl =>
      simp only [plain_name, hcase] at hn
      exact ⟨c, tl, rfl, hn.1, hn.2⟩
  have hmem : ¬ c ∈ [' ', TAB] := by
    simp only [List.mem_cons, List.mem_singleton, List.not_mem_nil, or_false]
    rintro (h | h)
    · exact hsp h
    · exact htab h
  have htabmem : TAB ∈ [' ', TAB] := by simp
  have hline : (status_entry p).status_line = some ('N' :: 'a' :: 'm' :: 'e' :: ':' :: TAB :: c :: tl) := by
    simp [status_entry, hc]
  have hidx1 : find_first_of_set ('N' :: 'a' :: 'm' :: 'e' :: ':' :: TAB :: c :: tl) [' ', TAB] = 5 := by
    have h1 : ¬ 'N' ∈ [' ', TAB] := by decide
    have h2 : ¬ 'a' ∈ [' ', TAB] := by decide
    have h3 : ¬ 'm' ∈ [' ', TAB] := by decide
    have h4 : ¬ 'e' ∈ [' ', TAB] := by decide
    have h5 : ¬ ':' ∈ [' ', TAB] := by decide
    simp only [find_first_of_set, find_set_from, h1, h2, h3, h4, h5, htabmem, if_true, if_false]
  have hidx2 : find_first_not_of ('N' :: 'a' :: 'm' :: 'e' :: ':' :: TAB :: c :: tl) [' ', TAB] 5 = 6 := by
    simp only [find_first_not_of, List.drop_succ_cons, List.drop_zero, find_not_set_from, htabmem,
      hmem, if_true, if_false]
  have hpfx : (substr ('N' :: 'a' :: 'm' :: 'e' :: ':' :: TAB :: c :: tl) 6 name.length = name)
      ↔ name.isPrefixOf p.2 = true := by
    rw [List.isPrefixOf_iff_prefix, List.prefix_iff_eq_take, hc]
    simp only [substr, List.drop_succ_cons, List.drop_zero]
    exact eq_comm
  have hdir : (status_entry p).is_directory = true := rfl
  have hpid : (status_entry p).pid = p.1 := rfl
  have hlen : ('N' :: 'a' :: 'm' :: 'e' :: ':' :: TAB :: c :: tl).length - 6 = p.2.length := by
    rw [hc]; simp
  rw [find_pid_loop]
  simp only [hdir, hpid, hp, hline, not_true_eq_false, if_true, if_false]
  have hname : substr ('N' :: 'a' :: 'm' :: 'e' :: ':' :: TAB :: c :: tl) 0 5 = "Name:".toList := by
    have hlit : "Name:".toList = ['N', 'a', 'm', 'e', ':'] := by decide
    rw [hlit]
    simp [substr]
  have h5 : (5 : Nat) ≠ npos := by decide
  have h6 : (6 : Nat) ≠ npos := by decide
  simp only [hname, ne_eq, not_true_eq_false, if_false, hidx1, hidx2, h5, h6, hlen]
  by_cases hpre : name.isPrefixOf p.2 = true
  · rw [if_pos (hpfx.mpr hpre), if_pos hpre]
  · rw [if_neg (fun h => hpre (hpfx.mp h)), if_neg hpre]


/-- A prefix of equal length is the whole list. -/
theorem prefix_same_length_iff (name n : List Char) (hpre : name.isPrefixOf n = true) :
    name.length = n.length ↔ n = name := by
  rw [List.isPrefixOf_iff_prefix] at hpre
  constructor
  · intro hlen
    exact (List.IsPrefix.eq_of_length hpre hlen).symm
  · intro h
    rw [h]

/-- The loop of `find_pid_by_name` over well-formed status entries, for every
value of `result`. -/
theorem find_pid_loop_status (name : List Char) :
    ∀ (procs : List (Int × List Char)) (result : Int),
      (∀ p ∈ procs, 0 < p.1 ∧ plain_name p.2) →
      find_pid_loop name (procs.map status_entry) result =
        match procs.find? (fun p => p.2 = name) with
        | some p => p.1
        | none =>
          if result ≠ 0 then result
          else
            match procs.find? (fun p => name.isPrefixOf p.2) with
            | some p => p.1
            | none => 0 := by
  intro procs
  induction procs with
  | nil =>
    intro result _
    by_cases hr : result = 0 <;> simp [find_pid_loop, hr]
  | cons p rest ih =>
    intro result h
    obtain ⟨hp, hn⟩ := h p (List.mem_cons_self _ _)
    have hrest : ∀ q ∈ rest, 0 < q.1 ∧ plain_name q.2 :=
      fun q hq => h q (List.mem_cons_of_mem _ hq)
    rw [List.map_cons, find_pid_loop_status_cons name p _ result hp hn]
    by_cases hpre : name.isPrefixOf p.2 = true
    · rw [if_pos hpre]
      by_cases hlen : name.length = p.2.length
      · have heq : p.2 = name := (prefix_same_length_iff name p.2 hpre).mp hlen
        rw [if_pos hlen]
        simp [List.find?_cons, heq]
      · have hneq : ¬ p.2 = name := fun h => hlen ((prefix_same_length_iff name p.2 hpre).mpr h)
        rw [if_neg hlen, ih _ hrest]
        have hpne : p.1 ≠ 0 := by omega
        simp only [List.find?_cons, hneq, decide_False, hpre]
        cases rest.find? (fun q => q.2 = name) with
        | some q => rfl
        | none =>
          by_cases hr : result = 0
          · simp [hr, hpne]
          · simp [hr]
    · have hneq : ¬ p.2 = name := by
        intro h
        apply hpre
        rw [h, List.isPrefixOf_iff_prefix]
      rw [if_neg hpre, ih _ hrest]
      simp only [List.find?_cons, hneq, decide_False, hpre]

/-- C15, amended: over the ordered list of (pid, name) entries with pid > 0
whose names are not empty and do not begin with a space or a tab,
`find_pid_by_name` returns the pid of the first entry whose name equals the
requested name, also when entries whose names only begin with it come
earlier; otherwise the pid of the first entry whose name begins with it;
otherwise 0, and then the construction of `Process` fails with
`process_error`. -/
theorem find_pid_exact_then_prefix (procs : List (Int × List Char)) (name : List Char)
    (regs : List MemRegion) (h : ∀ p ∈ procs, 0 < p.1 ∧ plain_name p.2) :
    find_pid_by_name (procs.map status_entry) name = pid_reference procs name ∧
    (∀ pre p post, procs = pre ++ p :: post → p.2 = name → (∀ q ∈ pre, q.2 ≠ name) →
      find_pid_by_name (procs.map status_entry) name = p.1) ∧
    (pid_reference procs name = 0 →
      Process.ctor (procs.map status_entry) regs name = Except.error Error.process_error) := by
  have hmain : find_pid_by_name (procs.map status_entry) name = pid_reference procs name := by
    unfold find_pid_by_name pid_reference
    rw [find_pid_loop_status name procs 0 h]
    simp
  refine ⟨hmain, ?_, ?_⟩
  · intro pre p post hsplit hexact hpre
    rw [hmain, hsplit]
    unfold pid_reference
    have hnone : pre.find? (fun q => decide (q.2 = name)) = none := by
      rw [List.find?_eq_none]
      intro q hq
      simpa using hpre q hq
    rw [List.find?_append, hnone]
    simp [List.find?_cons, hexact]
  · intro hzero
    unfold Process.ctor
    simp [hmain, hzero]

/-- C15 amended, at three processes: the exact name wins over an earlier longer name,
and without an exact name the first longer name is taken. -/
theorem find_pid_exact_then_prefix_witness :
    (∀ p ∈ [((10 : Int), "ffxiv_dx11.exe.bak".toList), (20, "ffxiv_dx11.exe".toList),
        (30, "ffxiv_dx11.exe".toList)], 0 < p.1 ∧ plain_name p.2) ∧
    find_pid_by_name ([((10 : Int), "ffxiv_dx11.exe.bak".toList), (20, "ffxiv_dx11.exe".toList),
        (30, "ffxiv_dx11.exe".toList)].map status_entry) "ffxiv_dx11.exe".toList = 20 ∧
    find_pid_by_name ([((10 : Int), "ffxiv_dx11.exe.bak".toList), (20, "ffxiv_dx11.exe".toList),
        (30, "ffxiv_dx11.exe".toList)].map status_entry) "ffxiv".toList = 10 ∧
    find_pid_by_name ([((10 : Int), "ffxiv_dx11.exe.bak".toList), (20, "ffxiv_dx11.exe".toList),
        (30, "ffxiv_dx11.exe".toList)].map status_entry) "bash".toList = 0 ∧
    Process.ctor ([((10 : Int), "ffxiv_dx11.exe.bak".toList), (20, "ffxiv_dx11.exe".toList),
        (30, "ffxiv_dx11.exe".toList)].map status_entry) [] "bash".toList
      = Except.error Error.process_error := by
  have hplain : ∀ p ∈ [((10 : Int), "ffxiv_dx11.exe.bak".toList), (20, "ffxiv_dx11.exe".toList),
      (30, "ffxiv_dx11.exe".toList)], 0 < p.1 ∧ plain_name p.2 := by
    intro p hp
    simp only [List.mem_cons, List.mem_singleton, List.not_mem_nil, or_false] at hp
    rcases hp with rfl | rfl | rfl <;>
      exact ⟨by decide, by decide⟩
  have h1 := find_pid_exact_then_prefix _ "ffxiv_dx11.exe".toList [] hplain
  have h2 := find_pid_exact_then_prefix _ "ffxiv".toList [] hplain
  have h3 := find_pid_exact_then_prefix _ "bash".toList [] hplain
  have hz : pid_reference [((10 : Int), "ffxiv_dx11.exe.bak".toList),
      (20, "ffxiv_dx11.exe".toList), (30, "ffxiv_dx11.exe".toList)] "bash".toList = 0 := by
    decide
  refine ⟨hplain, ?_, ?_, ?_, h3.2.2 hz⟩
  · rw [h1.1]; decide
  · rw [h2.1]; decide
  · rw [h3.1]; exact hz

/-- C15, refuted as stated: lines 49-57 skip every space and tab after
`Name:`, so the process named " foo" (with a leading space) is compared as
`foo`.  With the entries (10, " foo") and (20, "foo") and the request `foo`
the function returns 10 at the first entry, while the first entry whose name
equals the request is the second one, with pid 20. -/
theorem find_pid_skips_leading_blank :
    find_pid_by_name ([((10 : Int), " foo".toList), (20, "foo".toList)].map status_entry)
        "foo".toList = 10 ∧
    pid_reference [((10 : Int), " foo".toList), (20, "foo".toList)] "foo".toList = 20 ∧
    " foo".toList ≠ "foo".toList ∧ ¬ "foo".toList.isPrefixOf " foo".toList = true := by
  decide

/-! ## The segment walk -/

/-- In state 0 the walk passes over regions that are not the module. -/
theorem segment_walk_skip (name : List Char) (rest : List MemRegion) (s : segments) :
    ∀ pre : List MemRegion, (∀ r ∈ pre, is_module name r = false) →
      segment_walk name (pre ++ rest) 0 s = segment_walk name rest 0 s := by
  intro pre
  induction pre with
  | nil => intro _; rfl
  | cons a pre ih =>
    intro h
    have ha : is_module name a = false := h a (List.mem_cons_self _ _)
    rw [List.cons_append, segment_walk]
    simp only [ha, if_true, Bool.false_eq_true, if_false]
    exact ih (fun r hr => h r (List.mem_cons_of_mem _ hr))

/-- A region list has no module region, or splits at its first module region. -/
theorem module_split (name : List Char) :
    ∀ regs : List MemRegion, (∀ r ∈ regs, is_module name r = false) ∨
      ∃ pre m tail, regs = pre ++ m :: tail ∧ (∀ r ∈ pre, is_module name r = false) ∧
        is_module name m = true := by
  intro regs
  induction regs with
  | nil => left; intro r hr; simp at hr
  | cons a regs ih =>
    by_cases ha : is_module name a = true
    · right
      exact ⟨[], a, regs, rfl, by intro r hr; simp at hr, ha⟩
    · have ha' : is_module name a = false := by simpa using ha
      rcases ih with hall | ⟨pre, m, tail, hsplit, hpre, hm⟩
      · left
        intro r hr
        rcases List.mem_cons.mp hr with rfl | hr
        · exact ha'
        · exact hall r hr
      · right
        refine ⟨a :: pre, m, tail, by rw [hsplit]; rfl, ?_, hm⟩
        intro r hr
        rcases List.mem_cons.mp hr with rfl | hr
        · exact ha'
        · exact hpre r hr

/-- The segments the walk leaves, by the number of regions after the first
module region. -/
theorem segment_walk_after_module (name : List Char) (pre : List MemRegion) (m : MemRegion)
    (tail : List MemRegion) (s : segments)
    (hpre : ∀ r ∈ pre, is_module name r = false) (hm : is_module name m = true) :
    segment_walk name (pre ++ m :: tail) 0 s =
      match tail with
      | [] => s
      | [t] => if t.readable ∧ t.executable then { s with text := t } else s
      | [t, x] =>
        { text := if t.readable ∧ t.executable then t else s.text,
          rdata := if x.readable then x else s.rdata,
          data := s.data }
      | t :: x :: d :: _ =>
        { text := if t.readable ∧ t.executable then t else s.text,
          rdata := if x.readable then x else s.rdata,
          data := if d.readable ∧ d.writeable then d else s.data } := by
  rw [segment_walk_skip name _ s pre hpre, segment_walk]
  simp only [hm, if_true]
  match tail with
  | [] => simp [segment_walk]
  | [t] => simp [segment_walk]
  | [t, x] =>
    simp only [segment_walk]
    by_cases h1 : t.readable = true ∧ t.executable = true <;> by_cases h2 : x.readable = true <;>
      simp [h1, h2]
  | t :: x :: d :: rest =>
    simp only [segment_walk]
    by_cases h1 : t.readable = true ∧ t.executable = true <;> by_cases h2 : x.readable = true <;>
      by_cases h3 : d.readable = true ∧ d.writeable = true <;> simp [h1, h2, h3]

/-- Without a module region the walk changes nothing. -/
theorem segment_walk_no_module (name : List Char) (regs : List MemRegion) (s : segments)
    (h : ∀ r ∈ regs, is_module name r = false) : segment_walk name regs 0 s = s := by
  have := segment_walk_skip name [] s regs h
  simpa [segment_walk] using this

/-- Construction either succeeds or fails with `process_error`. -/
theorem process_ctor_ok_or_process_error (entries : List proc_entry) (regs : List MemRegion)
    (name : List Char) :
    (∃ p, Process.ctor entries regs name = Except.ok p) ∨
      Process.ctor entries regs name = Except.error Error.process_error := by
  unfold Process.ctor
  simp only []
  split
  · right; rfl
  · split
    · right; rfl
    · split
      · right; rfl
      · left; exact ⟨_, rfl⟩

/-- The outcome of construction when the region list splits at its first
module region with at least three regions after it. -/
theorem process_ctor_of_split (entries : List proc_entry) (name : List Char)
    (hpid : find_pid_by_name entries name ≠ 0)
    (pre : List MemRegion) (m t x d : MemRegion) (rest : List MemRegion)
    (hpre : ∀ r ∈ pre, is_module name r = false) (hm : is_module name m = true) :
    Process.ctor entries (pre ++ m :: t :: x :: d :: rest) name =
      if (t.readable = true ∧ t.executable = true ∧ t.start ≠ 0) ∧
          (d.readable = true ∧ d.writeable = true ∧ d.start ≠ 0) then
        Except.ok ⟨pre ++ m :: t :: x :: d :: rest, t, d, if x.readable then x else no_region⟩
      else Except.error Error.process_error := by
  unfold Process.ctor
  simp only [hpid, if_false]
  rw [segment_walk_after_module name pre m _ _ hpre hm]
  simp only []
  by_cases h1 : t.readable = true ∧ t.executable = true
  · by_cases h2 : d.readable = true ∧ d.writeable = true
    · by_cases h3 : t.start = 0
      · simp [h1, h2, h3]
      · by_cases h4 : d.start = 0
        · simp [h1, h2, h3, h4]
        · simp [h1, h2, h3, h4]
    · by_cases h3 : t.start = 0
      · simp [h1, h2, h3]
      · have h5 : ¬ (d.readable = true ∧ d.writeable = true ∧ ¬ d.start = 0) :=
          fun h => h2 ⟨h.1, h.2.1⟩
        simp [h1, h2, h3, h5, no_region]
  · have h5 : ¬ (t.readable = true ∧ t.executable = true ∧ ¬ t.start = 0) :=
      fun h => h1 ⟨h.1, h.2.1⟩
    simp [h1, h5, no_region]

/-- C16: once the process is found, construction succeeds exactly when the
region list has a first module region (mapped, file name beginning with the
process name) followed by a region `t` that is readable and executable with
non-zero start, a region `x`, and a region `d` that is readable and writable
with non-zero start; then text is `t`, data is `d`, and rdata is `x` when `x`
is readable and the all-zero record otherwise.  In every other case
construction fails with `process_error`. -/
theorem process_ctor_segment_walk (entries : List proc_entry) (regs : List MemRegion)
    (name : List Char) (hpid : find_pid_by_name entries name ≠ 0) :
    ((∃ p, Process.ctor entries regs name = Except.ok p) ↔
      ∃ pre m t x d rest, regs = pre ++ m :: t :: x :: d :: rest ∧
        (∀ r ∈ pre, is_module name r = false) ∧ is_module name m = true ∧
        (t.readable = true ∧ t.executable = true ∧ t.start ≠ 0) ∧
        (d.readable = true ∧ d.writeable = true ∧ d.start ≠ 0)) ∧
    (∀ pre m t x d rest, regs = pre ++ m :: t :: x :: d :: rest →
      (∀ r ∈ pre, is_module name r = false) → is_module name m = true →
      (t.readable = true ∧ t.executable = true ∧ t.start ≠ 0) →
      (d.readable = true ∧ d.writeable = true ∧ d.start ≠ 0) →
      Process.ctor entries regs name =
        Except.ok ⟨regs, t, d, if x.readable then x else no_region⟩) ∧
    ((¬ ∃ p, Process.ctor entries regs name = Except.ok p) →
      Process.ctor entries regs name = Except.error Error.process_error) := by
  have hvalue : ∀ pre m t x d rest, regs = pre ++ m :: t :: x :: d :: rest →
      (∀ r ∈ pre, is_module name r = false) → is_module name m = true →
      (t.readable = true ∧ t.executable = true ∧ t.start ≠ 0) →
      (d.readable = true ∧ d.writeable = true ∧ d.start ≠ 0) →
      Process.ctor entries regs name =
        Except.ok ⟨regs, t, d, if x.readable then x else no_region⟩ := by
    intro pre m t x d rest hsplit hpre hm ht hd
    subst hsplit
    rw [process_ctor_of_split entries name hpid pre m t x d rest hpre hm, if_pos ⟨ht, hd⟩]
  refine ⟨⟨?_, ?_⟩, hvalue, ?_⟩
  · rintro ⟨p, hp⟩
    rcases module_split name regs with hnone | ⟨pre, m, tail, hsplit, hpre, hm⟩
    · exfalso
      unfold Process.ctor at hp
      simp only [hpid, if_false] at hp
      rw [segment_walk_no_module name regs _ hnone] at hp
      simp [no_region] at hp
    · subst hsplit
      match tail, hp with
      | [], hp =>
        exfalso
        unfold Process.ctor at hp
        simp only [hpid, if_false] at hp
        rw [segment_walk_after_module name pre m _ _ hpre hm] at hp
        simp [no_region] at hp
      | [t], hp =>
        exfalso
        unfold Process.ctor at hp
        simp only [hpid, if_false] at hp
        rw [segment_walk_after_module name pre m _ _ hpre hm] at hp
        by_cases h1 : t.readable = true ∧ t.executable = true <;> simp [h1, no_region] at hp
      | [t, x], hp =>
        exfalso
        unfold Process.ctor at hp
        simp only [hpid, if_false] at hp
        rw [segment_walk_after_module name pre m _ _ hpre hm] at hp
        simp [no_region] at hp
      | t :: x :: d :: rest, hp =>
        rw [process_ctor_of_split entries name hpid pre m t x d rest hpre hm] at hp
        by_cases hc : (t.readable = true ∧ t.executable = true ∧ t.start ≠ 0) ∧
            (d.readable = true ∧ d.writeable = true ∧ d.start ≠ 0)
        · exact ⟨pre, m, t, x, d, rest, rfl, hpre, hm, hc.1, hc.2⟩
        · rw [if_neg hc] at hp
          exact absurd hp (by simp)
  · rintro ⟨pre, m, t, x, d, rest, hsplit, hpre, hm, ht, hd⟩
    exact ⟨_, hvalue pre m t x d rest hsplit hpre hm ht hd⟩
  · intro hno
    rcases process_ctor_ok_or_process_error entries regs name with h | h
    · exact absurd h hno
    · exact h

/-- C16 at a region list with the layout header, code, read-only data,
read-write data after one anonymous mapping. -/
theorem process_ctor_segment_walk_witness :
    find_pid_by_name game_entries game_name ≠ 0 ∧
    game_rdata.readable = true ∧
    Process.ctor game_entries game_regions game_name =
      Except.ok ⟨game_regions, game_text, game_data,
        if game_rdata.readable then game_rdata else no_region⟩ ∧
    Process.ctor game_entries [game_anon, game_header, game_rdata, game_rdata, game_data]
      game_name = Except.error Error.process_error := by
  have hpid : find_pid_by_name game_entries game_name ≠ 0 := by decide
  have hmod : ∀ r ∈ [game_anon], is_module game_name r = false := by
    intro r hr
    simp only [List.mem_singleton] at hr
    subst hr
    decide
  have hok := (process_ctor_segment_walk game_entries game_regions game_name hpid).2.1
    [game_anon] game_header game_text game_rdata game_data [game_anon] rfl hmod (by decide)
    (by decide) (by decide)
  have hbad := (process_ctor_segment_walk game_entries
    [game_anon, game_header, game_rdata, game_rdata, game_data] game_name hpid).2.2
  refine ⟨hpid, by decide, hok, hbad ?_⟩
  rintro ⟨p, hp⟩
  have hval := process_ctor_of_split game_entries game_name hpid [game_anon] game_header
    game_rdata game_rdata game_data [] hmod (by decide)
  rw [if_neg (by decide)] at hval
  rw [show ([game_anon] ++ game_header :: game_rdata :: game_rdata :: game_data :: [] :
      List MemRegion) = [game_anon, game_header, game_rdata, game_rdata, game_data] from rfl]
    at hval
  rw [hval] at hp
  exact absurd hp (by simp)

/-! ## The shape of the loops -/

/-- One unfolding of the matching loop is one `scan_step`. -/
theorem scan_loop_succ (d : decoded_sig_t) (buf : Nat → Nat) (addr so bytes n i m : Nat)
    (out : List Nat) :
    scan_loop d buf addr so bytes (n + 1) i m out =
      if i < bytes then
        scan_loop d buf addr so bytes n (scan_step d buf addr so i m out).1
          (scan_step d buf addr so i m out).2.1 (scan_step d buf addr so i m out).2.2
      else some (m, out) := by
  rw [scan_loop]
  unfold scan_step
  by_cases hi : i < bytes
  · simp only [hi, if_true]
    split_ifs <;> rfl
  · simp only [hi, if_false]

/-- One unfolding of the chunk loop, with the chunk parameters named. -/
theorem chunk_loop_succ (mh : MemHandle) (d : decoded_sig_t) (r : MemRegion)
    (fuel n addr : Nat) (buf : Nat → Nat) (m : Nat) (out : List Nat) :
    chunk_loop mh d r fuel (n + 1) addr buf m out =
      if addr < r.end_ then
        if mh.fails addr (chunk_bytes d r addr) then
          chunk_loop mh d r fuel n (chunk_next d addr) buf m out
        else
          match scan_loop d (read_into mh buf addr (chunk_start_off d r addr) (chunk_bytes d r addr))
              addr (chunk_start_off d r addr) (chunk_bytes d r addr) fuel
              (chunk_start_off d r addr) m out with
          | none => none
          | some (m2, out2) =>
            chunk_loop mh d r fuel n (chunk_next d addr)
              (read_into mh buf addr (chunk_start_off d r addr) (chunk_bytes d r addr)) m2 out2
      else some out := by
  rw [chunk_loop]
  unfold chunk_start_off chunk_bytes chunk_next
  by_cases ha : addr < r.end_
  · simp only [ha, if_true]
    by_cases hs : addr = r.start
    · simp only [hs, if_true, decide_True]
    · simp only [hs, if_false, decide_False, Bool.false_eq_true]
  · simp only [ha, if_false]

/-- The matching loop only appends: a list put in front of `addresses` stays
in front of the result. -/
theorem scan_loop_acc (d : decoded_sig_t) (buf : Nat → Nat) (addr so bytes : Nat)
    (acc : List Nat) :
    ∀ (f i m : Nat) (out : List Nat),
      scan_loop d buf addr so bytes f i m (acc ++ out) =
        (scan_loop d buf addr so bytes f i m out).map (fun r => (r.1, acc ++ r.2)) := by
  intro f
  induction f with
  | zero =>
    intro i m out
    rw [scan_loop, scan_loop]
    split <;> rfl
  | succ f ih =>
    intro i m out
    rw [scan_loop_succ, scan_loop_succ]
    by_cases hi : i < bytes
    · simp only [hi, if_true]
      unfold scan_step
      split_ifs
      · simp only []
        rw [List.append_assoc, ih]
      · exact ih _ _ _
      · exact ih _ _ _
    · simp only [hi, if_false, Option.map_some']

/-- The chunk loop only appends. -/
theorem chunk_loop_acc (mh : MemHandle) (d : decoded_sig_t) (r : MemRegion) (fuel : Nat)
    (acc : List Nat) :
    ∀ (n addr : Nat) (buf : Nat → Nat) (m : Nat) (out : List Nat),
      chunk_loop mh d r fuel n addr buf m (acc ++ out) =
        (chunk_loop mh d r fuel n addr buf m out).map (fun l => acc ++ l) := by
  intro n
  induction n with
  | zero =>
    intro addr buf m out
    rw [chunk_loop, chunk_loop]
    split <;> rfl
  | succ n ih =>
    intro addr buf m out
    rw [chunk_loop_succ, chunk_loop_succ]
    by_cases ha : addr < r.end_
    · simp only [ha, if_true]
      by_cases hf : mh.fails addr (chunk_bytes d r addr) = true
      · simp only [hf, if_true]
        exact ih _ _ _ _
      · simp only [hf, if_false]
        rw [scan_loop_acc]
        cases scan_loop d (read_into mh buf addr (chunk_start_off d r addr) (chunk_bytes d r addr))
            addr (chunk_start_off d r addr) (chunk_bytes d r addr) fuel
            (chunk_start_off d r addr) m out with
        | none => rfl
        | some res =>
          obtain ⟨m2, out2⟩ := res
          simp only [Option.map_some']
          exact ih _ _ _ _
    · simp only [ha, if_false, Option.map_some']

/-- The scan of a selected region appends what `region_scan` gives. -/
theorem chunk_loop_eq_region_scan (mh : MemHandle) (d : decoded_sig_t) (r : MemRegion)
    (buf0 : Nat → Nat) (fuel : Nat) (acc : List Nat) :
    chunk_loop mh d r fuel fuel r.start buf0 0 acc =
      (region_scan mh d buf0 fuel r).map (fun l => acc ++ l) := by
  have h := chunk_loop_acc mh d r fuel acc fuel r.start buf0 0 []
  rw [List.append_nil] at h
  exact h

/-- What the chunk loop returns begins with the list it was started with. -/
theorem chunk_loop_extends (mh : MemHandle) (d : decoded_sig_t) (r : MemRegion)
    (fuel n addr : Nat) (buf : Nat → Nat) (m : Nat) (out res : List Nat)
    (h : chunk_loop mh d r fuel n addr buf m out = some res) : out <+: res := by
  have hacc := chunk_loop_acc mh d r fuel out n addr buf m []
  rw [List.append_nil, h] at hacc
  cases hrun : chunk_loop mh d r fuel n addr buf m [] with
  | none => rw [hrun] at hacc; simp at hacc
  | some l =>
    rw [hrun] at hacc
    simp only [Option.map_some', Option.some.injEq] at hacc
    exact ⟨l, hacc.symm⟩

/-- What the region loop returns begins with the list it was started with. -/
theorem region_loop_extends (proc : Process) (mh : MemHandle) (d : decoded_sig_t)
    (mode : mem_search_mode_t) (buf0 : Nat → Nat) (fuel : Nat) :
    ∀ (regions : List MemRegion) (acc res : List Nat),
      region_loop proc mh d mode buf0 fuel regions acc = some res → acc <+: res := by
  intro regions
  induction regions with
  | nil =>
    intro acc res h
    rw [region_loop] at h
    simp only [Option.some.injEq] at h
    rw [h]
  | cons r rest ih =>
    intro acc res h
    rw [region_loop] at h
    by_cases hsel : region_selected proc mode r = true
    · simp only [hsel, if_true] at h
      split at h
      · exact absurd h (by simp)
      · rename_i out hchunk
        exact List.IsPrefix.trans (chunk_loop_extends _ _ _ _ _ _ _ _ _ _ hchunk) (ih _ _ h)
    · simp only [hsel, if_false] at h
      exact ih _ _ h

/-! ## The matching loop on any chunk -/

/-- The matching loop on any chunk of a region in range: from a state with
`m ≤ i` and `m < d.size` it ends within the stated number of iterations with
`matched` below `d.size`; what it appends is strictly ascending, and every
appended address `a` lies between the start of the current attempt and the
start of the attempt that is pending at the end. -/
theorem scan_loop_general (d : decoded_sig_t) (buf : Nat → Nat) (addr so bytes : Nat)
    (hL1 : 1 ≤ d.size) (hL : d.size ≤ SIZE_MOD) (hbytes : bytes ≤ BUF_SIZE)
    (hwrap : addr + BUF_SIZE ≤ SIZE_MOD) (hso : so ≤ addr) :
    ∀ (fuel i m : Nat) (out : List Nat), m ≤ i → m < d.size →
      (bytes - (i - m)) * d.size + (d.size - m) ≤ fuel →
      ∃ m2 more, scan_loop d buf addr so bytes fuel i m out = some (m2, out ++ more) ∧
        m2 < d.size ∧ (i ≤ bytes → (i - m) + m2 ≤ bytes) ∧
        (bytes ≤ i → m2 = m ∧ more = []) ∧ more.Pairwise (· < ·) ∧
        ∀ a ∈ more, addr + (i - m) ≤ a + so ∧ a + so + d.size + m2 ≤ addr + bytes := by
  intro fuel
  induction fuel with
  | zero =>
    intro i m out _ hm hfuel
    omega
  | succ f ih =>
    intro i m out hmi hm hfuel
    rw [scan_loop]
    simp only [SIZE_MOD, BUF_SIZE] at hL hbytes hwrap ⊢
    by_cases hi : i < bytes
    · simp only [hi, if_true]
      have hnext : (i + 1) % 18446744073709551616 = i + 1 := Nat.mod_eq_of_lt (by omega)
      have hlastv : (d.size + 18446744073709551616 - 1) % 18446744073709551616 = d.size - 1 := by
        omega
      rw [hnext, hlastv]
      by_cases hacc : (buf i &&& d.mask.getD m 0) = d.bytes.getD m 0
      · simp only [hacc, if_true]
        by_cases hlast : m = d.size - 1
        · rw [if_pos hlast]
          have haddr : (addr + i + 2 * 18446744073709551616 - so - m) % 18446744073709551616
              = addr + (i - m) - so := by omega
          rw [haddr]
          have hsq : d.size ≤ d.size * d.size := Nat.le_mul_self _
          have hk : bytes - (i - m) = (bytes - (i + 1)) + d.size := by omega
          rw [hk, Nat.add_mul] at hfuel
          obtain ⟨m2, more, hrun, hm2, hE, hX, hpw, hbd⟩ := ih (i + 1) 0
            (out ++ [addr + (i - m) - so]) (Nat.zero_le _) (by omega)
            (by simp only [Nat.sub_zero]; omega)
          simp only [Nat.sub_zero] at hE hbd
          have hE2 := hE (by omega)
          refine ⟨m2, (addr + (i - m) - so) :: more, ?_, hm2, ?_, ?_, ?_, ?_⟩
          · rw [hrun]; simp
          · intro _; omega
          · intro h; omega
          · refine List.pairwise_cons.mpr ⟨?_, hpw⟩
            intro a ha
            have := (hbd a ha).1
            omega
          · intro a ha
            rcases List.mem_cons.mp ha with rfl | ha
            · constructor <;> omega
            · have := hbd a ha
              constructor <;> omega
        · rw [if_neg hlast]
          have hs : i + 1 - (m + 1) = i - m := by omega
          obtain ⟨m2, more, hrun, hm2, hE, hX, hpw, hbd⟩ := ih (i + 1) (m + 1) out
            (by omega) (by omega) (by rw [hs]; omega)
          rw [hs] at hE hbd
          refine ⟨m2, more, hrun, hm2, ?_, ?_, hpw, hbd⟩
          · intro _; exact hE (by omega)
          · intro h; omega
      · simp only [hacc, if_false]
        have hnext2 : (i + 18446744073709551616 - m + 1) % 18446744073709551616 = i - m + 1 := by
          omega
        rw [hnext2]
        have hk : bytes - (i - m) = (bytes - (i - m + 1)) + 1 := by omega
        rw [hk, Nat.add_mul, Nat.one_mul] at hfuel
        obtain ⟨m2, more, hrun, hm2, hE, hX, hpw, hbd⟩ := ih (i - m + 1) 0 out
          (Nat.zero_le _) (by omega) (by simp only [Nat.sub_zero]; omega)
        simp only [Nat.sub_zero] at hE hbd
        have hE2 := hE (by omega)
        refine ⟨m2, more, hrun, hm2, ?_, ?_, hpw, ?_⟩
        · intro _; omega
        · intro h; omega
        · intro a ha
          have := hbd a ha
          constructor <;> omega
    · simp only [hi, if_false]
      refine ⟨m, [], by simp, hm, ?_, ?_, List.Pairwise.nil, ?_⟩
      · intro h; omega
      · intro _; exact ⟨rfl, rfl⟩
      · intro a ha; simp at ha

/-! ## The chunk loop on a region in range -/

/-- The buffer range of a chunk: `start_off + bytes` never exceeds the buffer. -/
theorem chunk_fits_buffer (d : decoded_sig_t) (r : MemRegion) (addr : Nat)
    (hL : d.size < 4096) :
    chunk_start_off d r addr + chunk_bytes d r addr ≤ BUF_SIZE := by
  unfold chunk_start_off chunk_bytes
  simp only [BUF_SIZE]
  split_ifs <;> omega

/-- In a region in range the chunk address advances by `8192 - d.size`. -/
theorem chunk_next_eq (d : decoded_sig_t) (r : MemRegion) (addr : Nat)
    (hrange : region_in_range r) (ha : addr < r.end_) :
    chunk_next d addr = addr + (BUF_SIZE - d.size) := by
  unfold region_in_range at hrange
  unfold chunk_next
  simp only [BUF_SIZE, SIZE_MOD] at hrange ⊢
  omega

/-- The chunk loop on a region in range, from any chunk address the loop can
reach: it ends within `r.end_ - addr` chunk iterations, and what it appends is
ascending and not below `addr - m`. -/
theorem chunk_loop_general (mh : MemHandle) (d : decoded_sig_t) (r : MemRegion) (fuel : Nat)
    (hL1 : 1 ≤ d.size) (hL : d.size < 4096) (hrange : region_in_range r)
    (hfuel : 33554432 ≤ fuel) :
    ∀ (n addr : Nat) (buf : Nat → Nat) (m : Nat) (out : List Nat),
      (addr = r.start ∧ m = 0 ∨ r.start + (BUF_SIZE - d.size) ≤ addr) → m < d.size →
      r.end_ - addr ≤ n →
      ∃ more, chunk_loop mh d r fuel n addr buf m out = some (out ++ more) ∧
        more.Pairwise (· ≤ ·) ∧ ∀ a ∈ more, addr ≤ a + m := by
  intro n
  induction n with
  | zero =>
    intro addr buf m out _ _ hn
    refine ⟨[], ?_, List.Pairwise.nil, by intro a ha; simp at ha⟩
    rw [chunk_loop_done _ _ _ _ _ _ _ _ _ (by omega)]
    simp
  | succ n ih =>
    intro addr buf m out hinv hm hn
    by_cases hend : r.end_ ≤ addr
    · refine ⟨[], ?_, List.Pairwise.nil, by intro a ha; simp at ha⟩
      rw [chunk_loop_done _ _ _ _ _ _ _ _ _ hend]
      simp
    · have ha : addr < r.end_ := by omega
      have hnext := chunk_next_eq d r addr hrange ha
      have hfit := chunk_fits_buffer d r addr hL
      have hrange2 := hrange
      unfold region_in_range at hrange2
      simp only [BUF_SIZE, SIZE_MOD] at hrange2 hfit hnext
      have hinv2 : chunk_next d addr = r.start ∧ (0 : Nat) = 0 ∨
          r.start + (BUF_SIZE - d.size) ≤ chunk_next d addr := by
        right
        simp only [BUF_SIZE]
        rcases hinv with ⟨h, _⟩ | h
        · omega
        · simp only [BUF_SIZE] at h; omega
      have hinv3 : ∀ m2 : Nat, chunk_next d addr = r.start ∧ m2 = 0 ∨
          r.start + (BUF_SIZE - d.size) ≤ chunk_next d addr := by
        intro m2
        rcases hinv2 with ⟨h, _⟩ | h
        · simp only [BUF_SIZE] at hinv
          rcases hinv with ⟨h2, _⟩ | h2 <;> omega
        · exact Or.inr h
      rw [chunk_loop_succ]
      simp only [ha, if_true]
      by_cases hf : mh.fails addr (chunk_bytes d r addr) = true
      · simp only [hf, if_true]
        obtain ⟨more, hrun, hpw, hbd⟩ := ih (chunk_next d addr) buf m out (hinv3 m) hm
          (by omega)
        refine ⟨more, hrun, hpw, ?_⟩
        intro a ha2
        have := hbd a ha2
        omega
      · simp only [hf, Bool.false_eq_true, if_false]
        have hso_m : m ≤ chunk_start_off d r addr := by
          unfold chunk_start_off
          rcases hinv with ⟨h, h0⟩ | h
          · omega
          · simp only [BUF_SIZE] at h
            split <;> omega
        have hso_addr : chunk_start_off d r addr ≤ addr := by
          unfold chunk_start_off
          rcases hinv with ⟨h, h0⟩ | h
          · simp [h]
          · simp only [BUF_SIZE] at h
            split <;> omega
        have hbytes : chunk_bytes d r addr ≤ BUF_SIZE := by
          simp only [BUF_SIZE]; omega
        have hmul : (chunk_bytes d r addr - (chunk_start_off d r addr - m)) * d.size
            ≤ 8192 * 4095 :=
          Nat.mul_le_mul (by omega) (Nat.le_of_lt_succ hL)
        obtain ⟨m2, more1, hscan, hm2, hE, hX, hpw1, hbd1⟩ :=
          scan_loop_general d
            (read_into mh buf addr (chunk_start_off d r addr) (chunk_bytes d r addr)) addr
            (chunk_start_off d r addr) (chunk_bytes d r addr) hL1
            (by simp only [SIZE_MOD]; omega) hbytes
            (by simp only [BUF_SIZE, SIZE_MOD]; omega) hso_addr fuel
            (chunk_start_off d r addr) m out hso_m hm (by omega)
        rw [hscan]
        simp only []
        obtain ⟨more2, hrun, hpw2, hbd2⟩ := ih (chunk_next d addr)
          (read_into mh buf addr (chunk_start_off d r addr) (chunk_bytes d r addr)) m2
          (out ++ more1) (hinv3 m2) hm2 (by omega)
        refine ⟨more1 ++ more2, ?_, ?_, ?_⟩
        · rw [hrun, List.append_assoc]
        · refine List.pairwise_append.mpr ⟨hpw1.imp (fun h => Nat.le_of_lt h), hpw2, ?_⟩
          intro a1 ha1 a2 ha2
          have h1 := hbd1 a1 ha1
          have h2 := hbd2 a2 ha2
          omega
        · intro a ha2
          rcases List.mem_append.mp ha2 with h | h
          · have := hbd1 a h
            omega
          · have := hbd2 a h
            omega

/-- The size of a region of `proc` is below the allowance. -/
theorem region_size_le_allowance (proc : Process) (r : MemRegion) (hr : r ∈ proc.regions) :
    r.end_ - r.start ≤ scan_allowance proc := by
  unfold scan_allowance
  have hle : ∀ l : List MemRegion, r ∈ l →
      r.end_ - r.start ≤ (l.map (fun x => x.end_ - x.start)).sum := by
    intro l
    induction l with
    | nil => intro h; simp at h
    | cons a l ih =>
      intro h
      rcases List.mem_cons.mp h with rfl | h
      · simp
      · have := ih h
        simp only [List.map_cons, List.sum_cons]
        omega
  have := hle proc.regions hr
  omega

/-- The scan of one region in range returns an ascending list. -/
theorem region_scan_general (mh : MemHandle) (d : decoded_sig_t) (buf0 : Nat → Nat)
    (r : MemRegion) (fuel : Nat) (hL1 : 1 ≤ d.size) (hL : d.size < 4096)
    (hrange : region_in_range r) (hfuel : 33554432 ≤ fuel) (hsize : r.end_ - r.start ≤ fuel) :
    ∃ new, region_scan mh d buf0 fuel r = some new ∧ new.Pairwise (· ≤ ·) := by
  obtain ⟨more, hrun, hpw, _⟩ := chunk_loop_general mh d r fuel hL1 hL hrange hfuel fuel
    r.start buf0 0 [] (Or.inl ⟨rfl, rfl⟩) (by omega) hsize
  refine ⟨more, ?_, hpw⟩
  unfold region_scan
  rw [hrun]
  simp

/-- The region loop when every selected region is in range: it returns, and
its result is the concatenation of the `region_scan` lists of the selected
regions, each of them ascending. -/
theorem region_loop_general (proc : Process) (mh : MemHandle) (d : decoded_sig_t)
    (mode : mem_search_mode_t) (buf0 : Nat → Nat) (fuel : Nat)
    (hL1 : 1 ≤ d.size) (hL : d.size < 4096) (hfuel : 33554432 ≤ fuel) :
    ∀ (regions : List MemRegion) (acc : List Nat),
      (∀ r ∈ regions, region_selected proc mode r = true →
        region_in_range r ∧ r.end_ - r.start ≤ fuel) →
      ∃ news : List (List Nat),
        region_loop proc mh d mode buf0 fuel regions acc = some (acc ++ news.flatten) ∧
        List.Forall₂ (fun r new => region_scan mh d buf0 fuel r = some new ∧
            new.Pairwise (· ≤ ·))
          (regions.filter (region_selected proc mode)) news := by
  intro regions
  induction regions with
  | nil =>
    intro acc _
    exact ⟨[], by simp [region_loop], by simp⟩
  | cons r rest ih =>
    intro acc hgood
    have hrest : ∀ x ∈ rest, region_selected proc mode x = true →
        region_in_range x ∧ x.end_ - x.start ≤ fuel :=
      fun x hx => hgood x (List.mem_cons_of_mem _ hx)
    by_cases hsel : region_selected proc mode r = true
    · obtain ⟨hrange, hsize⟩ := hgood r (List.mem_cons_self _ _) hsel
      obtain ⟨new, hscan, hpw⟩ := region_scan_general mh d buf0 r fuel hL1 hL hrange hfuel hsize
      obtain ⟨news, hloop, hall⟩ := ih (acc ++ new) hrest
      refine ⟨new :: news, ?_, ?_⟩
      · rw [region_loop]
        simp only [hsel, if_true]
        rw [chunk_loop_eq_region_scan, hscan]
        simp only [Option.map_some', hloop]
        simp
      · rw [List.filter_cons_of_pos hsel]
        exact List.Forall₂.cons ⟨hscan, hpw⟩ hall
    · obtain ⟨news, hloop, hall⟩ := ih acc hrest
      refine ⟨news, ?_, ?_⟩
      · rw [region_loop]
        simp only [hsel, if_false, hloop]
        simp
      · rw [List.filter_cons_of_neg hsel]
        exact hall

/-! ## Termination, read failures and order -/

/-- With a signature of two entries the chunk address of `wrap_region` stays
even, so it never reaches the odd end address: the chunk loop returns for no
allowance. -/
theorem chunk_loop_wrap_region (mh : MemHandle) (d : decoded_sig_t) (hsize : d.size = 2)
    (fuel : Nat) :
    ∀ (n addr : Nat) (buf : Nat → Nat) (m : Nat) (out : List Nat),
      addr % 2 = 0 → addr < SIZE_MOD →
      chunk_loop mh d wrap_region fuel n addr buf m out = none := by
  intro n
  induction n with
  | zero =>
    intro addr buf m out heven hlt
    simp only [SIZE_MOD] at hlt
    have ha : addr < wrap_region.end_ := by
      show addr < 18446744073709551615
      omega
    rw [chunk_loop]
    simp [ha]
  | succ n ih =>
    intro addr buf m out heven hlt
    simp only [SIZE_MOD] at hlt
    have ha : addr < wrap_region.end_ := by
      show addr < 18446744073709551615
      omega
    have hnext_even : chunk_next d addr % 2 = 0 := by
      unfold chunk_next
      simp only [BUF_SIZE, SIZE_MOD, hsize]
      omega
    have hnext_lt : chunk_next d addr < SIZE_MOD := by
      unfold chunk_next
      exact Nat.mod_lt _ (by decide)
    rw [chunk_loop_succ]
    simp only [ha, if_true]
    split
    · exact ih _ _ _ _ hnext_even hnext_lt
    · split
      · rfl
      · exact ih _ _ _ _ hnext_even hnext_lt

/-- The search for `AA BB` in `wrap_proc` returns for no allowance, whatever
the handle. -/
theorem find_sig_wrap_proc (mh : MemHandle) (fuel : Nat) :
    mem_find_sig fuel wrap_proc mh "AA BB".toList mem_search_mode_t.Search_any (fun _ => 0)
      = none := by
  have hsize : (decoded_sig_t.ctor "AA BB".toList).size = 2 := by decide
  have hnot : ¬ (decoded_sig_t.ctor "AA BB".toList).size ≥ 4096 := by omega
  have hsel : region_selected wrap_proc mem_search_mode_t.Search_any wrap_region = true := by
    decide
  have hchunk := chunk_loop_wrap_region mh (decoded_sig_t.ctor "AA BB".toList) hsize fuel fuel
    wrap_region.start (fun _ => 0) 0 [] (by decide) (by decide)
  simp only [mem_find_sig, hnot, if_false]
  have hregs : wrap_proc.regions = [wrap_region] := rfl
  rw [hregs, region_loop]
  simp only [hsel, if_true, hchunk]

/-- Why the statements below ask for regions in range: for the region from
0x10000 to 2^64 - 1, which no line of `/proc/<pid>/maps` describes, and the
signature `AA BB` no iteration allowance makes `mem_find_sig` return; the
chunk address wraps modulo 2^64 and never reaches the region end. -/
theorem find_sig_wrap_region_never_returns :
    ¬ ∃ fuel r, mem_find_sig fuel wrap_proc tiny_handle "AA BB".toList
        mem_search_mode_t.Search_any (fun _ => 0) = some r := by
  rintro ⟨fuel, r, h⟩
  rw [find_sig_wrap_proc] at h
  exact absurd h (by simp)

/-- The search returns a list when every selected region is in range. -/
theorem find_sig_returns_in_range (fuel : Nat) (proc : Process) (mh : MemHandle)
    (sig : List Char) (mode : mem_search_mode_t) (buf0 : Nat → Nat)
    (hL1 : 1 ≤ (decoded_sig_t.ctor sig).size) (hL : (decoded_sig_t.ctor sig).size < 4096)
    (hrange : ∀ r ∈ proc.regions, region_selected proc mode r = true → region_in_range r)
    (hfuel : scan_allowance proc ≤ fuel) :
    ∃ news : List (List Nat),
      mem_find_sig fuel proc mh sig mode buf0 = some (Except.ok news.flatten) ∧
      List.Forall₂ (fun r new => region_scan mh (decoded_sig_t.ctor sig) buf0 fuel r = some new ∧
          new.Pairwise (· ≤ ·))
        (proc.regions.filter (region_selected proc mode)) news := by
  have h25 : 33554432 ≤ fuel := by
    unfold scan_allowance at hfuel
    omega
  obtain ⟨news, hloop, hall⟩ := region_loop_general proc mh (decoded_sig_t.ctor sig) mode buf0
    fuel hL1 hL h25 proc.regions []
    (fun r hr hsel => ⟨hrange r hr hsel,
      Nat.le_trans (region_size_le_allowance proc r hr) hfuel⟩)
  have hnot : ¬ (decoded_sig_t.ctor sig).size ≥ 4096 := by omega
  refine ⟨news, ?_, hall⟩
  simp only [mem_find_sig, hnot, if_false, hloop]
  simp

/-- C12: when every selected region ends at or below 2^64 - 8192,
`mem_find_sig` returns an address list whatever reads fail; a chunk whose read
fails is passed over with buffer, `matched` and `addresses` unchanged; and the
list held at any chunk or region is a prefix of what the loops return. -/
theorem find_sig_survives_read_failures (fuel : Nat) (proc : Process) (mh : MemHandle)
    (sig : List Char) (mode : mem_search_mode_t) (buf0 : Nat → Nat)
    (hL1 : 1 ≤ (decoded_sig_t.ctor sig).size) (hL : (decoded_sig_t.ctor sig).size < 4096)
    (hrange : ∀ r ∈ proc.regions, region_selected proc mode r = true → region_in_range r)
    (hfuel : scan_allowance proc ≤ fuel) :
    (∃ l, mem_find_sig fuel proc mh sig mode buf0 = some (Except.ok l)) ∧
    (∀ (r : MemRegion) (n addr : Nat) (buf : Nat → Nat) (m : Nat) (out : List Nat),
      addr < r.end_ → mh.fails addr (chunk_bytes (decoded_sig_t.ctor sig) r addr) = true →
      chunk_loop mh (decoded_sig_t.ctor sig) r fuel (n + 1) addr buf m out =
        chunk_loop mh (decoded_sig_t.ctor sig) r fuel n
          (chunk_next (decoded_sig_t.ctor sig) addr) buf m out) ∧
    (∀ (r : MemRegion) (n addr : Nat) (buf : Nat → Nat) (m : Nat) (out res : List Nat),
      chunk_loop mh (decoded_sig_t.ctor sig) r fuel n addr buf m out = some res →
      out <+: res) ∧
    (∀ (regions : List MemRegion) (acc res : List Nat),
      region_loop proc mh (decoded_sig_t.ctor sig) mode buf0 fuel regions acc = some res →
      acc <+: res) := by
  obtain ⟨news, hres, _⟩ := find_sig_returns_in_range fuel proc mh sig mode buf0 hL1 hL hrange
    hfuel
  refine ⟨⟨_, hres⟩, ?_, ?_, ?_⟩
  · intro r n addr buf m out ha hf
    rw [chunk_loop_succ]
    simp only [ha, if_true, hf]
  · intro r n addr buf m out res h
    exact chunk_loop_extends _ _ _ _ _ _ _ _ _ _ h
  · intro regions acc res h
    exact region_loop_extends _ _ _ _ _ _ _ _ _ h

/-- C18: when every selected region ends at or below 2^64 - 8192, the result of
`mem_find_sig` is the concatenation, in region order, of the lists the
selected regions contribute, and each of these lists is in ascending order. -/
theorem find_sig_region_ascending (fuel : Nat) (proc : Process) (mh : MemHandle)
    (sig : List Char) (mode : mem_search_mode_t) (buf0 : Nat → Nat)
    (hL1 : 1 ≤ (decoded_sig_t.ctor sig).size) (hL : (decoded_sig_t.ctor sig).size < 4096)
    (hrange : ∀ r ∈ proc.regions, region_selected proc mode r = true → region_in_range r)
    (hfuel : scan_allowance proc ≤ fuel) :
    ∃ news : List (List Nat),
      mem_find_sig fuel proc mh sig mode buf0 = some (Except.ok news.flatten) ∧
      List.Forall₂ (fun r new => region_scan mh (decoded_sig_t.ctor sig) buf0 fuel r = some new ∧
          new.Pairwise (· ≤ ·))
        (proc.regions.filter (region_selected proc mode)) news :=
  find_sig_returns_in_range fuel proc mh sig mode buf0 hL1 hL hrange hfuel

/-- C20: when every selected region ends at or below 2^64 - 8192,
`mem_find_sig` returns for every allowance from `scan_allowance proc` on; the
chunk address of such a region grows by `8192 - L > 0` per chunk; and in the
matching loop the start `i - matched` of the current attempt stays put while
`matched` grows on a partial match, grows by `L` on a completed match and by 1
on a mismatch. -/
theorem find_sig_terminates_in_range (proc : Process) (mh : MemHandle)
    (sig : List Char) (mode : mem_search_mode_t) (buf0 : Nat → Nat)
    (hL1 : 1 ≤ (decoded_sig_t.ctor sig).size) (hL : (decoded_sig_t.ctor sig).size < 4096)
    (hrange : ∀ r ∈ proc.regions, region_selected proc mode r = true → region_in_range r) :
    (∀ fuel, scan_allowance proc ≤ fuel →
      ∃ l, mem_find_sig fuel proc mh sig mode buf0 = some (Except.ok l)) ∧
    (∀ (r : MemRegion) (addr : Nat), region_in_range r → addr < r.end_ →
      chunk_next (decoded_sig_t.ctor sig) addr = addr + (8192 - (decoded_sig_t.ctor sig).size) ∧
      addr < chunk_next (decoded_sig_t.ctor sig) addr) ∧
    (∀ (buf : Nat → Nat) (addr so i m : Nat) (out : List Nat),
      m ≤ i → m < (decoded_sig_t.ctor sig).size → i + 1 < SIZE_MOD →
      (sig_accepts (decoded_sig_t.ctor sig) m (buf i) → m + 1 < (decoded_sig_t.ctor sig).size →
        (scan_step (decoded_sig_t.ctor sig) buf addr so i m out).1 -
            (scan_step (decoded_sig_t.ctor sig) buf addr so i m out).2.1 = i - m ∧
          (scan_step (decoded_sig_t.ctor sig) buf addr so i m out).2.1 = m + 1) ∧
      (sig_accepts (decoded_sig_t.ctor sig) m (buf i) → m + 1 = (decoded_sig_t.ctor sig).size →
        (scan_step (decoded_sig_t.ctor sig) buf addr so i m out).1 -
            (scan_step (decoded_sig_t.ctor sig) buf addr so i m out).2.1 =
          i - m + (decoded_sig_t.ctor sig).size ∧
          (scan_step (decoded_sig_t.ctor sig) buf addr so i m out).2.1 = 0) ∧
      (¬ sig_accepts (decoded_sig_t.ctor sig) m (buf i) →
        (scan_step (decoded_sig_t.ctor sig) buf addr so i m out).1 -
            (scan_step (decoded_sig_t.ctor sig) buf addr so i m out).2.1 = i - m + 1 ∧
          (scan_step (decoded_sig_t.ctor sig) buf addr so i m out).2.1 = 0)) := by
  refine ⟨?_, ?_, ?_⟩
  · intro fuel hfuel
    obtain ⟨news, hres, _⟩ := find_sig_returns_in_range fuel proc mh sig mode buf0 hL1 hL hrange
      hfuel
    exact ⟨_, hres⟩
  · intro r addr hr ha
    have h := chunk_next_eq (decoded_sig_t.ctor sig) r addr hr ha
    simp only [BUF_SIZE] at h
    exact ⟨h, by omega⟩
  · intro buf addr so i m out hmi hm hi
    simp only [SIZE_MOD] at hi
    have hnext : (i + 1) % 18446744073709551616 = i + 1 := Nat.mod_eq_of_lt hi
    have hlastv : ((decoded_sig_t.ctor sig).size + 18446744073709551616 - 1)
        % 18446744073709551616 = (decoded_sig_t.ctor sig).size - 1 := by omega
    have hrew : (i + 18446744073709551616 - m + 1) % 18446744073709551616 = i - m + 1 := by
      omega
    refine ⟨?_, ?_, ?_⟩
    · intro hacc hlt
      unfold sig_accepts at hacc
      have hne : ¬ m = (decoded_sig_t.ctor sig).size - 1 := by omega
      simp only [scan_step, SIZE_MOD, hacc, if_true, hlastv, hne, if_false, hnext]
      exact ⟨by omega, trivial⟩
    · intro hacc hlt
      unfold sig_accepts at hacc
      have heq : m = (decoded_sig_t.ctor sig).size - 1 := by omega
      simp only [scan_step, SIZE_MOD, hacc, if_true, hlastv, hnext]
      rw [if_pos heq]
      dsimp only
      constructor
      · omega
      · rfl
    · intro hacc
      unfold sig_accepts at hacc
      simp only [scan_step, SIZE_MOD, hacc, if_false, hrew]
      constructor
      · omega
      · trivial

/-! ## Index bounds -/

/-- From a state with `m ≤ i` and `m < d.size` on a chunk of at most 8192
bytes, the checked matching loop breaks no bound and computes what
`scan_loop` computes, and `matched` stays below `d.size`. -/
theorem scan_loop_checked_ok (d : decoded_sig_t) (buf : Nat → Nat) (addr so bytes : Nat)
    (hL : d.size ≤ SIZE_MOD) (hbytes : bytes ≤ BUF_SIZE) :
    ∀ (fuel i m : Nat) (out : List Nat), m ≤ i → m < d.size →
      scan_loop_checked d buf addr so bytes fuel i m out =
        Except.ok (scan_loop d buf addr so bytes fuel i m out) ∧
      ∀ m2 out2, scan_loop d buf addr so bytes fuel i m out = some (m2, out2) →
        m2 < d.size := by
  intro fuel
  induction fuel with
  | zero =>
    intro i m out _ hm
    rw [scan_loop_checked, scan_loop]
    refine ⟨rfl, ?_⟩
    intro m2 out2 h
    split at h
    · exact absurd h (by simp)
    · simp only [Option.some.injEq, Prod.mk.injEq] at h
      omega
  | succ f ih =>
    intro i m out hmi hm
    rw [scan_loop_checked, scan_loop]
    simp only [SIZE_MOD, BUF_SIZE] at hL hbytes ⊢
    by_cases hi : i < bytes
    · have hib : i < 8192 := by omega
      have hnext : (i + 1) % 18446744073709551616 = i + 1 := Nat.mod_eq_of_lt (by omega)
      have hlastv : (d.size + 18446744073709551616 - 1) % 18446744073709551616 = d.size - 1 := by
        omega
      have hrew : (i + 18446744073709551616 - m + 1) % 18446744073709551616 = i - m + 1 := by
        omega
      simp only [hi, if_true, hib, not_true_eq_false, if_false, hm, hmi, hnext, hlastv, hrew]
      by_cases hacc : (buf i &&& d.mask.getD m 0) = d.bytes.getD m 0
      · simp only [hacc, if_true]
        by_cases hlast : m = d.size - 1
        · rw [if_pos hlast, if_pos hlast]
          exact ih (i + 1) 0 _ (Nat.zero_le _) (by omega)
        · rw [if_neg hlast, if_neg hlast]
          exact ih (i + 1) (m + 1) _ (by omega) (by omega)
      · simp only [hacc, if_false]
        exact ih (i - m + 1) 0 _ (Nat.zero_le _) (by omega)
    · simp only [hi, if_false]
      refine ⟨trivial, ?_⟩
      intro m2 out2 h
      simp only [Option.some.injEq, Prod.mk.injEq] at h
      omega

/-- On a region in range the checked chunk loop breaks no bound from any
chunk address the loop can reach. -/
theorem chunk_loop_checked_ok (mh : MemHandle) (d : decoded_sig_t) (r : MemRegion) (fuel : Nat)
    (hL : d.size < 4096) (hrange : region_in_range r) :
    ∀ (n addr : Nat) (buf : Nat → Nat) (m : Nat) (out : List Nat),
      (addr = r.start ∧ m = 0 ∨ r.start + (BUF_SIZE - d.size) ≤ addr) → m < d.size →
      chunk_loop_checked mh d r fuel n addr buf m out =
        Except.ok (chunk_loop mh d r fuel n addr buf m out) := by
  intro n
  induction n with
  | zero =>
    intro addr buf m out _ _
    rw [chunk_loop_checked, chunk_loop]
  | succ n ih =>
    intro addr buf m out hinv hm
    rw [chunk_loop_checked, chunk_loop_succ]
    by_cases ha : addr < r.end_
    · have hfit := chunk_fits_buffer d r addr hL
      have hnext := chunk_next_eq d r addr hrange ha
      have hinv3 : ∀ m2 : Nat, chunk_next d addr = r.start ∧ m2 = 0 ∨
          r.start + (BUF_SIZE - d.size) ≤ chunk_next d addr := by
        intro m2
        right
        simp only [BUF_SIZE] at hinv hnext ⊢
        rcases hinv with ⟨h, _⟩ | h <;> omega
      simp only [ha, if_true, hfit, not_true_eq_false, if_false]
      by_cases hf : mh.fails addr (chunk_bytes d r addr) = true
      · simp only [hf, if_true]
        exact ih _ _ _ _ (hinv3 m) hm
      · simp only [hf, Bool.false_eq_true, if_false]
        have hso_m : m ≤ chunk_start_off d r addr := by
          unfold chunk_start_off
          rcases hinv with ⟨h, h0⟩ | h
          · omega
          · simp only [BUF_SIZE] at h
            split <;> omega
        have hbytes : chunk_bytes d r addr ≤ BUF_SIZE := by omega
        obtain ⟨hscan, hlt⟩ := scan_loop_checked_ok d
          (read_into mh buf addr (chunk_start_off d r addr) (chunk_bytes d r addr)) addr
          (chunk_start_off d r addr) (chunk_bytes d r addr)
          (by simp only [SIZE_MOD]; omega) hbytes fuel (chunk_start_off d r addr) m out hso_m hm
        rw [hscan]
        cases hres : scan_loop d
            (read_into mh buf addr (chunk_start_off d r addr) (chunk_bytes d r addr)) addr
            (chunk_start_off d r addr) (chunk_bytes d r addr) fuel (chunk_start_off d r addr)
            m out with
        | none => rfl
        | some res =>
          obtain ⟨m2, out2⟩ := res
          simp only []
          exact ih _ _ _ _ (hinv3 m2) (hlt m2 out2 hres)
    · simp only [ha, if_false]

/-- C19: for a signature of length L with 1 ≤ L < 4096 and a region that ends at
or below 2^64 - 8192, the scan of the region with every index checked
breaks no bound, for every iteration allowance: `matched < L` at each use as
an index, `matched ≤ i` at each rewind, `i < 8192` at each buffer access, and
`start_off + bytes ≤ 8192` at each chunk read; it computes what the unchecked
scan computes. -/
theorem scan_indices_in_bounds (mh : MemHandle) (sig : List Char) (r : MemRegion)
    (buf0 : Nat → Nat) (fuel n : Nat) (acc : List Nat)
    (_hL1 : 1 ≤ (decoded_sig_t.ctor sig).size) (hL : (decoded_sig_t.ctor sig).size < 4096)
    (hrange : region_in_range r) :
    chunk_loop_checked mh (decoded_sig_t.ctor sig) r fuel n r.start buf0 0 acc =
      Except.ok (chunk_loop mh (decoded_sig_t.ctor sig) r fuel n r.start buf0 0 acc) ∧
    ∀ addr, chunk_start_off (decoded_sig_t.ctor sig) r addr +
      chunk_bytes (decoded_sig_t.ctor sig) r addr ≤ 8192 :=
  ⟨chunk_loop_checked_ok mh (decoded_sig_t.ctor sig) r fuel hL hrange n r.start buf0 0 acc
    (Or.inl ⟨rfl, rfl⟩) (by omega),
   fun addr => chunk_fits_buffer (decoded_sig_t.ctor sig) r addr hL⟩


/-! ## The general scanner statements on concrete inputs -/

/-- The regions of `wide_proc` are in range. -/
theorem wide_proc_in_range (mode : mem_search_mode_t) :
    ∀ r ∈ wide_proc.regions, region_selected wide_proc mode r = true → region_in_range r := by
  intro r hr _
  simp only [wide_proc, List.mem_singleton] at hr
  subst hr
  decide

/-- The regions of `tiny_proc` are in range. -/
theorem tiny_proc_in_range (mode : mem_search_mode_t) :
    ∀ r ∈ tiny_proc.regions, region_selected tiny_proc mode r = true → region_in_range r := by
  intro r hr _
  simp only [tiny_proc, List.mem_singleton] at hr
  subst hr
  decide

/-- The search in the 8200-byte region when the read of its second chunk
throws: the match of the first chunk is returned. -/
theorem half_dead_scan_value :
    mem_find_sig 20000 wide_proc half_dead_handle "AA BB".toList mem_search_mode_t.Search_any
      (fun _ => 0) = some (Except.ok [0x10000 + 100]) := by
  decide!

/-- C12 at the 8200-byte region whose second chunk cannot be read:
the search returns, and it returns the match found in the first chunk. -/
theorem find_sig_survives_read_failures_witness :
    (∀ r ∈ wide_proc.regions,
      region_selected wide_proc mem_search_mode_t.Search_any r = true → region_in_range r) ∧
    scan_allowance wide_proc ≤ 33562632 ∧
    half_dead_handle.fails (0x10000 + 8190) 10 = true ∧
    (∃ l, mem_find_sig 33562632 wide_proc half_dead_handle "AA BB".toList
      mem_search_mode_t.Search_any (fun _ => 0) = some (Except.ok l)) ∧
    mem_find_sig 33562632 wide_proc half_dead_handle "AA BB".toList
      mem_search_mode_t.Search_any (fun _ => 0) = some (Except.ok [0x10000 + 100]) :=
  ⟨wide_proc_in_range _, by decide, by decide,
   (find_sig_survives_read_failures 33562632 wide_proc half_dead_handle "AA BB".toList
      mem_search_mode_t.Search_any (fun _ => 0) (by decide) (by decide) (wide_proc_in_range _)
      (by decide)).1,
   mem_find_sig_fuel_le 20000 33562632 _ _ _ _ _ _ (by decide) half_dead_scan_value⟩

/-- The search for `AA BB` in the 8200-byte region with one occurrence in each
chunk: both are returned, the lower address first. -/
theorem two_match_scan_value :
    mem_find_sig 20000 wide_proc two_match_handle "AA BB".toList mem_search_mode_t.Search_any
      (fun _ => 0) = some (Except.ok [0x10000 + 100, 0x10000 + 8195]) := by
  decide!

/-- The search for `AA` in the three-byte region filled with 0xAA returns its
three addresses in ascending order. -/
theorem tiny_scan_value :
    mem_find_sig 100 tiny_proc tiny_handle "AA".toList mem_search_mode_t.Search_any
      (fun _ => 0) = some (Except.ok [0x10000, 0x10000 + 1, 0x10000 + 2]) := by
  decide

/-- C18 at the 8200-byte region with an occurrence of `AA BB` in each of its
two chunks, returned as `[0x10000 + 100, 0x10000 + 8195]`, and at the
three-byte region filled with 0xAA, whose three addresses are returned in
ascending order for the signature `AA`. -/
theorem find_sig_region_ascending_witness :
    ((∀ r ∈ wide_proc.regions,
        region_selected wide_proc mem_search_mode_t.Search_any r = true → region_in_range r) ∧
      scan_allowance wide_proc ≤ 33562632 ∧
      mem_find_sig 33562632 wide_proc two_match_handle "AA BB".toList
        mem_search_mode_t.Search_any (fun _ => 0) =
          some (Except.ok [0x10000 + 100, 0x10000 + 8195]) ∧
      ∃ news : List (List Nat),
        mem_find_sig 33562632 wide_proc two_match_handle "AA BB".toList
          mem_search_mode_t.Search_any (fun _ => 0) = some (Except.ok news.flatten) ∧
        List.Forall₂ (fun r new =>
            region_scan two_match_handle (decoded_sig_t.ctor "AA BB".toList) (fun _ => 0)
              33562632 r = some new ∧ new.Pairwise (· ≤ ·))
          (wide_proc.regions.filter (region_selected wide_proc mem_search_mode_t.Search_any))
          news) ∧
    ((∀ r ∈ tiny_proc.regions,
        region_selected tiny_proc mem_search_mode_t.Search_any r = true → region_in_range r) ∧
      scan_allowance tiny_proc ≤ 33554435 ∧
      mem_find_sig 33554435 tiny_proc tiny_handle "AA".toList
        mem_search_mode_t.Search_any (fun _ => 0) =
          some (Except.ok [0x10000, 0x10000 + 1, 0x10000 + 2]) ∧
      ∃ news : List (List Nat),
        mem_find_sig 33554435 tiny_proc tiny_handle "AA".toList
          mem_search_mode_t.Search_any (fun _ => 0) = some (Except.ok news.flatten) ∧
        List.Forall₂ (fun r new =>
            region_scan tiny_handle (decoded_sig_t.ctor "AA".toList) (fun _ => 0)
              33554435 r = some new ∧ new.Pairwise (· ≤ ·))
          (tiny_proc.regions.filter (region_selected tiny_proc mem_search_mode_t.Search_any))
          news) :=
  ⟨⟨wide_proc_in_range _, by decide,
    mem_find_sig_fuel_le 20000 33562632 _ _ _ _ _ _ (by decide) two_match_scan_value,
    find_sig_region_ascending 33562632 wide_proc two_match_handle "AA BB".toList
      mem_search_mode_t.Search_any (fun _ => 0) (by decide) (by decide) (wide_proc_in_range _)
      (by decide)⟩,
   ⟨tiny_proc_in_range _, by decide,
    mem_find_sig_fuel_le 100 33554435 _ _ _ _ _ _ (by decide) tiny_scan_value,
    find_sig_region_ascending 33554435 tiny_proc tiny_handle "AA".toList
      mem_search_mode_t.Search_any (fun _ => 0) (by decide) (by decide) (tiny_proc_in_range _)
      (by decide)⟩⟩

/-- C19 at the 8200-byte region with `AA BB` across its chunk boundary. -/
theorem scan_indices_in_bounds_witness :
    region_in_range wide_region ∧
    chunk_loop_checked straddle_handle (decoded_sig_t.ctor "AA BB".toList) wide_region 20000
        20000 wide_region.start (fun _ => 0) 0 [] =
      Except.ok (chunk_loop straddle_handle (decoded_sig_t.ctor "AA BB".toList) wide_region
        20000 20000 wide_region.start (fun _ => 0) 0 []) :=
  ⟨by decide,
   (scan_indices_in_bounds straddle_handle "AA BB".toList wide_region (fun _ => 0) 20000 20000 []
      (by decide) (by decide) (by decide)).1⟩

/-- C20 at the 8200-byte region: the search returns for the allowance
33562632, and the second chunk address is 8190 above the first. -/
theorem find_sig_terminates_in_range_witness :
    (∀ r ∈ wide_proc.regions,
      region_selected wide_proc mem_search_mode_t.Search_any r = true → region_in_range r) ∧
    (∃ l, mem_find_sig 33562632 wide_proc straddle_handle "AA BB".toList
      mem_search_mode_t.Search_any (fun _ => 0) = some (Except.ok l)) ∧
    chunk_next (decoded_sig_t.ctor "AA BB".toList) 0x10000 = 0x10000 + 8190 :=
  ⟨wide_proc_in_range _,
   (find_sig_terminates_in_range wide_proc straddle_handle "AA BB".toList
      mem_search_mode_t.Search_any (fun _ => 0) (by decide) (by decide)
      (wide_proc_in_range _)).1 33562632 (by decide),
   by decide⟩

/-! ## Outside the range: the chunk address comes back to the region start -/

/-- The decoded signature `AA BB`. -/
theorem sig_aa_bb : decoded_sig_t.ctor "AA BB".toList = ⟨[0xAA, 0xBB], [0xFF, 0xFF]⟩ := by
  decide

/-- The checked matching loop for `AA BB` on a window in which every byte is
0xAA: no match is completed and the loop ends with `matched = 1`. -/
theorem scan_checked_all_aa (buf : Nat → Nat) (addr so bytes : Nat)
    (hbuf : ∀ i, so ≤ i → i < bytes → buf i = 0xAA) (hb : bytes ≤ 8192) :
    ∀ (fuel i m : Nat) (out : List Nat), so ≤ i → m ≤ 1 → m ≤ i →
      2 * (bytes - i) + m + 1 ≤ fuel →
      scan_loop_checked ⟨[0xAA, 0xBB], [0xFF, 0xFF]⟩ buf addr so bytes fuel i m out =
        Except.ok (some (if i < bytes then 1 else m, out)) := by
  intro fuel
  induction fuel with
  | zero => intro i m out _ _ _ h; omega
  | succ f ih =>
    intro i m out hso hm1 hmi hfuel
    rw [scan_loop_checked]
    by_cases hi : i < bytes
    · have hbi := hbuf i hso hi
      have hib : i < BUF_SIZE := by simp only [BUF_SIZE]; omega
      have hms : m < (⟨[0xAA, 0xBB], [0xFF, 0xFF]⟩ : decoded_sig_t).size := by
        show m < 2
        omega
      simp only [hi, if_true, hib, hms, not_true_eq_false, if_false, hbi]
      rcases Nat.lt_or_ge m 1 with h0 | h1
      · have hm0 : m = 0 := by omega
        subst hm0
        have hnext : (i + 1) % SIZE_MOD = i + 1 := by
          simp only [SIZE_MOD]; omega
        have hstep := ih (i + 1) 1 out (by omega) (by omega) (by omega) (by omega)
        simp only [decoded_sig_t.size, SIZE_MOD] at hstep hnext ⊢
        simp only [List.getD_cons_zero, List.length_cons, List.length_nil, hnext]
        rw [show (170 &&& 255 : Nat) = 170 from by decide]
        simp only [if_true]
        rw [if_neg (by decide)]
        rw [hstep]
        split <;> rfl
      · have hm1' : m = 1 := by omega
        subst hm1'
        have hrew : (i + SIZE_MOD - 1 + 1) % SIZE_MOD = i := by
          simp only [SIZE_MOD]; omega
        have hstep := ih i 0 out hso (by omega) (by omega) (by omega)
        simp only [hi, if_true] at hstep
        simp only [SIZE_MOD] at hrew
        simp only [List.getD_cons_succ, List.getD_cons_zero, SIZE_MOD, hrew]
        rw [show (170 &&& 255 : Nat) = 170 from by decide]
        rw [if_neg (by decide)]
        have hle : (1 : Nat) ≤ i := hmi
        simp only [hle, not_true_eq_false, if_false]
        exact hstep
    · simp only [hi, if_false]

/-- The chunk address of `wrap_region` is back at the region start after 2^63
chunks and at no chunk before. -/
theorem wrap_addr_facts (j : Nat) (hj : j + 1 < 9223372036854775808) :
    wrap_addr (j + 1) ≠ 0x10000 ∧ wrap_addr (j + 1) % 2 = 0 ∧
      wrap_addr (j + 1) < 18446744073709551616 ∧
      (wrap_addr (j + 1) + 8190) % 18446744073709551616 = wrap_addr j := by
  simp only [wrap_addr]
  refine ⟨?_, ?_, ?_, ?_⟩ <;> omega

/-- A chunk of `wrap_region` entered with `matched = 1` while `j` chunks are
left until the address is back at the region start: after those chunks the
first page is scanned again from `i = 0` with `matched = 1`, and the rewind
at the first mismatch goes below 0. -/
theorem chunk_checked_wrap_region :
    ∀ (j : Nat), j < 9223372036854775808 → ∀ (buf : Nat → Nat) (out : List Nat),
      chunk_loop_checked tiny_handle ⟨[0xAA, 0xBB], [0xFF, 0xFF]⟩ wrap_region 20000 (j + 1)
        (wrap_addr j) buf 1 out = Except.error Fault.rewind := by
  intro j
  induction j with
  | zero =>
    intro _ buf out
    have h0 : wrap_addr 0 = 0x10000 := by decide
    rw [h0, chunk_loop_checked]
    have hso : chunk_start_off ⟨[0xAA, 0xBB], [0xFF, 0xFF]⟩ wrap_region 0x10000 = 0 := by decide
    have hby : chunk_bytes ⟨[0xAA, 0xBB], [0xFF, 0xFF]⟩ wrap_region 0x10000 = 8192 := by decide
    have ha : (0x10000 : Nat) < wrap_region.end_ := by decide
    have hf : tiny_handle.fails 0x10000 8192 = false := rfl
    simp only [ha, if_true, hso, hby, hf, BUF_SIZE, Nat.zero_add, le_refl, not_true_eq_false,
      if_false, Bool.false_eq_true]
    have hscan : scan_loop_checked ⟨[0xAA, 0xBB], [0xFF, 0xFF]⟩
        (read_into tiny_handle buf 0x10000 0 8192) 0x10000 0 8192 20000 0 1 out
          = Except.error Fault.rewind := by
      rw [show (20000 : Nat) = 19999 + 1 from rfl, scan_loop_checked]
      have hb : read_into tiny_handle buf 0x10000 0 8192 0 = 0xAA := by
        simp [read_into, tiny_handle]
      rw [hb]
      rfl
    rw [hscan]
  | succ j ih =>
    intro hj buf out
    obtain ⟨hne, heven, hlt, hnext⟩ := wrap_addr_facts j hj
    have ha : wrap_addr (j + 1) < wrap_region.end_ := by
      show wrap_addr (j + 1) < 18446744073709551615
      omega
    have hso : chunk_start_off ⟨[0xAA, 0xBB], [0xFF, 0xFF]⟩ wrap_region (wrap_addr (j + 1)) = 2 := by
      unfold chunk_start_off
      have hs : wrap_region.start = 0x10000 := rfl
      rw [hs, if_neg hne]
      rfl
    have hby : chunk_bytes ⟨[0xAA, 0xBB], [0xFF, 0xFF]⟩ wrap_region (wrap_addr (j + 1)) ≤ 8190 := by
      unfold chunk_bytes
      have hs : wrap_region.start = 0x10000 := rfl
      have hz : (⟨[0xAA, 0xBB], [0xFF, 0xFF]⟩ : decoded_sig_t).size = 2 := rfl
      simp only [hs, hne, if_false, BUF_SIZE, hz]
      split <;> omega
    have hnx : chunk_next ⟨[0xAA, 0xBB], [0xFF, 0xFF]⟩ (wrap_addr (j + 1)) = wrap_addr j := by
      unfold chunk_next
      exact hnext
    rw [chunk_loop_checked]
    have hf : ∀ b, tiny_handle.fails (wrap_addr (j + 1)) b = false := fun _ => rfl
    have hfit : 2 + chunk_bytes ⟨[0xAA, 0xBB], [0xFF, 0xFF]⟩ wrap_region (wrap_addr (j + 1))
        ≤ BUF_SIZE := by
      simp only [BUF_SIZE]; omega
    simp only [ha, if_true, hso, hfit, not_true_eq_false, if_false, hf, Bool.false_eq_true, hnx]
    have hscan := scan_checked_all_aa
      (read_into tiny_handle buf (wrap_addr (j + 1)) 2
        (chunk_bytes ⟨[0xAA, 0xBB], [0xFF, 0xFF]⟩ wrap_region (wrap_addr (j + 1))))
      (wrap_addr (j + 1)) 2
      (chunk_bytes ⟨[0xAA, 0xBB], [0xFF, 0xFF]⟩ wrap_region (wrap_addr (j + 1)))
      (by
        intro i h2 hi
        have hin : 2 ≤ i ∧ i < 2 + chunk_bytes ⟨[0xAA, 0xBB], [0xFF, 0xFF]⟩ wrap_region
            (wrap_addr (j + 1)) := ⟨h2, by omega⟩
        simp only [read_into, hin, and_self, if_true, tiny_handle])
      (by omega) 20000 2 1 out (le_refl _) (le_refl _) (by omega) (by omega)
    rw [hscan]
    simp only [ite_self]
    exact ih (by omega) _ _

/-- The rewind bound outside the range: in the region from 0x10000 to
2^64 - 1, with every byte 0xAA and the signature `AA BB`, the chunk address
wraps modulo 2^64 and is back at the region start after 2^63 chunks; the
first page is then scanned from `i = 0` with `matched = 1`, and the rewind
`i - matched` at the first mismatch goes below 0. -/
theorem scan_rewind_below_zero_after_wrap :
    chunk_loop_checked tiny_handle (decoded_sig_t.ctor "AA BB".toList) wrap_region 20000
      9223372036854775809 wrap_region.start (fun _ => 0) 0 [] = Except.error Fault.rewind := by
  rw [sig_aa_bb, show (9223372036854775809 : Nat) = 9223372036854775808 + 1 from rfl,
    chunk_loop_checked]
  have hs : wrap_region.start = 0x10000 := rfl
  have hso : chunk_start_off ⟨[0xAA, 0xBB], [0xFF, 0xFF]⟩ wrap_region 0x10000 = 0 := by decide
  have hby : chunk_bytes ⟨[0xAA, 0xBB], [0xFF, 0xFF]⟩ wrap_region 0x10000 = 8192 := by decide
  have ha : (0x10000 : Nat) < wrap_region.end_ := by decide
  have hf : tiny_handle.fails 0x10000 8192 = false := rfl
  have hnx : chunk_next ⟨[0xAA, 0xBB], [0xFF, 0xFF]⟩ 0x10000 = wrap_addr 9223372036854775807 := by
    decide
  have hscan := scan_checked_all_aa (read_into tiny_handle (fun _ => 0) 0x10000 0 8192)
    0x10000 0 8192
    (by
      intro i _ hi
      have hin : 0 ≤ i ∧ i < 0 + 8192 := ⟨Nat.zero_le _, by omega⟩
      simp only [read_into, hin, and_self, if_true, tiny_handle])
    (le_refl _) 20000 0 0 [] (le_refl _) (by decide) (le_refl _) (by decide)
  simp only [hs, ha, if_true, hso, hby, hf, BUF_SIZE, Nat.zero_add, le_refl, not_true_eq_false,
    if_false, Bool.false_eq_true, hnx, hscan]
  exact chunk_checked_wrap_region 9223372036854775807 (by decide) _ _

/-! ## Outside the range: a second pass over the address space -/

/-- The decoded signature `AA`. -/
theorem sig_aa : decoded_sig_t.ctor "AA".toList = ⟨[0xAA], [0xFF]⟩ := by
  decide

/-- The matching loop for `AA` on a window of zero bytes reports nothing. -/
theorem scan_one_byte_no_hit (buf : Nat → Nat) (addr so bytes : Nat) (hb : bytes ≤ 8192) :
    ∀ (fuel i : Nat) (out : List Nat), (∀ k, i ≤ k → k < bytes → buf k = 0) →
      bytes - i + 1 ≤ fuel →
      scan_loop ⟨[0xAA], [0xFF]⟩ buf addr so bytes fuel i 0 out = some (0, out) := by
  intro fuel
  induction fuel with
  | zero => intro i out _ h; omega
  | succ f ih =>
    intro i out hz hfuel
    rw [scan_loop]
    by_cases hi : i < bytes
    · have hnext : (i + SIZE_MOD - 0 + 1) % SIZE_MOD = i + 1 := by
        simp only [SIZE_MOD]; omega
      simp only [hi, if_true, hz i (le_refl _) hi, List.getD_cons_zero, hnext]
      rw [if_neg (by decide)]
      exact ih (i + 1) out (fun k hk hkb => hz k (by omega) hkb) (by omega)
    · simp only [hi, if_false]

/-- The matching loop for `AA` on a window whose only non-zero byte is 0xAA at
index `i0` reports exactly that position. -/
theorem scan_one_byte_one_hit (buf : Nat → Nat) (addr so bytes : Nat) (hb : bytes ≤ 8192)
    (i0 : Nat) (hi0 : i0 < bytes) (hhit : buf i0 = 0xAA) :
    ∀ (fuel i : Nat) (out : List Nat), i ≤ i0 →
      (∀ k, i ≤ k → k < bytes → k ≠ i0 → buf k = 0) → bytes - i + 1 ≤ fuel →
      scan_loop ⟨[0xAA], [0xFF]⟩ buf addr so bytes fuel i 0 out =
        some (0, out ++ [(addr + i0 + 2 * SIZE_MOD - so - 0) % SIZE_MOD]) := by
  intro fuel
  induction fuel with
  | zero => intro i out _ _ h; omega
  | succ f ih =>
    intro i out hle hz hfuel
    rw [scan_loop]
    have hi : i < bytes := by omega
    by_cases h : i = i0
    · subst h
      have hnext : (i + 1) % SIZE_MOD = i + 1 := by
        simp only [SIZE_MOD]; omega
      simp only [hi, if_true, hhit, List.getD_cons_zero, hnext]
      rw [if_pos (by decide), if_pos (by decide)]
      exact scan_one_byte_no_hit buf addr so bytes hb f (i + 1) _
        (fun k hk hkb => hz k (by omega) hkb (by omega)) (by omega)
    · have hnext : (i + SIZE_MOD - 0 + 1) % SIZE_MOD = i + 1 := by
        simp only [SIZE_MOD]; omega
      simp only [hi, if_true, hz i (le_refl _) hi h, List.getD_cons_zero, hnext]
      rw [if_neg (by decide)]
      exact ih (i + 1) out (by omega) (fun k hk hkb hne => hz k (by omega) hkb hne) (by omega)

/-- A later chunk of `sweep_region` above both non-zero bytes: nothing is
reported and the chunk address moves on by 8191 modulo 2^64. -/
theorem sweep_chunk_no_hit (fuel : Nat) (hfuel : 8193 ≤ fuel) (n addr : Nat)
    (buf : Nat → Nat) (out : List Nat) (ha : 73719 ≤ addr) (hlt : addr < 18446744073709551615) :
    chunk_loop sweep_handle ⟨[0xAA], [0xFF]⟩ sweep_region fuel (n + 1) addr buf 0 out =
      chunk_loop sweep_handle ⟨[0xAA], [0xFF]⟩ sweep_region fuel n
        ((addr + 8191) % 18446744073709551616)
        (read_into sweep_handle buf addr 1 (chunk_bytes ⟨[0xAA], [0xFF]⟩ sweep_region addr))
        0 out := by
  have hne : addr ≠ sweep_region.start := by
    show addr ≠ 65528
    omega
  have hend : addr < sweep_region.end_ := hlt
  have hso : chunk_start_off ⟨[0xAA], [0xFF]⟩ sweep_region addr = 1 := by
    unfold chunk_start_off
    rw [if_neg hne]
    rfl
  have hby : chunk_bytes ⟨[0xAA], [0xFF]⟩ sweep_region addr ≤ 8191 := by
    unfold chunk_bytes
    have hz : (⟨[0xAA], [0xFF]⟩ : decoded_sig_t).size = 1 := rfl
    simp only [hne, if_false, BUF_SIZE, hz]
    split <;> omega
  have hnx : chunk_next ⟨[0xAA], [0xFF]⟩ addr = (addr + 8191) % 18446744073709551616 := rfl
  have hf : ∀ b, sweep_handle.fails addr b = false := fun _ => rfl
  rw [chunk_loop_succ]
  simp only [hend, if_true, hf, Bool.false_eq_true, if_false, hso, hnx]
  rw [scan_one_byte_no_hit _ addr 1 _ (by omega) fuel 1 out
    (by
      intro k h1 hk
      have hin : 1 ≤ k ∧ k < 1 + chunk_bytes ⟨[0xAA], [0xFF]⟩ sweep_region addr :=
        ⟨h1, by omega⟩
      simp only [read_into, hin, and_self, if_true, sweep_handle]
      rw [if_neg (by omega), if_neg (by omega)])
    (by omega)]

/-- The first chunk of `sweep_region`: 0xAA at offset 5 is reported. -/
theorem sweep_chunk_first (fuel : Nat) (hfuel : 8193 ≤ fuel) (n : Nat) (buf : Nat → Nat)
    (out : List Nat) :
    chunk_loop sweep_handle ⟨[0xAA], [0xFF]⟩ sweep_region fuel (n + 1) 65528 buf 0 out =
      chunk_loop sweep_handle ⟨[0xAA], [0xFF]⟩ sweep_region fuel n 73719
        (read_into sweep_handle buf 65528 0 8192) 0 (out ++ [65533]) := by
  have hend : (65528 : Nat) < sweep_region.end_ := by decide
  have hso : chunk_start_off ⟨[0xAA], [0xFF]⟩ sweep_region 65528 = 0 := by decide
  have hby : chunk_bytes ⟨[0xAA], [0xFF]⟩ sweep_region 65528 = 8192 := by decide
  have hnx : chunk_next ⟨[0xAA], [0xFF]⟩ 65528 = 73719 := by decide
  have hf : ∀ b, sweep_handle.fails 65528 b = false := fun _ => rfl
  rw [chunk_loop_succ]
  simp only [hend, if_true, hf, Bool.false_eq_true, if_false, hso, hby, hnx]
  rw [scan_one_byte_one_hit _ 65528 0 8192 (le_refl _) 5 (by decide)
    (by simp [read_into, sweep_handle]) fuel 0 out (by decide)
    (by
      intro k _ hk hne
      have hin : 0 ≤ k ∧ k < 0 + 8192 := ⟨Nat.zero_le _, by omega⟩
      simp only [read_into, hin, and_self, if_true, sweep_handle]
      rw [if_neg (by omega), if_neg (by omega)])
    (by omega)]
  rfl

/-- The first chunk after the chunk address has wrapped, at address 4095:
0xAA at address 5000, below the region start, is reported. -/
theorem sweep_chunk_after_wrap (fuel : Nat) (hfuel : 8193 ≤ fuel) (n : Nat) (buf : Nat → Nat)
    (out : List Nat) :
    chunk_loop sweep_handle ⟨[0xAA], [0xFF]⟩ sweep_region fuel (n + 1) 4095 buf 0 out =
      chunk_loop sweep_handle ⟨[0xAA], [0xFF]⟩ sweep_region fuel n 12286
        (read_into sweep_handle buf 4095 1 8191) 0 (out ++ [5000]) := by
  have hend : (4095 : Nat) < sweep_region.end_ := by decide
  have hso : chunk_start_off ⟨[0xAA], [0xFF]⟩ sweep_region 4095 = 1 := by decide
  have hby : chunk_bytes ⟨[0xAA], [0xFF]⟩ sweep_region 4095 = 8191 := by decide
  have hnx : chunk_next ⟨[0xAA], [0xFF]⟩ 4095 = 12286 := by decide
  have hf : ∀ b, sweep_handle.fails 4095 b = false := fun _ => rfl
  rw [chunk_loop_succ]
  simp only [hend, if_true, hf, Bool.false_eq_true, if_false, hso, hby, hnx]
  rw [scan_one_byte_one_hit _ 4095 1 8191 (by decide) 906 (by decide)
    (by simp [read_into, sweep_handle]) fuel 1 out (by decide)
    (by
      intro k h1 hk hne
      have hin : 1 ≤ k ∧ k < 1 + 8191 := ⟨h1, by omega⟩
      simp only [read_into, hin, and_self, if_true, sweep_handle]
      rw [if_neg (by omega), if_neg (by omega)])
    (by omega)]
  rfl

/-- The first pass over `sweep_region` after its first chunk: the chunk
address climbs in steps of 8191 to 2^64 - 4096, steps over the region end
2^64 - 1 and wraps to 4095; nothing is reported on the way. -/
theorem sweep_first_lap (fuel : Nat) (hfuel : 8193 ≤ fuel) :
    ∀ (j : Nat), 8191 * j + 77815 ≤ 18446744073709551616 →
      ∀ (n : Nat) (buf : Nat → Nat) (out : List Nat), ∃ buf2,
        chunk_loop sweep_handle ⟨[0xAA], [0xFF]⟩ sweep_region fuel (n + j + 1)
          (18446744073709547520 - 8191 * j) buf 0 out =
        chunk_loop sweep_handle ⟨[0xAA], [0xFF]⟩ sweep_region fuel n 4095 buf2 0 out := by
  intro j
  induction j with
  | zero =>
    intro _ n buf out
    refine ⟨read_into sweep_handle buf 18446744073709547520 1
      (chunk_bytes ⟨[0xAA], [0xFF]⟩ sweep_region 18446744073709547520), ?_⟩
    rw [show n + 0 + 1 = n + 1 from rfl,
      show 18446744073709547520 - 8191 * 0 = 18446744073709547520 from rfl,
      sweep_chunk_no_hit fuel hfuel _ _ _ _ (by decide) (by decide)]
  | succ j ih =>
    intro hj n buf out
    obtain ⟨buf2, h2⟩ := ih (by omega) n
      (read_into sweep_handle buf (18446744073709547520 - 8191 * (j + 1)) 1
        (chunk_bytes ⟨[0xAA], [0xFF]⟩ sweep_region (18446744073709547520 - 8191 * (j + 1))))
      out
    refine ⟨buf2, ?_⟩
    rw [show n + (j + 1) + 1 = (n + j + 1) + 1 from rfl,
      sweep_chunk_no_hit fuel hfuel _ _ _ _ (by omega) (by omega)]
    have hnext : (18446744073709547520 - 8191 * (j + 1) + 8191) % 18446744073709551616 =
        18446744073709547520 - 8191 * j := by omega
    rw [hnext]
    exact h2

/-- The second pass over `sweep_region`: from a chunk address that is a
multiple of 8191 below the region end the chunk loop returns. -/
theorem sweep_second_lap (fuel : Nat) (hfuel : 8193 ≤ fuel) :
    ∀ (j : Nat), 8191 * j + 4096 ≤ 18446744073709551616 →
      ∀ (n : Nat) (buf : Nat → Nat) (out : List Nat), j ≤ n → ∃ res,
        chunk_loop sweep_handle ⟨[0xAA], [0xFF]⟩ sweep_region fuel n
          (18446744073709551615 - 8191 * j) buf 0 out = some res := by
  intro j
  induction j with
  | zero =>
    intro _ n buf out _
    exact ⟨out, chunk_loop_done _ _ _ _ _ _ _ _ _ (by decide)⟩
  | succ j ih =>
    intro hj n buf out hn
    obtain ⟨n2, rfl⟩ : ∃ n2, n = n2 + 1 := ⟨n - 1, by omega⟩
    have hne : 18446744073709551615 - 8191 * (j + 1) ≠ sweep_region.start := by
      show _ ≠ 65528
      omega
    have hend : 18446744073709551615 - 8191 * (j + 1) < sweep_region.end_ := by
      show _ < 18446744073709551615
      omega
    have hso : chunk_start_off ⟨[0xAA], [0xFF]⟩ sweep_region
        (18446744073709551615 - 8191 * (j + 1)) = 1 := by
      unfold chunk_start_off
      rw [if_neg hne]
      rfl
    have hby : chunk_bytes ⟨[0xAA], [0xFF]⟩ sweep_region
        (18446744073709551615 - 8191 * (j + 1)) ≤ 8191 := by
      unfold chunk_bytes
      have hz : (⟨[0xAA], [0xFF]⟩ : decoded_sig_t).size = 1 := rfl
      simp only [hne, if_false, BUF_SIZE, hz]
      split <;> omega
    have hnx : chunk_next ⟨[0xAA], [0xFF]⟩ (18446744073709551615 - 8191 * (j + 1)) =
        18446744073709551615 - 8191 * j := by
      show (18446744073709551615 - 8191 * (j + 1) + 8191) % 18446744073709551616 = _
      omega
    have hf : ∀ b, sweep_handle.fails (18446744073709551615 - 8191 * (j + 1)) b = false :=
      fun _ => rfl
    rw [chunk_loop_succ]
    simp only [hend, if_true, hf, Bool.false_eq_true, if_false, hso, hnx]
    obtain ⟨m2, more, hscan, hm2, -⟩ := scan_loop_general ⟨[0xAA], [0xFF]⟩
      (read_into sweep_handle buf (18446744073709551615 - 8191 * (j + 1)) 1
        (chunk_bytes ⟨[0xAA], [0xFF]⟩ sweep_region (18446744073709551615 - 8191 * (j + 1))))
      (18446744073709551615 - 8191 * (j + 1)) 1
      (chunk_bytes ⟨[0xAA], [0xFF]⟩ sweep_region (18446744073709551615 - 8191 * (j + 1)))
      (by decide) (by decide) (by simp only [BUF_SIZE]; omega)
      (by simp only [BUF_SIZE, SIZE_MOD]; omega) (by omega) fuel 1 0 out (by omega) (by decide)
      (by
        have hz : (⟨[0xAA], [0xFF]⟩ : decoded_sig_t).size = 1 := rfl
        rw [hz]
        omega)
    have hm0 : m2 = 0 := by
      have hz : (⟨[0xAA], [0xFF]⟩ : decoded_sig_t).size = 1 := rfl
      rw [hz] at hm2
      omega
    subst hm0
    rw [hscan]
    exact ih (by omega) n2 _ _ (by omega)

/-- The order of the reports outside the range: in the region from 65528 to
2^64 - 1, with the signature `AA` and 0xAA at the addresses 65533 and 5000,
the chunk address steps over the region end, wraps modulo 2^64 and passes over
the address space a second time; the search returns, and it reports 65533
first and the smaller address 5000 after it. -/
theorem find_sig_reports_descending_after_wrap :
    ∃ rest, mem_find_sig 9007199254740992 sweep_proc sweep_handle "AA".toList
      mem_search_mode_t.Search_any (fun _ => 0) = some (Except.ok (65533 :: 5000 :: rest)) := by
  have hF : (8193 : Nat) ≤ 9007199254740992 := by decide
  have h1 := sweep_chunk_first 9007199254740992 hF 9007199254740991 (fun _ => 0) []
  obtain ⟨buf2, h2⟩ := sweep_first_lap 9007199254740992 hF 2252074725150711 (by decide)
    6755124529590279 (read_into sweep_handle (fun _ => 0) 65528 0 8192) ([] ++ [65533])
  have h3 := sweep_chunk_after_wrap 9007199254740992 hF 6755124529590278 buf2 ([] ++ [65533])
  obtain ⟨res, h4⟩ := sweep_second_lap 9007199254740992 hF 2252074725150719 (by decide)
    6755124529590278 (read_into sweep_handle buf2 4095 1 8191) ([] ++ [65533] ++ [5000])
    (by decide)
  have hrun : chunk_loop sweep_handle ⟨[0xAA], [0xFF]⟩ sweep_region 9007199254740992
      9007199254740992 65528 (fun _ => 0) 0 [] = some res :=
    h1.trans (h2.trans (h3.trans h4))
  obtain ⟨rest, hrest⟩ := chunk_loop_extends _ _ _ _ _ _ _ _ _ _ h4
  refine ⟨rest, ?_⟩
  have hnot : ¬ (decoded_sig_t.ctor "AA".toList).size ≥ 4096 := by decide
  have hsel : region_selected sweep_proc mem_search_mode_t.Search_any sweep_region = true := by
    decide
  have hregs : sweep_proc.regions = [sweep_region] := rfl
  have hstart : sweep_region.start = 65528 := rfl
  simp only [mem_find_sig, hnot, if_false]
  rw [hregs, region_loop]
  simp only [hsel, if_true, sig_aa, hstart, hrun, region_loop]
  rw [← hrest]
  rfl

end XivMudraFix
